import Mathlib

/-!
# Finite-field polynomial engine (`polynom_t`) — shallow embedding

Source: `src/Convolutions/polynom_t.cpp`.

* Field elements `static_modular_int<mod>` are values of `ZMod mod`; the class itself is
  not part of the sources, its operations are modelled from the specification
  (`T.power`, `fdiv`) and its primitive root is a parameter `g` of every operation that
  reaches the transform.
* `std::vector` is `List`; `v[i]` is `v.getD i 0`, `v[i] = x` is `v.set i x`.
* `int` variables hold lengths and indices and are natural numbers here (a `std::vector`
  of more than `2^31` coefficients is outside the model); `degree()` returns an `Int`.
* `assert` failures and failing field divisions are `none`.
* The function-local `static` tables of `fft` are the explicit state `fft_cache`,
  threaded through every operation that multiplies.
* `while`/`for` loops whose bound is not a plain counter carry a fuel argument; the
  callers pass enough fuel and the theorems below prove the loops finish.
-/

set_option autoImplicit false

/-- The field element type `static_modular_int<mod>`. -/
abbrev T (mod : Nat) := ZMod mod

/-- The class `polynom_t<mod>`: a `std::vector` of field elements. -/
abbrev polynom_t (mod : Nat) := List (ZMod mod)

/-- The two function-local `static` tables of `polynom_t::fft`. -/
structure fft_cache (mod : Nat) where
  reversed_mask : List Nat
  roots : List (ZMod mod)
  deriving DecidableEq

/-- The tables before the first call of `fft`. -/
def fft_cache.init (mod : Nat) : fft_cache mod := ⟨[], []⟩

/-- The call `std::vector::resize(n)`: truncate or pad with value-initialised elements. -/
def vec_resize {α : Type} (d : α) (v : List α) (n : Nat) : List α :=
  v.take n ++ List.replicate (n - v.length) d

/-- The loop of `std::__lg`. -/
def std_lg_loop : Nat → Nat → Nat
  | 0, _ => 0
  | fuel + 1, n => if n < 2 then 0 else std_lg_loop fuel (n / 2) + 1

/-- The builtin `std::__lg(n)`: the index of the highest set bit. -/
def std_lg (n : Nat) : Nat := std_lg_loop n n

/-- The squaring loop of `T.power`. -/
def T.power_loop {mod : Nat} : Nat → ZMod mod → Nat → ZMod mod → ZMod mod
  | 0, _, _, prod => prod
  | fuel + 1, a, degree, prod =>
    if degree = 0 then prod
    else T.power_loop fuel (a * a) (degree / 2) (if degree % 2 = 1 then prod * a else prod)

/-- Modelled from the spec: `static_modular_int::power` is missing from the sources; the
spec lists "exponentiation by an integer power" among the field capabilities. It is
computed by repeated squaring. -/
def T.power {mod : Nat} (a : ZMod mod) (degree : Nat) : ZMod mod :=
  T.power_loop degree a degree 1

/-- Modelled from the spec: `static_modular_int::operator/` is missing from the sources; the
spec gives "division (contract: divisor ≠ 0 → else fails)" and "÷ via modular inverse".
The inverse of a nonzero `b` is `b ^ (mod - 2)`. -/
def fdiv {mod : Nat} (a b : ZMod mod) : Option (ZMod mod) :=
  if b = 0 then none else some (a * T.power b (mod - 2))

/-- The modulus `17` is prime. -/
instance fact_prime_17 : Fact (Nat.Prime 17) := ⟨by norm_num⟩

/-- The modulus `193` is prime. -/
instance fact_prime_193 : Fact (Nat.Prime 193) := ⟨by norm_num⟩

namespace polynom_t

variable {mod : Nat}

/-- `polynom_t::resize`. -/
def resize (p : polynom_t mod) (n : Nat) : polynom_t mod := vec_resize 0 p n

/-- `polynom_t::normalize`: pop trailing zero coefficients. -/
def normalize (p : polynom_t mod) : polynom_t mod :=
  p.rdropWhile (fun x => decide (x = 0))

/-- The loop of `polynom_t::degree`; the argument is `deg + 1`. -/
def degree_loop (p : polynom_t mod) : Nat → Int
  | 0 => -1
  | k + 1 => if p.getD k 0 = 0 then degree_loop p k else (k : Int)

/-- `polynom_t::degree`. -/
def degree (p : polynom_t mod) : Int := degree_loop p p.length

/-- The innermost loop of `fft`: the butterflies of the block starting at `i`. -/
def fft_butterflies (root : ZMod mod) (len i : Nat) (a : polynom_t mod) : polynom_t mod :=
  ((List.range len).foldl (fun (s : polynom_t mod × ZMod mod) j =>
    let value := s.1.getD (i + j + len) 0 * s.2
    let a1 := s.1.set (i + j + len) (s.1.getD (i + j) 0 - value)
    let a2 := a1.set (i + j) (a1.getD (i + j) 0 + value)
    (a2, s.2 * root)) (a, 1)).1

/-- The loop `for (int i = 0; i < n; i += (len << 1))` of `fft`. -/
def fft_blocks (root : ZMod mod) (len n : Nat) : Nat → Nat → polynom_t mod → polynom_t mod
  | 0, _, a => a
  | fuel + 1, i, a =>
    if i < n then fft_blocks root len n fuel (i + (len <<< 1)) (fft_butterflies root len i a)
    else a

/-- The loop `for (int len = 1; len < n; len <<= 1)` of `fft`. -/
def fft_stages (roots : List (ZMod mod)) (n : Nat) : Nat → Nat → polynom_t mod → polynom_t mod
  | 0, _, a => a
  | fuel + 1, len, a =>
    if len < n then
      fft_stages roots n fuel (len <<< 1) (fft_blocks (roots.getD (std_lg len) 0) len n n 0 a)
    else a

/-- The table `reversed_mask` as `fft` leaves it for a buffer of length `n`. -/
def fft_reversed_mask (old : List Nat) (n lg : Nat) : List Nat :=
  if old.length ≠ n then
    (List.range' 1 (n - 1)).foldl (fun rm mask =>
      rm.set mask ((rm.getD (mask >>> 1) 0 >>> 1) + ((mask &&& 1) <<< (lg - 1))))
      (vec_resize 0 old n)
  else old

/-- The table `roots` as `fft` leaves it for a buffer of length `2 ^ lg`. -/
def fft_roots (g : ZMod mod) (old : List (ZMod mod)) (lg : Nat) : List (ZMod mod) :=
  if old.length ≠ lg then
    (List.range lg).foldl (fun r i => r.set i (T.power g ((mod - 1) / (2 <<< i))))
      (vec_resize 0 old lg)
  else old

/-- The swap loop of `fft`. -/
def fft_permute (reversed_mask : List Nat) (a : polynom_t mod) : polynom_t mod :=
  (List.range a.length).foldl (fun a i =>
    if reversed_mask.getD i 0 < i then
      (a.set i (a.getD (reversed_mask.getD i 0) 0)).set (reversed_mask.getD i 0) (a.getD i 0)
    else a) a

/-- `polynom_t::fft`, with the primitive root `g` of the field. -/
def fft (g : ZMod mod) (c : fft_cache mod) (a : polynom_t mod) :
    Option (fft_cache mod × polynom_t mod) :=
  if a.isEmpty then some (c, a)
  else
    let n := a.length
    if n &&& (n - 1) ≠ 0 then none
    else
      let lg := std_lg n
      let reversed_mask := fft_reversed_mask c.reversed_mask n lg
      let roots := fft_roots g c.roots lg
      some (⟨reversed_mask, roots⟩, fft_stages roots n n 1 (fft_permute reversed_mask a))

/-- `polynom_t::operator+=`. -/
def add_assign (p q : polynom_t mod) : polynom_t mod :=
  (List.range q.length).foldl (fun a i => a.set i (a.getD i 0 + q.getD i 0))
    (if p.length < q.length then resize p q.length else p)

/-- `polynom_t::operator-=`. -/
def sub_assign (p q : polynom_t mod) : polynom_t mod :=
  (List.range q.length).foldl (fun a i => a.set i (a.getD i 0 - q.getD i 0))
    (if p.length < q.length then resize p q.length else p)

/-- The double loop of the small-size branch of `operator*=`. -/
def mul_brute (p q : polynom_t mod) : polynom_t mod :=
  (List.range p.length).foldl (fun product i =>
    (List.range q.length).foldl (fun product j =>
      product.set (i + j) (product.getD (i + j) 0 + p.getD i 0 * q.getD j 0)) product)
    (List.replicate (p.length + q.length - 1) 0)

/-- The loop `while (n < real_size) n <<= 1` of `operator*=`. -/
def mul_grow (real_size : Nat) : Nat → Nat → Nat
  | 0, n => n
  | fuel + 1, n => if n < real_size then mul_grow real_size fuel (n <<< 1) else n

/-- The transform branch of `operator*=`. -/
def mul_fft (g : ZMod mod) (c : fft_cache mod) (p q : polynom_t mod) :
    Option (fft_cache mod × polynom_t mod) :=
  let real_size := p.length + q.length - 1
  let n := mul_grow real_size real_size 1
  match fft g c (resize p n) with
  | none => none
  | some (c1, a) =>
    match fft g c1 (resize q n) with
    | none => none
    | some (c2, b) =>
      match fft g c2 ((List.range n).foldl (fun a i => a.set i (a.getD i 0 * b.getD i 0)) a) with
      | none => none
      | some (c3, a) =>
        match fdiv 1 (n : ZMod mod) with
        | none => none
        | some inv_n =>
          some (c3, (resize (a.take 1 ++ (a.drop 1).reverse) real_size).map (fun x => x * inv_n))

/-- `polynom_t::operator*=` (and `operator*`, which copies and calls it). -/
def mul_assign (g : ZMod mod) (c : fft_cache mod) (p q : polynom_t mod) :
    Option (fft_cache mod × polynom_t mod) :=
  if p.isEmpty ∨ q.isEmpty then some (c, [])
  else if min p.length q.length ≤ 20 ∨ max p.length q.length ≤ 64 then some (c, mul_brute p q)
  else mul_fft g c p q

/-- `polynom_t::derivative`. -/
def derivative (p : polynom_t mod) : polynom_t mod :=
  (List.range (p.length - 1)).foldl (fun der i =>
    der.set i (((i + 1 : Nat) : ZMod mod) * p.getD (i + 1) 0))
    (List.replicate (p.length - 1) 0)

/-- `polynom_t::integral`. -/
def integral (p : polynom_t mod) (constant : ZMod mod) : Option (polynom_t mod) :=
  (List.range' 1 p.length).foldl (fun acc i =>
    match acc with
    | none => none
    | some r =>
      match fdiv (p.getD (i - 1) 0) ((i : Nat) : ZMod mod) with
      | none => none
      | some v => some (r.set i v))
    (some ((List.replicate (p.length + 1) 0).set 0 constant))

/-- The seed loop of `inv`: returns the pair `(inv, have)`. -/
def inv_seed (p : polynom_t mod) (start_inv : ZMod mod) (sz : Nat) :
    polynom_t mod × polynom_t mod :=
  (List.range sz).foldl (fun (s : polynom_t mod × polynom_t mod) i =>
    let inv := s.1.set i (((if i = 0 then 1 else 0) - s.2.getD i 0) * start_inv)
    let steps := min p.length (sz - i)
    (inv, (List.range steps).foldl (fun h j =>
      h.set (i + j) (h.getD (i + j) 0 + inv.getD i 0 * p.getD j 0)) s.2))
    (List.replicate sz 0, List.replicate sz 0)

/-- The doubling loop of `inv`. -/
def inv_newton (g : ZMod mod) (p : polynom_t mod) (degree : Nat) :
    Nat → Nat → fft_cache mod → polynom_t mod → Option (fft_cache mod × polynom_t mod)
  | 0, _, c, inv => some (c, inv)
  | fuel + 1, power, c, inv =>
    if power < degree then
      match mul_assign g c (p.take (min p.length (power <<< 1))) inv with
      | none => none
      | some (c1, t) =>
        match mul_assign g c1 inv (sub_assign [2] (resize t (power <<< 1))) with
        | none => none
        | some (c2, inv2) =>
          inv_newton g p degree fuel (power <<< 1) c2 (resize inv2 (min degree (power <<< 1)))
    else some (c, inv)

/-- `polynom_t::inv`. -/
def inv (g : ZMod mod) (c : fft_cache mod) (p : polynom_t mod) (degree : Nat) :
    Option (fft_cache mod × polynom_t mod) :=
  if p.isEmpty ∨ p.getD 0 0 = 0 then none
  else
    match fdiv 1 (p.getD 0 0) with
    | none => none
    | some start_inv =>
      let sz := min degree 128
      match inv_newton g p degree degree sz c (inv_seed p start_inv sz).1 with
      | none => none
      | some (c1, r) => some (c1, resize r degree)

/-- `polynom_t::log`. -/
def log (g : ZMod mod) (c : fft_cache mod) (p : polynom_t mod) (degree : Nat) :
    Option (fft_cache mod × polynom_t mod) :=
  if p.isEmpty ∨ p.getD 0 0 ≠ 1 then none
  else
    match inv g c p degree with
    | none => none
    | some (c1, pinv) =>
      match mul_assign g c1 (resize (derivative p) degree) pinv with
      | none => none
      | some (c2, t) =>
        match integral (resize t degree) 0 with
        | none => none
        | some r => some (c2, resize r degree)

/-- The doubling loop of `exp`. The source writes `polynom_t<MOD>` for the two
temporaries, which only compiles when `MOD` is the template argument `mod`. -/
def exp_loop (g : ZMod mod) (p : polynom_t mod) (degree : Nat) :
    Nat → Nat → fft_cache mod → polynom_t mod → Option (fft_cache mod × polynom_t mod)
  | 0, _, c, e => some (c, e)
  | fuel + 1, power, c, e =>
    if power < degree then
      match log g c e (power <<< 1) with
      | none => none
      | some (c1, l) =>
        match mul_assign g c1 e
            (add_assign (sub_assign [1] l) (p.take (min p.length (power <<< 1)))) with
        | none => none
        | some (c2, e2) =>
          exp_loop g p degree fuel (power <<< 1) c2 (resize e2 (min degree (power <<< 1)))
    else some (c, e)

/-- `polynom_t::exp`. -/
def exp (g : ZMod mod) (c : fft_cache mod) (p : polynom_t mod) (degree : Nat) :
    Option (fft_cache mod × polynom_t mod) :=
  if p.isEmpty ∨ p.getD 0 0 ≠ 0 then none
  else
    match exp_loop g p degree degree 1 c [1] with
    | none => none
    | some (c1, e) => some (c1, resize e degree)

/-- The loop of the long-division branch of `operator/=`; the counter is `i - (m - 1) + 1`,
the state is `(a, quotient)`. -/
def div_loop (b : polynom_t mod) (inv_b : ZMod mod) (m : Nat) :
    Nat → polynom_t mod × polynom_t mod → polynom_t mod × polynom_t mod
  | 0, s => s
  | k + 1, s =>
    let i := m - 1 + k
    let pos := i + 1 - m
    let quotient := s.2.set pos (s.1.getD i 0 * inv_b)
    div_loop b inv_b m k
      ((List.range m).foldl (fun a j =>
        a.set (pos + j) (a.getD (pos + j) 0 - b.getD j 0 * quotient.getD pos 0)) s.1, quotient)

/-- The long-division branch of `operator/=` on normalized operands. -/
def div_long (a b : polynom_t mod) : Option (polynom_t mod) :=
  match fdiv 1 (b.getD (b.length - 1) 0) with
  | none => none
  | some inv_b =>
    some (normalize (div_loop b inv_b b.length (a.length - b.length + 1)
      (a, List.replicate (a.length - b.length + 1) 0)).2)

/-- The reversal branch of `operator/=` on normalized operands. -/
def div_reverse (g : ZMod mod) (c : fft_cache mod) (a b : polynom_t mod) :
    Option (fft_cache mod × polynom_t mod) :=
  match inv g c b.reverse (a.length - b.length + 1) with
  | none => none
  | some (c1, binv) =>
    match mul_assign g c1 a.reverse binv with
    | none => none
    | some (c2, quotient) =>
      some (c2, normalize (resize quotient (a.length - b.length + 1)).reverse)

/-- `polynom_t::operator/=` (and `operator/`). -/
def div_assign (g : ZMod mod) (c : fft_cache mod) (p q : polynom_t mod) :
    Option (fft_cache mod × polynom_t mod) :=
  let a := normalize p
  let b := normalize q
  if b.isEmpty then none
  else if a.length < b.length then some (c, [])
  else if a.length ≤ 128 ∨ b.length ≤ 64 then
    match div_long a b with
    | none => none
    | some quotient => some (c, quotient)
  else div_reverse g c a b

/-- `polynom_t::operator%=` (and `operator%`). -/
def mod_assign (g : ZMod mod) (c : fft_cache mod) (p q : polynom_t mod) :
    Option (fft_cache mod × polynom_t mod) :=
  match div_assign g c p q with
  | none => none
  | some (c1, d) =>
    match mul_assign g c1 d q with
    | none => none
    | some (c2, e) => some (c2, normalize (sub_assign p e))

/-! ### Reference notions the theorems compare the code with -/

/-- Coefficient `k` of the product of two coefficient sequences: the sum of `p[i] * q[j]`
over `i + j = k`. -/
def conv_coeff (p q : polynom_t mod) (k : Nat) : ZMod mod :=
  ∑ x in Finset.antidiagonal k, p.getD x.1 0 * q.getD x.2 0

/-- The exact convolution of two coefficient sequences: empty when one of them is empty,
otherwise of length `|p| + |q| - 1`. -/
def conv (p q : polynom_t mod) : polynom_t mod :=
  if p.isEmpty ∨ q.isEmpty then []
  else (List.range (p.length + q.length - 1)).map (conv_coeff p q)

/-- The polynomial a coefficient sequence stands for. -/
def toPoly (p : polynom_t mod) : Polynomial (ZMod mod) :=
  ⟨⟨(Finset.range p.length).filter (fun i => p.getD i 0 ≠ 0), fun i => p.getD i 0, by
    intro a
    simp only [Finset.mem_filter, Finset.mem_range]
    constructor
    · intro h; exact h.2
    · intro h
      refine ⟨?_, h⟩
      by_contra hh
      exact h (List.getD_eq_default _ _ (by omega))⟩⟩

/-- The `k`-bit reversal of `m`. -/
def brev : Nat → Nat → Nat
  | 0, _ => 0
  | k + 1, m => (m % 2) * 2 ^ k + brev k (m / 2)

/-- Entry `t` of the number-theoretic transform of `a` with the root of unity `w`: the sum
over `j` of `a[j] * w^(j*t)`. -/
def ntt_coeff (w : ZMod mod) (a : polynom_t mod) (t : Nat) : ZMod mod :=
  ∑ j in Finset.range a.length, a.getD j 0 * w ^ (j * t)

/-- The number-theoretic transform of `a` with the root of unity `w`. -/
def ntt (w : ZMod mod) (a : polynom_t mod) : polynom_t mod :=
  (List.range a.length).map (ntt_coeff w a)

/-- What cell `blk * 2^s + t` of the buffer holds after `s` stages of `fft` on the input
`a0` of length `2^lg`: entry `t` of the transform, with root `rt`, of the `2^s` inputs
whose index is `brev (lg - s) blk` modulo `2^(lg - s)`. -/
def fft_block_value (rt : ZMod mod) (a0 : polynom_t mod) (lg s blk t : Nat) : ZMod mod :=
  ∑ j in Finset.range (2 ^ s), a0.getD (j * 2 ^ (lg - s) + brev (lg - s) blk) 0 * rt ^ (j * t)

/-- The invariant of the two `static` tables of `fft`: `reversed_mask` is empty or the
bit-reversal table of its own (power-of-two) length, and `roots[i]` is
`g ^ ((mod - 1) / 2^(i+1))` for every stored `i`. -/
def cache_ok (g : ZMod mod) (c : fft_cache mod) : Prop :=
  (c.reversed_mask = [] ∨ ∃ lg, c.reversed_mask.length = 2 ^ lg ∧
    ∀ i, i < 2 ^ lg → c.reversed_mask.getD i 0 = brev lg i) ∧
  (∀ i, i < c.roots.length → c.roots.getD i 0 = g ^ ((mod - 1) / 2 ^ (i + 1)))

/-- The modulus admits a transform long enough for `N` coefficients: some power of two
`2^K ≥ N` divides `mod - 1` (equivalently, the least power of two `≥ N` does). -/
def admits (mod N : Nat) : Prop := ∃ K, N ≤ 2 ^ K ∧ 2 ^ K ∣ mod - 1

/-- The product of two sequences of lengths `a` and `b` takes the direct branch of
`operator*=`, or the modulus admits the transform length. -/
def mul_ok (mod a b : Nat) : Prop :=
  min a b ≤ 20 ∨ max a b ≤ 64 ∨ admits mod (a + b - 1)

/-- Two polynomials agree on the coefficients of index below `n`. -/
def modX (n : Nat) (A B : Polynomial (ZMod mod)) : Prop := Polynomial.X ^ n ∣ A - B

/-! ### A closed form of the transform, for any table of roots

The loops of `fft` update the buffer cell by cell; the functions below compute the same
buffers block by block, which is what the evaluation on concrete inputs uses. -/

/-- The successive values `cur, cur * root, cur * root^2, ...` of `current` in a block. -/
def pow_list (root : ZMod mod) : Nat → ZMod mod → List (ZMod mod)
  | 0, _ => []
  | k + 1, cur => cur :: pow_list root k (cur * root)

/-- The butterflies of one block `x ++ y` of size `2 * len`. -/
def stage_block (root : ZMod mod) (len : Nat) (blk : polynom_t mod) : polynom_t mod :=
  List.zipWith (fun a v => a + v) (blk.take len)
      (List.zipWith (fun b w => b * w) (blk.drop len) (pow_list root len 1)) ++
    List.zipWith (fun a v => a - v) (blk.take len)
      (List.zipWith (fun b w => b * w) (blk.drop len) (pow_list root len 1))

/-- One stage over `B` consecutive blocks of size `2 * len`. -/
def stage_fast (root : ZMod mod) (len : Nat) : Nat → polynom_t mod → polynom_t mod
  | 0, a => a
  | B + 1, a =>
    stage_block root len (a.take (2 * len)) ++ stage_fast root len B (a.drop (2 * len))

/-- The stages `s, s+1, ..., lg-1` (there are `d` of them), stage `s` with root `rt s`. -/
def fft_fast_loop (rt : Nat → ZMod mod) (lg : Nat) : Nat → Nat → polynom_t mod → polynom_t mod
  | 0, _, a => a
  | d + 1, s, a =>
    fft_fast_loop rt lg d (s + 1) (stage_fast (rt s) (2 ^ s) (2 ^ (lg - s - 1)) a)

/-- What `fft` computes on a buffer of length `2^lg`, whatever the modulus. -/
def fft_fast (g : ZMod mod) (lg : Nat) (a : polynom_t mod) : polynom_t mod :=
  fft_fast_loop (fun s => T.power g ((mod - 1) / (2 <<< s))) lg lg 0
    ((List.range (2 ^ lg)).map (fun j => a.getD (brev lg j) 0))

/-- What the transform branch of `operator*=` computes, whatever the modulus. -/
def mul_fast (g : ZMod mod) (p q : polynom_t mod) : Option (polynom_t mod) :=
  let real_size := p.length + q.length - 1
  let n := mul_grow real_size real_size 1
  let lg := std_lg n
  let d := fft_fast g lg
    (List.zipWith (fun x y => x * y) (fft_fast g lg (resize p n)) (fft_fast g lg (resize q n)))
  match fdiv 1 (n : ZMod mod) with
  | none => none
  | some inv_n => some ((resize (d.take 1 ++ (d.drop 1).reverse) real_size).map (fun x => x * inv_n))

end polynom_t

instance fact_prime_7 : Fact (Nat.Prime 7) := ⟨by norm_num⟩

namespace polynom_t

variable {mod : Nat}

/-- `polynom_t::eval`; the loop state is `(power, value)`. -/
def eval (p : polynom_t mod) (x : ZMod mod) : ZMod mod :=
  ((List.range p.length).foldl (fun (s : ZMod mod × ZMod mod) i =>
    (s.1 * x, s.2 + p.getD i 0 * s.1)) ((1 : ZMod mod), (0 : ZMod mod))).2

/-- A sequence of calls of `fft`, one per buffer, sharing the `static` tables; the result
is the tables after the last call. -/
def fft_calls (g : ZMod mod) : fft_cache mod → List (polynom_t mod) → Option (fft_cache mod)
  | c, [] => some c
  | c, a :: rest =>
    match fft g c a with
    | none => none
    | some (c1, _) => fft_calls g c1 rest

end polynom_t

/-!
# Fenwick tree (`binary_indexed_tree`) — shallow embedding

Source: `src/Data structures/binary_indexed_tree.cpp`.

* The element type `T` is any commutative additive monoid (`+=`, neutral default value);
  the range query needs a group (`-=`).
* `int` positions are natural numbers; `pref`, `l`, `r` can be `-1` or negative and are
  integers. `pos & -pos` is computed on 32-bit two's complement.
* The two `for` loops carry a fuel argument; the callers pass enough fuel.
-/

/-- The struct `binary_indexed_tree<T>`: the vector `bit`. -/
structure binary_indexed_tree (α : Type) where
  bit : List α

namespace binary_indexed_tree

variable {α : Type}

/-- The expression `pos & -pos` on a 32-bit `int` holding the non-negative value `pos`. -/
def lowbit (pos : Nat) : Nat := pos &&& ((2 ^ 32 - pos) % 2 ^ 32)

/-- The constructor `binary_indexed_tree(int n)`. -/
def build [Zero α] (n : Nat) : binary_indexed_tree α := ⟨List.replicate (n + 1) 0⟩

/-- `binary_indexed_tree::size`. -/
def size (t : binary_indexed_tree α) : Int := (t.bit.length : Int) - 1

/-- The loop of `add`, entered with the incremented position. -/
def add_loop [Zero α] [Add α] (delta : α) : Nat → Nat → List α → List α
  | 0, _, bit => bit
  | fuel + 1, pos, bit =>
    if pos < bit.length then
      add_loop delta fuel (pos + lowbit pos) (bit.set pos (bit.getD pos 0 + delta))
    else bit

/-- `binary_indexed_tree::add` for a position `pos ≥ 0`. -/
def add [Zero α] [Add α] (t : binary_indexed_tree α) (pos : Nat) (delta : α) :
    binary_indexed_tree α :=
  ⟨add_loop delta t.bit.length (pos + 1) t.bit⟩

/-- The loop of `query(int pref)`, entered with the incremented position. -/
def query_loop [Zero α] [Add α] (bit : List α) : Nat → Nat → α → α
  | 0, _, sum => sum
  | fuel + 1, pref, sum =>
    if 0 < pref then query_loop bit fuel (pref - lowbit pref) (sum + bit.getD pref 0)
    else sum

/-- `binary_indexed_tree::query(int pref)`. -/
def query [Zero α] [Add α] (t : binary_indexed_tree α) (pref : Int) : α :=
  query_loop t.bit (pref + 1).toNat (pref + 1).toNat 0

/-- `binary_indexed_tree::query(int l, int r)`. -/
def query_range [Zero α] [Add α] [Sub α] (t : binary_indexed_tree α) (l r : Int) : α :=
  if r ≤ l then 0 else query t (r - 1) - query t (l - 1)

/-- A tree of size `n` after the calls `add(pos, delta)` of `ops`, in order. -/
def after_adds [Zero α] [Add α] (n : Nat) (ops : List (Nat × α)) : binary_indexed_tree α :=
  ops.foldl (fun t op => add t op.1 op.2) (build n)

/-- The sum of the deltas of `ops` whose position satisfies `keep`. -/
def delta_sum [AddCommMonoid α] (ops : List (Nat × α)) (keep : Nat → Bool) : α :=
  ((ops.filter (fun op => keep op.1)).map Prod.snd).sum

/-- The invariant of the vector `bit` for a tree of size `n` over the values `A`: cell `i`
(for `1 ≤ i ≤ n`) holds the sum of `A j` over the positions `i - lowbit i ≤ j < i`. -/
def tree_ok [AddCommMonoid α] (n : Nat) (bit : List α) (A : Nat → α) : Prop :=
  bit.length = n + 1 ∧
    ∀ i, 1 ≤ i → i ≤ n → bit.getD i 0 = ∑ j in Finset.Ico (i - lowbit i) i, A j

end binary_indexed_tree

/-! ## Vectors: reads after writes -/

theorem getD_set_eq {α : Type} (l : List α) (i j : Nat) (v d : α) :
    (l.set i v).getD j d = if i = j ∧ i < l.length then v else l.getD j d := by
  simp only [List.getD_eq_getElem?_getD, List.getElem?_set]
  by_cases h : i = j
  · subst h
    by_cases h2 : i < l.length
    · simp [h2]
    · have h3 : l[i]? = none := List.getElem?_eq_none (by omega)
      simp [h2, h3]
  · simp [h]

theorem getD_set_self {α : Type} (l : List α) (i : Nat) (v d : α) (h : i < l.length) :
    (l.set i v).getD i d = v := by
  rw [getD_set_eq]; simp [h]

theorem getD_set_ne {α : Type} (l : List α) (i j : Nat) (v d : α) (h : i ≠ j) :
    (l.set i v).getD j d = l.getD j d := by
  rw [getD_set_eq]; simp [h]

theorem getD_replicate_eq {α : Type} (n i : Nat) (d : α) :
    (List.replicate n d).getD i d = d := by
  by_cases h : i < n
  · rw [List.getD_eq_getElem _ _ (by simpa using h)]; simp
  · rw [List.getD_eq_default _ _ (by simpa using h)]

theorem list_ext_getD {α : Type} (d : α) (l1 l2 : List α) (hl : l1.length = l2.length)
    (h : ∀ i, i < l1.length → l1.getD i d = l2.getD i d) : l1 = l2 := by
  apply List.ext_getElem hl
  intro i h1 h2
  have := h i h1
  rwa [List.getD_eq_getElem _ _ h1, List.getD_eq_getElem _ _ h2] at this

theorem getD_of_le {α : Type} (d : α) (l : List α) (i : Nat) (h : l.length ≤ i) :
    l.getD i d = d := List.getD_eq_default _ _ h

theorem length_vec_resize {α : Type} (d : α) (v : List α) (n : Nat) :
    (vec_resize d v n).length = n := by
  simp only [vec_resize, List.length_append, List.length_take, List.length_replicate]
  omega

theorem getD_vec_resize {α : Type} (d : α) (v : List α) (n i : Nat) :
    (vec_resize d v n).getD i d = if i < n then v.getD i d else d := by
  unfold vec_resize
  by_cases h : i < (v.take n).length
  · rw [List.getD_append _ _ _ _ h]
    have h' : i < n ∧ i < v.length := by simpa using h
    simp only [h'.1, if_true, List.getD_eq_getElem?_getD, List.getElem?_take, if_true]
  · rw [List.getD_append_right _ _ _ _ (by omega), getD_replicate_eq]
    have h' : n ≤ i ∨ v.length ≤ i := by
      simp only [List.length_take] at h; omega
    split
    · rw [getD_of_le]; omega
    · rfl

namespace polynom_t

variable {mod : Nat}

theorem length_resize (p : polynom_t mod) (n : Nat) : (resize p n).length = n :=
  length_vec_resize 0 p n

theorem getD_resize (p : polynom_t mod) (n i : Nat) :
    (resize p n).getD i 0 = if i < n then p.getD i 0 else 0 :=
  getD_vec_resize 0 p n i

end polynom_t

/-! ## Counted loops that overwrite one cell per iteration -/

theorem foldl_set_pointwise_length {α : Type} (d : α) (f : Nat → α → α) (n : Nat) (a0 : List α) :
    ((List.range n).foldl (fun a i => a.set i (f i (a.getD i d))) a0).length = a0.length := by
  induction n with
  | zero => simp
  | succ k ih =>
    rw [List.range_succ, List.foldl_append]
    simp only [List.foldl_cons, List.foldl_nil, List.length_set, ih]

theorem foldl_set_pointwise_getD {α : Type} (d : α) (f : Nat → α → α) (n : Nat) (a0 : List α)
    (j : Nat) :
    ((List.range n).foldl (fun a i => a.set i (f i (a.getD i d))) a0).getD j d =
      if j < n ∧ j < a0.length then f j (a0.getD j d) else a0.getD j d := by
  induction n with
  | zero => simp
  | succ k ih =>
    rw [List.range_succ, List.foldl_append]
    simp only [List.foldl_cons, List.foldl_nil]
    rw [getD_set_eq, foldl_set_pointwise_length]
    by_cases hkj : k = j
    · subst hkj
      by_cases hl : k < a0.length
      · have h1 : ¬ (k < k ∧ k < a0.length) := by omega
        have h2 : (k < k + 1 ∧ k < a0.length) := by omega
        rw [ih, if_neg h1, if_pos ⟨rfl, hl⟩, if_pos h2]
      · have h1 : ¬ (k < k ∧ k < a0.length) := by omega
        have h2 : ¬ (k < k + 1 ∧ k < a0.length) := by omega
        have h3 : ¬ (k = k ∧ k < a0.length) := by omega
        rw [if_neg h3, ih, if_neg h1, if_neg h2]
    · have h1 : (j < k + 1 ∧ j < a0.length) ↔ (j < k ∧ j < a0.length) := by omega
      have h3 : ¬ (k = j ∧ k < a0.length) := by omega
      rw [if_neg h3, ih]
      simp only [h1]

/-! ## The field capabilities -/

theorem T.power_loop_eq {mod : Nat} (fuel : Nat) :
    ∀ (a : ZMod mod) (e : Nat) (prod : ZMod mod), e ≤ fuel →
      T.power_loop fuel a e prod = prod * a ^ e := by
  induction fuel with
  | zero => intro a e prod h; have : e = 0 := by omega
            subst this; simp [T.power_loop]
  | succ k ih =>
    intro a e prod h
    unfold T.power_loop
    by_cases he : e = 0
    · simp [he]
    · rw [if_neg he, ih _ _ _ (by omega)]
      have h2 : e = 2 * (e / 2) + e % 2 := (Nat.div_add_mod e 2).symm
      rcases Nat.mod_two_eq_zero_or_one e with h0 | h1
      · rw [h0] at h2
        have : (e % 2 = 1) = False := by simp [h0]
        simp only [this, if_false]
        conv_rhs => rw [h2]
        rw [Nat.add_zero, ← pow_two, ← pow_mul]
      · rw [h1] at h2
        simp only [h1, if_true]
        conv_rhs => rw [h2]
        rw [pow_succ, ← pow_two, ← pow_mul]; ring

theorem T.power_eq_pow {mod : Nat} (a : ZMod mod) (e : Nat) : T.power a e = a ^ e := by
  unfold T.power; rw [T.power_loop_eq _ _ _ _ (le_refl _)]; simp

theorem fdiv_zero {mod : Nat} (a : ZMod mod) : fdiv a 0 = none := by simp [fdiv]

theorem fdiv_eq {mod : Nat} [Fact mod.Prime] (a b : ZMod mod) (hb : b ≠ 0) :
    fdiv a b = some (a / b) := by
  unfold fdiv
  rw [if_neg hb, T.power_eq_pow]
  congr 1
  rw [div_eq_mul_inv]
  congr 1
  have hp : 2 ≤ mod := (Fact.out : mod.Prime).two_le
  have h1 : b ^ (mod - 1) = 1 := ZMod.pow_card_sub_one_eq_one hb
  have h2 : b * b ^ (mod - 2) = 1 := by
    rw [← pow_succ']
    have : mod - 2 + 1 = mod - 1 := by omega
    rw [this, h1]
  exact (inv_eq_of_mul_eq_one_right h2).symm

theorem natCast_ne_zero_of_lt {mod : Nat} (i : Nat) (h0 : 0 < i) (h : i < mod) :
    ((i : Nat) : ZMod mod) ≠ 0 := by
  intro hz
  rw [ZMod.natCast_zmod_eq_zero_iff_dvd] at hz
  exact absurd (Nat.le_of_dvd h0 hz) (by omega)

namespace polynom_t

variable {mod : Nat}

/-! ## `derivative` and `integral` -/

theorem length_derivative (p : polynom_t mod) : (derivative p).length = p.length - 1 := by
  unfold derivative
  rw [foldl_set_pointwise_length 0 (fun i _ => ((i + 1 : Nat) : ZMod mod) * p.getD (i + 1) 0)]
  simp

theorem getD_derivative (p : polynom_t mod) (i : Nat) :
    (derivative p).getD i 0 = ((i + 1 : Nat) : ZMod mod) * p.getD (i + 1) 0 := by
  unfold derivative
  rw [foldl_set_pointwise_getD 0 (fun i _ => ((i + 1 : Nat) : ZMod mod) * p.getD (i + 1) 0)]
  rw [getD_replicate_eq, List.length_replicate]
  by_cases h : i < p.length - 1
  · rw [if_pos ⟨h, h⟩]
  · rw [if_neg (by omega), getD_of_le 0 p (i + 1) (by omega), mul_zero]

theorem integral_fold [Fact mod.Prime] (p : polynom_t mod) (c : ZMod mod) (k : Nat)
    (hk : k ≤ p.length) (hmod : k < mod) :
    ∃ r : polynom_t mod,
      (List.range' 1 k).foldl (fun acc i =>
        match acc with
        | none => none
        | some r =>
          match fdiv (p.getD (i - 1) 0) ((i : Nat) : ZMod mod) with
          | none => none
          | some v => some (r.set i v))
        (some ((List.replicate (p.length + 1) 0).set 0 c)) = some r ∧
      r.length = p.length + 1 ∧
      ∀ j, r.getD j 0 =
        if j = 0 then c else if j ≤ k then p.getD (j - 1) 0 / ((j : Nat) : ZMod mod) else 0 := by
  induction k with
  | zero =>
    refine ⟨_, rfl, by simp, ?_⟩
    intro j
    rw [getD_set_eq, getD_replicate_eq]
    by_cases hj : j = 0
    · subst hj; simp
    · have : ¬ (0 = j ∧ 0 < (List.replicate (p.length + 1) (0 : ZMod mod)).length) := by omega
      rw [if_neg this, if_neg hj, if_neg (by omega)]
  | succ k ih =>
    obtain ⟨r, hr, hlen, hget⟩ := ih (by omega) (by omega)
    rw [List.range'_1_concat, List.foldl_append, hr]
    have hne : (((1 + k : Nat)) : ZMod mod) ≠ 0 := natCast_ne_zero_of_lt _ (by omega) (by omega)
    simp only [List.foldl_cons, List.foldl_nil]
    rw [fdiv_eq _ _ hne]
    refine ⟨_, rfl, by simp [hlen], ?_⟩
    intro j
    rw [getD_set_eq, hget, hlen]
    by_cases hj : 1 + k = j
    · subst hj
      rw [if_pos ⟨rfl, by omega⟩, if_neg (by omega), if_pos (by omega)]
    · rw [if_neg (by omega)]
      by_cases hj0 : j = 0
      · rw [if_pos hj0, if_pos hj0]
      · rw [if_neg hj0, if_neg hj0]
        by_cases hjk : j ≤ k
        · rw [if_pos hjk, if_pos (by omega)]
        · rw [if_neg hjk, if_neg (by omega)]

theorem integral_spec [Fact mod.Prime] (p : polynom_t mod) (c : ZMod mod)
    (hmod : p.length < mod) :
    ∃ r : polynom_t mod, integral p c = some r ∧ r.length = p.length + 1 ∧
      ∀ j, r.getD j 0 =
        if j = 0 then c
        else if j ≤ p.length then p.getD (j - 1) 0 / ((j : Nat) : ZMod mod) else 0 :=
  integral_fold p c p.length (le_refl _) hmod

end polynom_t

/-! ## The modulus `998244353` and its primitive root `3` -/

theorem three_pow_facts :
    (3 : ZMod 998244353) ^ (998244353 - 1) = 1 ∧
    (∀ q : Nat, q.Prime → q ∣ 998244353 - 1 → (3 : ZMod 998244353) ^ ((998244353 - 1) / q) ≠ 1) := by
  have e1 : T.power (3 : ZMod 998244353) (998244353 - 1) = 1 := by decide
  have e2 : T.power (3 : ZMod 998244353) ((998244353 - 1) / 2) ≠ 1 := by decide
  have e3 : T.power (3 : ZMod 998244353) ((998244353 - 1) / 7) ≠ 1 := by decide
  have e4 : T.power (3 : ZMod 998244353) ((998244353 - 1) / 17) ≠ 1 := by decide
  rw [T.power_eq_pow] at e1 e2 e3 e4
  refine ⟨e1, ?_⟩
  intro p hp hdvd
  have hfac : (998244353 - 1 : Nat) = 2 ^ 23 * (7 * 17) := by norm_num
  rw [hfac] at hdvd
  rcases (Nat.Prime.dvd_mul hp).mp hdvd with h | h
  · have := (Nat.prime_dvd_prime_iff_eq hp Nat.prime_two).mp (hp.dvd_of_dvd_pow h)
    subst this
    exact e2
  · rcases (Nat.Prime.dvd_mul hp).mp h with h | h
    · have := (Nat.prime_dvd_prime_iff_eq hp (by norm_num : Nat.Prime 7)).mp h
      subst this
      exact e3
    · have := (Nat.prime_dvd_prime_iff_eq hp (by norm_num : Nat.Prime 17)).mp h
      subst this
      exact e4

theorem prime_998244353 : Nat.Prime 998244353 :=
  lucas_primality 998244353 3 three_pow_facts.1 three_pow_facts.2

/-- The modulus `998244353` is prime. -/
instance fact_prime_998244353 : Fact (Nat.Prime 998244353) := ⟨prime_998244353⟩

/-- The element `3` generates the multiplicative group modulo `998244353`. -/
theorem isPrimitiveRoot_three : IsPrimitiveRoot (3 : ZMod 998244353) (998244353 - 1) := by
  have key : orderOf (3 : ZMod 998244353) = 998244353 - 1 :=
    orderOf_eq_of_pow_and_pow_div_prime (by norm_num) three_pow_facts.1 three_pow_facts.2
  rw [← key]
  exact IsPrimitiveRoot.orderOf _

namespace polynom_t

variable {mod : Nat}

/-! ## Coefficient sequences as polynomials -/

theorem coeff_toPoly (p : polynom_t mod) (i : Nat) : (toPoly p).coeff i = p.getD i 0 := rfl

theorem toPoly_eq_iff (p q : polynom_t mod) :
    toPoly p = toPoly q ↔ ∀ i, p.getD i 0 = q.getD i 0 := by
  rw [Polynomial.ext_iff]
  simp only [coeff_toPoly]

theorem toPoly_nil : toPoly ([] : polynom_t mod) = 0 := by
  ext i; simp [coeff_toPoly]

/-! ## `operator+=`, `operator-=` -/

theorem length_add_assign (p q : polynom_t mod) :
    (add_assign p q).length = max p.length q.length := by
  unfold add_assign
  rw [foldl_set_pointwise_length 0 (fun i x => x + q.getD i 0)]
  split
  · rw [length_resize]; omega
  · omega

theorem getD_add_assign (p q : polynom_t mod) (i : Nat) :
    (add_assign p q).getD i 0 = p.getD i 0 + q.getD i 0 := by
  unfold add_assign
  rw [foldl_set_pointwise_getD 0 (fun i x => x + q.getD i 0)]
  by_cases h : p.length < q.length
  · simp only [if_pos h, length_resize, getD_resize, and_self]
    by_cases hi : i < q.length
    · simp only [if_pos hi]
    · simp only [if_neg hi]
      rw [getD_of_le 0 p i (by omega), getD_of_le 0 q i (by omega), add_zero]
  · simp only [if_neg h]
    by_cases hi : i < q.length
    · rw [if_pos ⟨hi, by omega⟩]
    · rw [if_neg (by omega), getD_of_le 0 q i (by omega), add_zero]

theorem length_sub_assign (p q : polynom_t mod) :
    (sub_assign p q).length = max p.length q.length := by
  unfold sub_assign
  rw [foldl_set_pointwise_length 0 (fun i x => x - q.getD i 0)]
  split
  · rw [length_resize]; omega
  · omega

theorem getD_sub_assign (p q : polynom_t mod) (i : Nat) :
    (sub_assign p q).getD i 0 = p.getD i 0 - q.getD i 0 := by
  unfold sub_assign
  rw [foldl_set_pointwise_getD 0 (fun i x => x - q.getD i 0)]
  by_cases h : p.length < q.length
  · simp only [if_pos h, length_resize, getD_resize, and_self]
    by_cases hi : i < q.length
    · simp only [if_pos hi]
    · simp only [if_neg hi]
      rw [getD_of_le 0 p i (by omega), getD_of_le 0 q i (by omega), sub_zero]
  · simp only [if_neg h]
    by_cases hi : i < q.length
    · rw [if_pos ⟨hi, by omega⟩]
    · rw [if_neg (by omega), getD_of_le 0 q i (by omega), sub_zero]

theorem toPoly_add_assign (p q : polynom_t mod) :
    toPoly (add_assign p q) = toPoly p + toPoly q := by
  ext i; simp only [coeff_toPoly, Polynomial.coeff_add, getD_add_assign]

theorem toPoly_sub_assign (p q : polynom_t mod) :
    toPoly (sub_assign p q) = toPoly p - toPoly q := by
  ext i; simp only [coeff_toPoly, Polynomial.coeff_sub, getD_sub_assign]

/-! ## `normalize`, `degree` -/

theorem normalize_append_zero (p : polynom_t mod) :
    normalize (p ++ [0]) = normalize p := by
  unfold normalize
  rw [List.rdropWhile_concat]
  simp

theorem normalize_append_ne (p : polynom_t mod) (x : ZMod mod) (hx : x ≠ 0) :
    normalize (p ++ [x]) = p ++ [x] := by
  unfold normalize
  rw [List.rdropWhile_concat]
  simp [hx]

theorem getD_normalize (p : polynom_t mod) (i : Nat) :
    (normalize p).getD i 0 = p.getD i 0 := by
  induction p using List.reverseRecOn with
  | nil => rfl
  | append_singleton l x ih =>
    by_cases hx : x = 0
    · subst hx
      rw [normalize_append_zero, ih]
      by_cases hi : i < l.length
      · rw [List.getD_append _ _ _ _ hi]
      · rw [getD_of_le 0 l i (by omega), List.getD_append_right _ _ _ _ (by omega)]
        cases h : i - l.length with
        | zero => rfl
        | succ k => rfl
    · rw [normalize_append_ne _ _ hx]

theorem toPoly_normalize (p : polynom_t mod) : toPoly (normalize p) = toPoly p := by
  rw [toPoly_eq_iff]; exact getD_normalize p

/-- A stored sequence is normalized when it is empty or ends in a nonzero coefficient. -/
theorem normalize_last_ne (p : polynom_t mod) (h : normalize p ≠ []) :
    (normalize p).getD ((normalize p).length - 1) 0 ≠ 0 := by
  induction p using List.reverseRecOn with
  | nil => exact absurd rfl h
  | append_singleton l x ih =>
    by_cases hx : x = 0
    · subst hx
      rw [normalize_append_zero] at h ⊢
      exact ih h
    · rw [normalize_append_ne _ _ hx]
      rw [List.length_append, List.length_singleton, Nat.add_sub_cancel,
        List.getD_append_right _ _ _ _ (le_refl _), Nat.sub_self]
      exact hx

theorem length_normalize_le (p : polynom_t mod) : (normalize p).length ≤ p.length := by
  unfold normalize
  exact (List.rdropWhile_prefix _ _).length_le

theorem normalize_eq_self (p : polynom_t mod)
    (h : p = [] ∨ p.getD (p.length - 1) 0 ≠ 0) : normalize p = p := by
  induction p using List.reverseRecOn with
  | nil => rfl
  | append_singleton l x _ =>
    rcases h with h | h
    · simp at h
    · rw [List.length_append, List.length_singleton, Nat.add_sub_cancel,
        List.getD_append_right _ _ _ _ (le_refl _), Nat.sub_self] at h
      exact normalize_append_ne _ _ h

theorem normalize_idem (p : polynom_t mod) : normalize (normalize p) = normalize p := by
  apply normalize_eq_self
  by_cases h : normalize p = []
  · exact Or.inl h
  · exact Or.inr (normalize_last_ne p h)

/-- Two normalized sequences with the same coefficients are the same sequence. -/
theorem eq_of_normalized (p q : polynom_t mod)
    (hp : p = [] ∨ p.getD (p.length - 1) 0 ≠ 0) (hq : q = [] ∨ q.getD (q.length - 1) 0 ≠ 0)
    (h : ∀ i, p.getD i 0 = q.getD i 0) : p = q := by
  have key : ∀ (a b : polynom_t mod), (b = [] ∨ b.getD (b.length - 1) 0 ≠ 0) →
      (∀ i, a.getD i 0 = b.getD i 0) → b.length ≤ a.length := by
    intro a b hb hab
    by_contra hlt
    rcases hb with hb | hb
    · subst hb; simp at hlt
    · apply hb
      rw [← hab, getD_of_le]
      omega
  have hlen : p.length = q.length :=
    le_antisymm (key q p hp (fun i => (h i).symm)) (key p q hq h)
  exact list_ext_getD 0 p q hlen (fun i _ => h i)

theorem normalize_eq_of_toPoly_eq (p q : polynom_t mod) (h : toPoly p = toPoly q) :
    normalize p = normalize q := by
  apply eq_of_normalized
  · by_cases hp : normalize p = []
    · exact Or.inl hp
    · exact Or.inr (normalize_last_ne p hp)
  · by_cases hq : normalize q = []
    · exact Or.inl hq
    · exact Or.inr (normalize_last_ne q hq)
  · intro i
    rw [getD_normalize, getD_normalize]
    exact (toPoly_eq_iff p q).mp h i

end polynom_t

/-! ## Counted loops that update a window of cells -/

theorem foldl_set_shift_length {α : Type} (d : α) (F : Nat → α → α) (i n : Nat) (a0 : List α) :
    ((List.range n).foldl (fun a j => a.set (i + j) (F j (a.getD (i + j) d))) a0).length =
      a0.length := by
  induction n with
  | zero => simp
  | succ k ih =>
    rw [List.range_succ, List.foldl_append]
    simp only [List.foldl_cons, List.foldl_nil, List.length_set, ih]

theorem foldl_set_shift_getD {α : Type} (d : α) (F : Nat → α → α) (i n : Nat) (a0 : List α)
    (k : Nat) :
    ((List.range n).foldl (fun a j => a.set (i + j) (F j (a.getD (i + j) d))) a0).getD k d =
      if i ≤ k ∧ k < i + n ∧ k < a0.length then F (k - i) (a0.getD k d) else a0.getD k d := by
  induction n with
  | zero =>
    have : ¬ (i ≤ k ∧ k < i + 0 ∧ k < a0.length) := by omega
    rw [if_neg this]; rfl
  | succ m ih =>
    rw [List.range_succ, List.foldl_append]
    simp only [List.foldl_cons, List.foldl_nil]
    rw [getD_set_eq, foldl_set_shift_length]
    by_cases hk : i + m = k
    · subst hk
      by_cases hl : i + m < a0.length
      · rw [if_pos ⟨rfl, hl⟩, ih, if_neg (by omega), if_pos (by omega)]
        have : i + m - i = m := by omega
        rw [this]
      · rw [if_neg (by omega), ih, if_neg (by omega), if_neg (by omega)]
    · rw [if_neg (by omega), ih]
      have h1 : (i ≤ k ∧ k < i + (m + 1) ∧ k < a0.length) ↔ (i ≤ k ∧ k < i + m ∧ k < a0.length) := by
        omega
      simp only [h1]

namespace polynom_t

variable {mod : Nat}

/-! ## The direct branch of `operator*=` -/

theorem mul_brute_outer (p q : polynom_t mod) (I : Nat) (hI : I ≤ p.length) :
    ((List.range I).foldl (fun product i =>
      (List.range q.length).foldl (fun product j =>
        product.set (i + j) (product.getD (i + j) 0 + p.getD i 0 * q.getD j 0)) product)
      (List.replicate (p.length + q.length - 1) 0)).length = p.length + q.length - 1 ∧
    ∀ k, ((List.range I).foldl (fun product i =>
      (List.range q.length).foldl (fun product j =>
        product.set (i + j) (product.getD (i + j) 0 + p.getD i 0 * q.getD j 0)) product)
      (List.replicate (p.length + q.length - 1) 0)).getD k 0 =
      ∑ i in Finset.range I,
        if i ≤ k ∧ k < i + q.length then p.getD i 0 * q.getD (k - i) 0 else 0 := by
  induction I with
  | zero =>
    refine ⟨by simp, fun k => ?_⟩
    simp only [List.range_zero, List.foldl_nil, Finset.range_zero, Finset.sum_empty]
    exact getD_replicate_eq _ _ _
  | succ m ih =>
    obtain ⟨hlen, hget⟩ := ih (by omega)
    rw [List.range_succ, List.foldl_append]
    simp only [List.foldl_cons, List.foldl_nil]
    constructor
    · rw [foldl_set_shift_length 0 (fun j x => x + p.getD m 0 * q.getD j 0)]
      exact hlen
    · intro k
      rw [foldl_set_shift_getD 0 (fun j x => x + p.getD m 0 * q.getD j 0), hlen, hget,
        Finset.sum_range_succ]
      by_cases hk : m ≤ k ∧ k < m + q.length
      · rw [if_pos ⟨hk.1, hk.2, by omega⟩, if_pos hk]
      · rw [if_neg (by omega), if_neg hk, add_zero]

theorem length_mul_brute (p q : polynom_t mod) :
    (mul_brute p q).length = p.length + q.length - 1 :=
  (mul_brute_outer p q p.length (le_refl _)).1

theorem conv_coeff_eq_range (p q : polynom_t mod) (k : Nat) :
    conv_coeff p q k = ∑ i in Finset.range (k + 1), p.getD i 0 * q.getD (k - i) 0 := by
  unfold conv_coeff
  exact Finset.Nat.sum_antidiagonal_eq_sum_range_succ (fun i j => p.getD i 0 * q.getD j 0) k

theorem getD_mul_brute (p q : polynom_t mod) (k : Nat) :
    (mul_brute p q).getD k 0 = conv_coeff p q k := by
  unfold mul_brute
  rw [(mul_brute_outer p q p.length (le_refl _)).2 k, conv_coeff_eq_range]
  -- both sums range over the `i ≤ k` with `i < |p|` and `k - i < |q|`
  have h1 : ∀ i ∈ Finset.range p.length,
      (if i ≤ k ∧ k < i + q.length then p.getD i 0 * q.getD (k - i) 0 else 0) =
      (if i ≤ k then p.getD i 0 * q.getD (k - i) 0 else 0) := by
    intro i _
    by_cases hik : i ≤ k
    · by_cases hq : k < i + q.length
      · rw [if_pos ⟨hik, hq⟩, if_pos hik]
      · rw [if_neg (by omega), if_pos hik, getD_of_le 0 q (k - i) (by omega), mul_zero]
    · rw [if_neg (by omega), if_neg hik]
  rw [Finset.sum_congr rfl h1]
  rw [← Finset.sum_filter, ← Finset.sum_filter_of_ne (s := Finset.range (k + 1))
    (p := fun i => i < p.length)]
  · apply Finset.sum_congr
    · ext i
      simp only [Finset.mem_filter, Finset.mem_range]
      omega
    · intro _ _; rfl
  · intro i _ hne
    by_contra hlt
    apply hne
    rw [getD_of_le 0 p i (by omega), zero_mul]

theorem coeff_toPoly_mul (p q : polynom_t mod) (k : Nat) :
    (toPoly p * toPoly q).coeff k = conv_coeff p q k := by
  rw [Polynomial.coeff_mul]; rfl

theorem length_conv (p q : polynom_t mod) (hp : p ≠ []) (hq : q ≠ []) :
    (conv p q).length = p.length + q.length - 1 := by
  unfold conv
  rw [if_neg (by simp [hp, hq])]
  simp

theorem conv_coeff_of_ge (p q : polynom_t mod) (k : Nat) (hk : p.length + q.length - 1 ≤ k) :
    conv_coeff p q k = 0 := by
  unfold conv_coeff
  apply Finset.sum_eq_zero
  intro x hx
  rw [Finset.mem_antidiagonal] at hx
  by_cases h1 : x.1 < p.length
  · rw [getD_of_le 0 q x.2 (by omega), mul_zero]
  · rw [getD_of_le 0 p x.1 (by omega), zero_mul]

theorem getD_conv (p q : polynom_t mod) (k : Nat) : (conv p q).getD k 0 = conv_coeff p q k := by
  unfold conv
  by_cases h : p.isEmpty ∨ q.isEmpty
  · rw [if_pos h]
    have : conv_coeff p q k = 0 := by
      unfold conv_coeff
      apply Finset.sum_eq_zero
      intro x _
      rcases h with h | h
      · rw [List.isEmpty_iff.mp h]; simp
      · rw [List.isEmpty_iff.mp h]; simp
    rw [this]; rfl
  · rw [if_neg h]
    by_cases hk : k < p.length + q.length - 1
    · rw [List.getD_eq_getElem _ _ (by simpa using hk)]
      simp
    · rw [getD_of_le _ _ _ (by simpa using hk), conv_coeff_of_ge p q k (by omega)]

theorem toPoly_conv (p q : polynom_t mod) : toPoly (conv p q) = toPoly p * toPoly q := by
  ext k
  rw [coeff_toPoly, getD_conv, coeff_toPoly_mul]

theorem mul_brute_eq_conv (p q : polynom_t mod) (hp : p ≠ []) (hq : q ≠ []) :
    mul_brute p q = conv p q := by
  apply list_ext_getD 0
  · rw [length_mul_brute, length_conv p q hp hq]
  · intro i _
    rw [getD_mul_brute, getD_conv]

end polynom_t

namespace polynom_t

variable {mod : Nat}

/-! ## The butterflies of one block -/

theorem fft_butterflies_fold (root : ZMod mod) (len i : Nat) (a : polynom_t mod)
    (hb : i + 2 * len ≤ a.length) (J : Nat) (hJ : J ≤ len) :
    ((List.range J).foldl (fun (s : polynom_t mod × ZMod mod) j =>
      let value := s.1.getD (i + j + len) 0 * s.2
      let a1 := s.1.set (i + j + len) (s.1.getD (i + j) 0 - value)
      let a2 := a1.set (i + j) (a1.getD (i + j) 0 + value)
      (a2, s.2 * root)) (a, 1)).2 = root ^ J ∧
    ((List.range J).foldl (fun (s : polynom_t mod × ZMod mod) j =>
      let value := s.1.getD (i + j + len) 0 * s.2
      let a1 := s.1.set (i + j + len) (s.1.getD (i + j) 0 - value)
      let a2 := a1.set (i + j) (a1.getD (i + j) 0 + value)
      (a2, s.2 * root)) (a, 1)).1.length = a.length ∧
    ∀ k, ((List.range J).foldl (fun (s : polynom_t mod × ZMod mod) j =>
      let value := s.1.getD (i + j + len) 0 * s.2
      let a1 := s.1.set (i + j + len) (s.1.getD (i + j) 0 - value)
      let a2 := a1.set (i + j) (a1.getD (i + j) 0 + value)
      (a2, s.2 * root)) (a, 1)).1.getD k 0 =
      if i ≤ k ∧ k < i + J then a.getD k 0 + a.getD (k + len) 0 * root ^ (k - i)
      else if i + len ≤ k ∧ k < i + len + J then
        a.getD (k - len) 0 - a.getD k 0 * root ^ (k - len - i)
      else a.getD k 0 := by
  induction J with
  | zero =>
    refine ⟨by simp, by simp, fun k => ?_⟩
    rw [if_neg (by omega), if_neg (by omega)]
    rfl
  | succ m ih =>
    obtain ⟨h2, hlen, hget⟩ := ih (by omega)
    rw [List.range_succ, List.foldl_append]
    simp only [List.foldl_cons, List.foldl_nil]
    refine ⟨?_, ?_, ?_⟩
    · rw [h2, pow_succ]
    · simp only [List.length_set, hlen]
    · intro k
      rw [getD_set_eq, getD_set_eq, getD_set_eq, List.length_set, hlen, h2]
      have e1 := hget (i + m)
      rw [if_neg (by omega), if_neg (by omega)] at e1
      have e2 := hget (i + m + len)
      rw [if_neg (by omega), if_neg (by omega)] at e2
      by_cases hk1 : i + m = k
      · subst hk1
        rw [if_pos ⟨rfl, by omega⟩, if_neg (by omega), e1, e2, if_pos (by omega)]
        have : i + m - i = m := by omega
        rw [this]
      · rw [if_neg (by omega)]
        by_cases hk2 : i + m + len = k
        · subst hk2
          rw [if_pos ⟨rfl, by omega⟩, e1, e2, if_neg (by omega), if_pos (by omega)]
          have h3 : i + m + len - len = i + m := by omega
          have h4 : i + m - i = m := by omega
          rw [h3, h4]
        · rw [if_neg (by omega), hget]
          have c1 : (i ≤ k ∧ k < i + (m + 1)) ↔ (i ≤ k ∧ k < i + m) := by omega
          have c2 : (i + len ≤ k ∧ k < i + len + (m + 1)) ↔ (i + len ≤ k ∧ k < i + len + m) := by
            omega
          simp only [c1, c2]

theorem length_fft_butterflies (root : ZMod mod) (len i : Nat) (a : polynom_t mod)
    (hb : i + 2 * len ≤ a.length) : (fft_butterflies root len i a).length = a.length :=
  (fft_butterflies_fold root len i a hb len (le_refl _)).2.1

theorem getD_fft_butterflies (root : ZMod mod) (len i : Nat) (a : polynom_t mod)
    (hb : i + 2 * len ≤ a.length) (k : Nat) :
    (fft_butterflies root len i a).getD k 0 =
      if i ≤ k ∧ k < i + len then a.getD k 0 + a.getD (k + len) 0 * root ^ (k - i)
      else if i + len ≤ k ∧ k < i + len + len then
        a.getD (k - len) 0 - a.getD k 0 * root ^ (k - len - i)
      else a.getD k 0 :=
  (fft_butterflies_fold root len i a hb len (le_refl _)).2.2 k

end polynom_t

namespace polynom_t

variable {mod : Nat}

/-! ## One stage: all blocks of size `2 * len` -/

theorem fft_blocks_spec (root : ZMod mod) (len B : Nat) (hlen : 1 ≤ len) (fuel : Nat) :
    ∀ (b : Nat) (a : polynom_t mod), b ≤ B → B - b ≤ fuel → B * (2 * len) ≤ a.length →
      (fft_blocks root len (B * (2 * len)) fuel (b * (2 * len)) a).length = a.length ∧
      (∀ k, k < b * (2 * len) →
        (fft_blocks root len (B * (2 * len)) fuel (b * (2 * len)) a).getD k 0 = a.getD k 0) ∧
      (∀ c r, b ≤ c → c < B → r < len →
        (fft_blocks root len (B * (2 * len)) fuel (b * (2 * len)) a).getD (c * (2 * len) + r) 0 =
          a.getD (c * (2 * len) + r) 0 + a.getD (c * (2 * len) + r + len) 0 * root ^ r ∧
        (fft_blocks root len (B * (2 * len)) fuel (b * (2 * len)) a).getD
            (c * (2 * len) + r + len) 0 =
          a.getD (c * (2 * len) + r) 0 - a.getD (c * (2 * len) + r + len) 0 * root ^ r) := by
  induction fuel with
  | zero =>
    intro b a hb hf _
    have hbB : b = B := by omega
    subst hbB
    refine ⟨rfl, fun k _ => rfl, fun c r h1 h2 _ => absurd h2 (by omega)⟩
  | succ f ih =>
    intro b a hb hf ha
    unfold fft_blocks
    by_cases hlt : b * (2 * len) < B * (2 * len)
    · rw [if_pos hlt]
      have hbB : b < B := Nat.lt_of_mul_lt_mul_right hlt
      have hstep : b * (2 * len) + len <<< 1 = (b + 1) * (2 * len) := by
        rw [Nat.shiftLeft_eq]; ring
      rw [hstep]
      have hblk : (b + 1) * (2 * len) ≤ B * (2 * len) := Nat.mul_le_mul_right _ hbB
      have hb1 : (b + 1) * (2 * len) = b * (2 * len) + 2 * len := by ring
      have hin : b * (2 * len) + 2 * len ≤ a.length := by omega
      have hl1 := length_fft_butterflies root len (b * (2 * len)) a hin
      obtain ⟨h1, h2, h3⟩ := ih (b + 1) (fft_butterflies root len (b * (2 * len)) a) hbB
        (by omega) (by rw [hl1]; exact ha)
      refine ⟨by rw [h1, hl1], ?_, ?_⟩
      · intro k hk
        rw [h2 k (by omega), getD_fft_butterflies root len _ a hin, if_neg (by omega),
          if_neg (by omega)]
      · intro c r hc hcB hr
        by_cases hcb : c = b
        · subst hcb
          rw [h2 _ (by omega), h2 _ (by omega), getD_fft_butterflies root len _ a hin,
            getD_fft_butterflies root len _ a hin, if_pos (by omega), if_neg (by omega),
            if_pos (by omega)]
          have e1 : c * (2 * len) + r - c * (2 * len) = r := by omega
          have e2 : c * (2 * len) + r + len - len = c * (2 * len) + r := by omega
          rw [e1, e2, e1]
          exact ⟨rfl, rfl⟩
        · have hc1 : b + 1 ≤ c := by omega
          have hge : (b + 1) * (2 * len) ≤ c * (2 * len) := Nat.mul_le_mul_right _ hc1
          obtain ⟨g1, g2⟩ := h3 c r hc1 hcB hr
          rw [g1, g2, getD_fft_butterflies root len _ a hin,
            getD_fft_butterflies root len _ a hin, if_neg (by omega), if_neg (by omega),
            if_neg (by omega), if_neg (by omega)]
          exact ⟨rfl, rfl⟩
    · rw [if_neg hlt]
      have hbB : b = B := by
        by_contra hne
        have : b < B := by omega
        exact hlt (Nat.mul_lt_mul_of_pos_right this (by omega))
      subst hbB
      refine ⟨rfl, fun k _ => rfl, fun c r h1 h2 _ => absurd h2 (by omega)⟩

end polynom_t

/-! ## Splitting a transform into its even and odd halves -/

theorem sum_range_two_mul {M : Type} [AddCommMonoid M] (f : Nat → M) (m : Nat) :
    ∑ i in Finset.range (2 * m), f i =
      ∑ j in Finset.range m, f (2 * j) + ∑ j in Finset.range m, f (2 * j + 1) := by
  induction m with
  | zero => simp
  | succ k ih =>
    have : 2 * (k + 1) = 2 * k + 1 + 1 := by ring
    rw [this, Finset.sum_range_succ, Finset.sum_range_succ, ih, Finset.sum_range_succ,
      Finset.sum_range_succ]
    abel

theorem butterfly_sum_lo {R : Type} [CommRing R] (f : Nat → R) (w v : R) (m r : Nat)
    (hv : w ^ 2 = v) :
    ∑ i in Finset.range (2 * m), f i * w ^ (i * r) =
      ∑ j in Finset.range m, f (2 * j) * v ^ (j * r) +
        (∑ j in Finset.range m, f (2 * j + 1) * v ^ (j * r)) * w ^ r := by
  rw [sum_range_two_mul, Finset.sum_mul]
  congr 1
  · apply Finset.sum_congr rfl
    intro j _
    rw [← hv, ← pow_mul]
    congr 2; ring
  · apply Finset.sum_congr rfl
    intro j _
    rw [← hv, ← pow_mul, mul_assoc, ← pow_add]
    congr 2; ring

theorem butterfly_sum_hi {R : Type} [CommRing R] (f : Nat → R) (w v : R) (m r : Nat)
    (hv : w ^ 2 = v) (hm : w ^ m = -1) :
    ∑ i in Finset.range (2 * m), f i * w ^ (i * (r + m)) =
      ∑ j in Finset.range m, f (2 * j) * v ^ (j * r) -
        (∑ j in Finset.range m, f (2 * j + 1) * v ^ (j * r)) * w ^ r := by
  rw [sum_range_two_mul, Finset.sum_mul, sub_eq_add_neg, ← Finset.sum_neg_distrib]
  congr 1
  · apply Finset.sum_congr rfl
    intro j _
    have e : 2 * j * (r + m) = 2 * (j * r) + m * (2 * j) := by ring
    have hA : w ^ (2 * (j * r)) = v ^ (j * r) := by rw [pow_mul, hv]
    have h1 : w ^ (m * (2 * j)) = 1 := by rw [pow_mul, hm, pow_mul, neg_one_sq, one_pow]
    rw [e, pow_add, hA, h1, mul_one]
  · apply Finset.sum_congr rfl
    intro j _
    have e : (2 * j + 1) * (r + m) = 2 * (j * r) + r + m * (2 * j + 1) := by ring
    have hA : w ^ (2 * (j * r)) = v ^ (j * r) := by rw [pow_mul, hv]
    have h2 : w ^ (m * (2 * j + 1)) = -1 := by
      rw [pow_mul, hm, pow_succ, pow_mul, neg_one_sq, one_pow, one_mul]
    rw [e, pow_add, pow_add, hA, h2]
    ring

/-! ## Bit reversal -/

namespace polynom_t

variable {mod : Nat}

theorem brev_lt (k : Nat) : ∀ m, brev k m < 2 ^ k := by
  induction k with
  | zero => intro m; simp [brev]
  | succ k ih =>
    intro m
    unfold brev
    have h1 := ih (m / 2)
    have h2 : m % 2 < 2 := Nat.mod_lt _ (by omega)
    have h3 : m % 2 * 2 ^ k ≤ 1 * 2 ^ k := Nat.mul_le_mul_right _ (by omega)
    rw [pow_succ]; omega

theorem brev_double (k : Nat) : ∀ x, x < 2 ^ k → brev (k + 1) x = 2 * brev k x := by
  induction k with
  | zero =>
    intro x hx
    have : x = 0 := by simpa using hx
    subst this; simp [brev]
  | succ k ih =>
    intro x hx
    have hx2 : x / 2 < 2 ^ k := by
      rw [Nat.div_lt_iff_lt_mul (by omega)]; rw [pow_succ] at hx; omega
    rw [brev, ih (x / 2) hx2, brev]
    rw [pow_succ]; ring

theorem brev_add_high (k : Nat) : ∀ x b, x < 2 ^ k → b < 2 →
    brev (k + 1) (x + b * 2 ^ k) = 2 * brev k x + b := by
  induction k with
  | zero =>
    intro x b hx hb
    have : x = 0 := by simpa using hx
    subst this
    simp only [brev, pow_zero, mul_one, zero_add, add_zero, mul_zero]
    omega
  | succ k ih =>
    intro x b hx hb
    have hx2 : x / 2 < 2 ^ k := by
      rw [Nat.div_lt_iff_lt_mul (by omega)]; rw [pow_succ] at hx; omega
    have e1 : (x + b * 2 ^ (k + 1)) % 2 = x % 2 := by
      rw [pow_succ, ← mul_assoc]; exact Nat.add_mul_mod_self_right _ _ _
    have e2 : (x + b * 2 ^ (k + 1)) / 2 = x / 2 + b * 2 ^ k := by
      rw [pow_succ, ← mul_assoc]; exact Nat.add_mul_div_right _ _ (by omega)
    rw [brev, e1, e2, ih (x / 2) b hx2 hb]
    conv_rhs => rw [brev]
    ring

theorem brev_brev (k : Nat) : ∀ m, m < 2 ^ k → brev k (brev k m) = m := by
  induction k with
  | zero => intro m hm; simp at hm; subst hm; rfl
  | succ k ih =>
    intro m hm
    have hm2 : m / 2 < 2 ^ k := by
      rw [Nat.div_lt_iff_lt_mul (by omega)]; rw [pow_succ] at hm; omega
    have e : brev (k + 1) m = m % 2 * 2 ^ k + brev k (m / 2) := rfl
    rw [e, Nat.add_comm (m % 2 * 2 ^ k), brev_add_high k _ _ (brev_lt k _) (Nat.mod_lt _ (by omega)), ih _ hm2]
    omega

theorem brev_zero (k : Nat) : brev k 0 = 0 := by
  induction k with
  | zero => rfl
  | succ k ih => simp [brev, ih]

end polynom_t

namespace polynom_t

variable {mod : Nat}

/-! ## One stage doubles the block size -/

theorem brev_two_mul (k blk : Nat) : brev (k + 1) (2 * blk) = brev k blk := by
  have e : brev (k + 1) (2 * blk) = (2 * blk) % 2 * 2 ^ k + brev k (2 * blk / 2) := rfl
  rw [e, Nat.mul_mod_right, Nat.mul_div_cancel_left _ (by omega : 0 < 2)]
  simp

theorem brev_two_mul_add_one (k blk : Nat) :
    brev (k + 1) (2 * blk + 1) = 2 ^ k + brev k blk := by
  have e : brev (k + 1) (2 * blk + 1) =
      (2 * blk + 1) % 2 * 2 ^ k + brev k ((2 * blk + 1) / 2) := rfl
  have h1 : (2 * blk + 1) % 2 = 1 := by omega
  have h2 : (2 * blk + 1) / 2 = blk := by omega
  rw [e, h1, h2, one_mul]

theorem fft_block_value_even (v : ZMod mod) (a0 : polynom_t mod) (s k blk r : Nat) :
    fft_block_value v a0 (s + 1 + k) s (2 * blk) r =
      ∑ j in Finset.range (2 ^ s),
        a0.getD (2 * j * 2 ^ k + brev k blk) 0 * v ^ (j * r) := by
  unfold fft_block_value
  have hk : s + 1 + k - s = k + 1 := by omega
  rw [hk, brev_two_mul]
  apply Finset.sum_congr rfl
  intro j _
  have : j * 2 ^ (k + 1) + brev k blk = 2 * j * 2 ^ k + brev k blk := by
    rw [pow_succ]; ring
  rw [this]

theorem fft_block_value_odd (v : ZMod mod) (a0 : polynom_t mod) (s k blk r : Nat) :
    fft_block_value v a0 (s + 1 + k) s (2 * blk + 1) r =
      ∑ j in Finset.range (2 ^ s),
        a0.getD ((2 * j + 1) * 2 ^ k + brev k blk) 0 * v ^ (j * r) := by
  unfold fft_block_value
  have hk : s + 1 + k - s = k + 1 := by omega
  rw [hk, brev_two_mul_add_one]
  apply Finset.sum_congr rfl
  intro j _
  have : j * 2 ^ (k + 1) + (2 ^ k + brev k blk) = (2 * j + 1) * 2 ^ k + brev k blk := by
    rw [pow_succ]; ring
  rw [this]

theorem fft_block_value_succ_lo (w v : ZMod mod) (a0 : polynom_t mod) (s k blk r : Nat)
    (hv : w ^ 2 = v) :
    fft_block_value w a0 (s + 1 + k) (s + 1) blk r =
      fft_block_value v a0 (s + 1 + k) s (2 * blk) r +
        fft_block_value v a0 (s + 1 + k) s (2 * blk + 1) r * w ^ r := by
  rw [fft_block_value_even, fft_block_value_odd]
  unfold fft_block_value
  have hk : s + 1 + k - (s + 1) = k := by omega
  have hp : 2 ^ (s + 1) = 2 * 2 ^ s := by rw [pow_succ]; ring
  rw [hk, hp]
  exact butterfly_sum_lo (fun i => a0.getD (i * 2 ^ k + brev k blk) 0) w v (2 ^ s) r hv

theorem fft_block_value_succ_hi (w v : ZMod mod) (a0 : polynom_t mod) (s k blk r : Nat)
    (hv : w ^ 2 = v) (hm : w ^ (2 ^ s) = -1) :
    fft_block_value w a0 (s + 1 + k) (s + 1) blk (r + 2 ^ s) =
      fft_block_value v a0 (s + 1 + k) s (2 * blk) r -
        fft_block_value v a0 (s + 1 + k) s (2 * blk + 1) r * w ^ r := by
  rw [fft_block_value_even, fft_block_value_odd]
  unfold fft_block_value
  have hk : s + 1 + k - (s + 1) = k := by omega
  have hp : 2 ^ (s + 1) = 2 * 2 ^ s := by rw [pow_succ]; ring
  rw [hk, hp]
  exact butterfly_sum_hi (fun i => a0.getD (i * 2 ^ k + brev k blk) 0) w v (2 ^ s) r hv hm

theorem fft_stage_step (w v : ZMod mod) (a0 cur : polynom_t mod) (s k : Nat)
    (hv : w ^ 2 = v) (hm : w ^ (2 ^ s) = -1)
    (hlen : cur.length = 2 ^ (s + 1 + k))
    (hinv : ∀ blk t, blk < 2 ^ (k + 1) → t < 2 ^ s →
      cur.getD (blk * 2 ^ s + t) 0 = fft_block_value v a0 (s + 1 + k) s blk t) :
    (fft_blocks w (2 ^ s) (2 ^ (s + 1 + k)) (2 ^ (s + 1 + k)) 0 cur).length = 2 ^ (s + 1 + k) ∧
    ∀ blk t, blk < 2 ^ k → t < 2 ^ (s + 1) →
      (fft_blocks w (2 ^ s) (2 ^ (s + 1 + k)) (2 ^ (s + 1 + k)) 0 cur).getD
        (blk * 2 ^ (s + 1) + t) 0 = fft_block_value w a0 (s + 1 + k) (s + 1) blk t := by
  have hn : 2 ^ k * (2 * 2 ^ s) = 2 ^ (s + 1 + k) := by
    rw [pow_add, pow_succ]; ring
  have hpos : 1 ≤ 2 ^ s := Nat.one_le_two_pow
  have hB : 2 ^ k - 0 ≤ 2 ^ (s + 1 + k) := by
    rw [← hn]
    have : 2 ^ k * 1 ≤ 2 ^ k * (2 * 2 ^ s) := Nat.mul_le_mul_left _ (by omega)
    omega
  have key := fft_blocks_spec w (2 ^ s) (2 ^ k) hpos (2 ^ (s + 1 + k)) 0 cur (Nat.zero_le _) hB
    (by rw [hn, hlen])
  rw [hn, Nat.zero_mul] at key
  obtain ⟨k1, _, k3⟩ := key
  refine ⟨by rw [k1, hlen], ?_⟩
  intro blk t hblk ht
  have hp : 2 ^ (s + 1) = 2 * 2 ^ s := by rw [pow_succ]; ring
  have hk1 : 2 ^ (k + 1) = 2 * 2 ^ k := by rw [pow_succ]; ring
  have i1 : ∀ r, blk * (2 * 2 ^ s) + r = 2 * blk * 2 ^ s + r := by intro r; ring
  have i2 : ∀ r, blk * (2 * 2 ^ s) + r + 2 ^ s = (2 * blk + 1) * 2 ^ s + r := by intro r; ring
  by_cases hlo : t < 2 ^ s
  · obtain ⟨g1, _⟩ := k3 blk t (Nat.zero_le _) hblk hlo
    rw [hp, g1, i2, i1, hinv (2 * blk) t (by omega) hlo, hinv (2 * blk + 1) t (by omega) hlo]
    exact (fft_block_value_succ_lo w v a0 s k blk t hv).symm
  · have hr : t - 2 ^ s < 2 ^ s := by omega
    obtain ⟨_, g2⟩ := k3 blk (t - 2 ^ s) (Nat.zero_le _) hblk hr
    have ht' : t = (t - 2 ^ s) + 2 ^ s := by omega
    have hpos' : blk * (2 * 2 ^ s) + t = blk * (2 * 2 ^ s) + (t - 2 ^ s) + 2 ^ s := by omega
    rw [hp, hpos', g2, i2, i1, hinv (2 * blk) _ (by omega) hr,
      hinv (2 * blk + 1) _ (by omega) hr]
    conv_rhs => rw [ht']
    exact (fft_block_value_succ_hi w v a0 s k blk (t - 2 ^ s) hv hm).symm

end polynom_t

theorem std_lg_loop_two_pow (fuel : Nat) : ∀ s, s ≤ fuel → std_lg_loop fuel (2 ^ s) = s := by
  induction fuel with
  | zero => intro s hs; have : s = 0 := by omega
            subst this; rfl
  | succ f ih =>
    intro s hs
    unfold std_lg_loop
    cases s with
    | zero => simp
    | succ s' =>
      have h2 : ¬ (2 ^ (s' + 1) < 2) := by
        have : 1 ≤ 2 ^ s' := Nat.one_le_two_pow
        rw [pow_succ]; omega
      have h3 : 2 ^ (s' + 1) / 2 = 2 ^ s' := by
        rw [pow_succ]; exact Nat.mul_div_cancel _ (by omega)
      rw [if_neg h2, h3, ih s' (by omega)]

theorem std_lg_two_pow (s : Nat) : std_lg (2 ^ s) = s :=
  std_lg_loop_two_pow _ s (Nat.lt_two_pow s).le

namespace polynom_t

variable {mod : Nat}

/-! ## All stages -/

theorem fft_stages_spec (rt : Nat → ZMod mod) (roots : List (ZMod mod)) (a0 : polynom_t mod)
    (lg : Nat) (hroots : ∀ s, s < lg → roots.getD s 0 = rt (s + 1))
    (hv : ∀ s, s < lg → rt (s + 1) ^ 2 = rt s)
    (hm : ∀ s, s < lg → rt (s + 1) ^ (2 ^ s) = -1) (d : Nat) :
    ∀ (s fuel : Nat) (cur : polynom_t mod), s + d = lg → d ≤ fuel → cur.length = 2 ^ lg →
      (∀ blk t, blk < 2 ^ d → t < 2 ^ s →
        cur.getD (blk * 2 ^ s + t) 0 = fft_block_value (rt s) a0 lg s blk t) →
      (fft_stages roots (2 ^ lg) fuel (2 ^ s) cur).length = 2 ^ lg ∧
      ∀ t, t < 2 ^ lg →
        (fft_stages roots (2 ^ lg) fuel (2 ^ s) cur).getD t 0 =
          fft_block_value (rt lg) a0 lg lg 0 t := by
  induction d with
  | zero =>
    intro s fuel cur hs _ hlen hinv
    have hsl : s = lg := by omega
    subst hsl
    have hres : fft_stages roots (2 ^ s) fuel (2 ^ s) cur = cur := by
      cases fuel with
      | zero => rfl
      | succ f => unfold fft_stages; rw [if_neg (lt_irrefl _)]
    rw [hres]
    refine ⟨hlen, fun t ht => ?_⟩
    have := hinv 0 t (by simp) ht
    rwa [Nat.zero_mul, Nat.zero_add] at this
  | succ d ih =>
    intro s fuel cur hs hf hlen hinv
    cases fuel with
    | zero => omega
    | succ f =>
      have hlt : s < lg := by omega
      have hpow : 2 ^ s < 2 ^ lg := Nat.pow_lt_pow_right (by omega) hlt
      unfold fft_stages
      rw [if_pos hpow, std_lg_two_pow, hroots s hlt]
      have hsh : 2 ^ s <<< 1 = 2 ^ (s + 1) := by rw [Nat.shiftLeft_eq]; ring
      rw [hsh]
      have hlg : lg = s + 1 + d := by omega
      have step := fft_stage_step (rt (s + 1)) (rt s) a0 cur s d (hv s hlt) (hm s hlt)
        (by rw [hlen, hlg]) (by rw [← hlg]; exact hinv)
      rw [← hlg] at step
      exact ih (s + 1) f _ (by omega) (by omega) step.1 step.2

theorem fft_block_value_top (w : ZMod mod) (a0 : polynom_t mod) (lg t : Nat)
    (hlen : a0.length = 2 ^ lg) : fft_block_value w a0 lg lg 0 t = ntt_coeff w a0 t := by
  unfold fft_block_value ntt_coeff
  rw [hlen, Nat.sub_self]
  apply Finset.sum_congr rfl
  intro j _
  simp [brev]

theorem fft_block_value_bottom (w : ZMod mod) (a0 : polynom_t mod) (lg blk : Nat) :
    fft_block_value w a0 lg 0 blk 0 = a0.getD (brev lg blk) 0 := by
  unfold fft_block_value
  simp

end polynom_t

namespace polynom_t

variable {mod : Nat}

/-! ## The two cached tables -/

theorem reversed_mask_fold (lg : Nat) (init : List Nat) (hinit : init.length = 2 ^ lg)
    (h0 : init.getD 0 0 = 0) (K : Nat) (hK : K ≤ 2 ^ lg - 1) :
    ((List.range' 1 K).foldl (fun rm mask =>
      rm.set mask ((rm.getD (mask >>> 1) 0 >>> 1) + ((mask &&& 1) <<< (lg - 1)))) init).length =
        2 ^ lg ∧
    ∀ i, i ≤ K →
      ((List.range' 1 K).foldl (fun rm mask =>
        rm.set mask ((rm.getD (mask >>> 1) 0 >>> 1) + ((mask &&& 1) <<< (lg - 1)))) init).getD
          i 0 = brev lg i := by
  induction K with
  | zero =>
    refine ⟨hinit, fun i hi => ?_⟩
    have : i = 0 := by omega
    subst this
    simp only [List.range'_zero, List.foldl_nil, h0, brev_zero]
  | succ K ih =>
    obtain ⟨hl, hg⟩ := ih (by omega)
    rw [List.range'_1_concat, List.foldl_append]
    simp only [List.foldl_cons, List.foldl_nil, List.length_set]
    refine ⟨hl, fun i hi => ?_⟩
    rw [getD_set_eq, hl]
    by_cases hi' : 1 + K = i
    · subst hi'
      rw [if_pos ⟨rfl, by omega⟩]
      have hlg : 1 ≤ lg := by
        by_contra h
        have : lg = 0 := by omega
        subst this
        simp at hK
      obtain ⟨l, rfl⟩ : ∃ l, lg = l + 1 := ⟨lg - 1, by omega⟩
      have hhalf : (1 + K) / 2 < 2 ^ l := by
        rw [Nat.div_lt_iff_lt_mul (by omega)]; rw [pow_succ] at hK; omega
      rw [Nat.shiftRight_eq_div_pow, Nat.shiftRight_eq_div_pow, Nat.and_one_is_mod,
        Nat.shiftLeft_eq, pow_one, hg _ (by omega), brev_double l _ hhalf,
        Nat.mul_div_cancel_left _ (by omega : 0 < 2), Nat.add_sub_cancel]
      have e : brev (l + 1) (1 + K) = (1 + K) % 2 * 2 ^ l + brev l ((1 + K) / 2) := rfl
      rw [e]; ring
    · rw [if_neg (by omega)]
      exact hg i (by omega)

theorem fft_reversed_mask_spec (old : List Nat) (lg : Nat)
    (hold : old = [] ∨ ∃ l, old.length = 2 ^ l ∧ ∀ i, i < 2 ^ l → old.getD i 0 = brev l i) :
    (fft_reversed_mask old (2 ^ lg) lg).length = 2 ^ lg ∧
    ∀ i, i < 2 ^ lg → (fft_reversed_mask old (2 ^ lg) lg).getD i 0 = brev lg i := by
  unfold fft_reversed_mask
  by_cases h : old.length ≠ 2 ^ lg
  · rw [if_pos h]
    have h0 : (vec_resize 0 old (2 ^ lg)).getD 0 0 = 0 := by
      rw [getD_vec_resize, if_pos (Nat.two_pow_pos lg)]
      rcases hold with hold | ⟨l, _, hl⟩
      · subst hold; rfl
      · rw [hl 0 (Nat.two_pow_pos l), brev_zero]
    have key := reversed_mask_fold lg (vec_resize 0 old (2 ^ lg)) (length_vec_resize _ _ _) h0
      (2 ^ lg - 1) (le_refl _)
    exact ⟨key.1, fun i hi => key.2 i (by omega)⟩
  · rw [if_neg h]
    have h' : old.length = 2 ^ lg := by simpa using h
    rcases hold with hold | ⟨l, hl1, hl2⟩
    · subst hold
      have : 1 ≤ 2 ^ lg := Nat.one_le_two_pow
      simp at h'; omega
    · have : l = lg := Nat.pow_right_injective (le_refl 2) (hl1.symm.trans h')
      subst this
      exact ⟨hl1, hl2⟩

theorem two_shiftLeft (i : Nat) : 2 <<< i = 2 ^ (i + 1) := by
  rw [Nat.shiftLeft_eq, pow_succ]; ring

theorem fft_roots_spec (g : ZMod mod) (old : List (ZMod mod)) (lg : Nat)
    (hold : ∀ i, i < old.length → old.getD i 0 = g ^ ((mod - 1) / 2 ^ (i + 1))) :
    (fft_roots g old lg).length = lg ∧
    ∀ i, i < lg → (fft_roots g old lg).getD i 0 = g ^ ((mod - 1) / 2 ^ (i + 1)) := by
  unfold fft_roots
  by_cases h : old.length ≠ lg
  · rw [if_pos h]
    constructor
    · rw [foldl_set_pointwise_length 0 (fun i _ => T.power g ((mod - 1) / (2 <<< i))),
        length_vec_resize]
    · intro i hi
      rw [foldl_set_pointwise_getD 0 (fun i _ => T.power g ((mod - 1) / (2 <<< i))),
        length_vec_resize, if_pos ⟨hi, hi⟩, T.power_eq_pow, two_shiftLeft]
  · rw [if_neg h]
    have h' : old.length = lg := by simpa using h
    exact ⟨h', fun i hi => hold i (by omega)⟩

/-! ## The swap loop -/

theorem fft_permute_fold (r : Nat → Nat) (rm : List Nat) (a : polynom_t mod)
    (hrm : ∀ i, i < a.length → rm.getD i 0 = r i)
    (hr : ∀ i, i < a.length → r i < a.length)
    (hrr : ∀ i, i < a.length → r (r i) = i) (K : Nat) (hK : K ≤ a.length) :
    ((List.range K).foldl (fun a i =>
      if rm.getD i 0 < i then
        (a.set i (a.getD (rm.getD i 0) 0)).set (rm.getD i 0) (a.getD i 0)
      else a) a).length = a.length ∧
    ∀ j, j < a.length →
      ((List.range K).foldl (fun a i =>
        if rm.getD i 0 < i then
          (a.set i (a.getD (rm.getD i 0) 0)).set (rm.getD i 0) (a.getD i 0)
        else a) a).getD j 0 = if j < K ∧ r j < K then a.getD (r j) 0 else a.getD j 0 := by
  induction K with
  | zero =>
    refine ⟨rfl, fun j _ => ?_⟩
    rw [if_neg (by omega)]; rfl
  | succ K ih =>
    obtain ⟨hl, hg⟩ := ih (by omega)
    rw [List.range_succ, List.foldl_append]
    simp only [List.foldl_cons, List.foldl_nil]
    rw [hrm K (by omega)]
    have hrK := hr K (by omega)
    have hrrK := hrr K (by omega)
    by_cases hlt : r K < K
    · rw [if_pos hlt]
      refine ⟨by simp only [List.length_set, hl], fun j hj => ?_⟩
      rw [getD_set_eq, getD_set_eq, List.length_set, hl]
      by_cases h1 : r K = j
      · subst h1
        rw [if_pos ⟨rfl, hrK⟩, hg K (by omega), if_neg (by omega), hrrK, if_pos (by omega)]
      · rw [if_neg (by omega)]
        by_cases h2 : K = j
        · subst h2
          rw [if_pos ⟨rfl, by omega⟩, hg _ hrK, hrrK, if_neg (by omega), if_pos (by omega)]
        · rw [if_neg (by omega), hg j hj]
          have hne : r j ≠ K := by
            intro h3
            apply h1
            rw [← h3, hrr j hj]
          have c : (j < K + 1 ∧ r j < K + 1) ↔ (j < K ∧ r j < K) := by omega
          simp only [c]
    · rw [if_neg hlt]
      refine ⟨hl, fun j hj => ?_⟩
      rw [hg j hj]
      by_cases h2 : K = j
      · subst h2
        rw [if_neg (by omega)]
        by_cases h3 : r K < K + 1
        · have : r K = K := by omega
          rw [if_pos ⟨by omega, h3⟩, this]
        · rw [if_neg (by omega)]
      · have hne : r j = K → K < j := by
          intro h3
          have : r K = j := by rw [← h3, hrr j hj]
          omega
        have c : (j < K + 1 ∧ r j < K + 1) ↔ (j < K ∧ r j < K) := by omega
        simp only [c]

theorem fft_permute_spec (lg : Nat) (rm : List Nat) (a : polynom_t mod)
    (hlen : a.length = 2 ^ lg) (hrm : ∀ i, i < 2 ^ lg → rm.getD i 0 = brev lg i) :
    (fft_permute rm a).length = 2 ^ lg ∧
    ∀ j, j < 2 ^ lg → (fft_permute rm a).getD j 0 = a.getD (brev lg j) 0 := by
  have key := fft_permute_fold (brev lg) rm a (fun i hi => hrm i (by omega))
    (fun i _ => by rw [hlen]; exact brev_lt lg i)
    (fun i hi => brev_brev lg i (by omega)) a.length (le_refl _)
  unfold fft_permute
  refine ⟨by rw [key.1, hlen], fun j hj => ?_⟩
  rw [key.2 j (by omega), if_pos ⟨by omega, by rw [hlen]; exact brev_lt lg j⟩]

theorem length_fft_permute (rm : List Nat) (a : polynom_t mod) :
    (fft_permute rm a).length = a.length := by
  unfold fft_permute
  suffices h : ∀ K, ((List.range K).foldl (fun a i =>
      if rm.getD i 0 < i then
        (a.set i (a.getD (rm.getD i 0) 0)).set (rm.getD i 0) (a.getD i 0)
      else a) a).length = a.length from h a.length
  intro K
  induction K with
  | zero => rfl
  | succ K ih =>
    rw [List.range_succ, List.foldl_append]
    simp only [List.foldl_cons, List.foldl_nil]
    split
    · simp only [List.length_set]; exact ih
    · exact ih

end polynom_t

namespace polynom_t

variable {mod : Nat}

/-! ## Roots of unity derived from the primitive root -/

theorem two_mul_div_two_pow_succ (e s : Nat) (h : 2 ^ (s + 1) ∣ e) :
    2 * (e / 2 ^ (s + 1)) = e / 2 ^ s := by
  obtain ⟨q, rfl⟩ := h
  rw [Nat.mul_div_cancel_left _ (Nat.two_pow_pos _)]
  have : 2 ^ (s + 1) * q = 2 ^ s * (2 * q) := by rw [pow_succ]; ring
  rw [this, Nat.mul_div_cancel_left _ (Nat.two_pow_pos _)]

theorem two_pow_mul_div_two_pow_succ (e s : Nat) (h : 2 ^ (s + 1) ∣ e) :
    2 ^ s * (e / 2 ^ (s + 1)) = e / 2 := by
  obtain ⟨q, rfl⟩ := h
  rw [Nat.mul_div_cancel_left _ (Nat.two_pow_pos _)]
  have : 2 ^ (s + 1) * q = 2 * (2 ^ s * q) := by rw [pow_succ]; ring
  rw [this, Nat.mul_div_cancel_left _ (by omega : 0 < 2)]

theorem primitive_root_pow_half [Fact mod.Prime] (g : ZMod mod)
    (hg : IsPrimitiveRoot g (mod - 1)) (h2 : 2 ∣ mod - 1) : g ^ ((mod - 1) / 2) = -1 := by
  have hp : 2 ≤ mod := (Fact.out : mod.Prime).two_le
  have hpos : 0 < mod - 1 := by omega
  have hsq : (g ^ ((mod - 1) / 2)) ^ 2 = 1 := by
    rw [← pow_mul, Nat.div_mul_cancel h2, hg.pow_eq_one]
  rcases sq_eq_one_iff.mp hsq with h | h
  · exfalso
    have hdvd := (hg.pow_eq_one_iff_dvd _).mp h
    have hle := Nat.le_of_dvd (Nat.div_pos (Nat.le_of_dvd hpos h2) (by omega)) hdvd
    have : (mod - 1) / 2 < mod - 1 := Nat.div_lt_self hpos (by omega)
    omega
  · exact h

theorem root_sq [Fact mod.Prime] (g : ZMod mod) (s : Nat) (h : 2 ^ (s + 1) ∣ mod - 1) :
    (g ^ ((mod - 1) / 2 ^ (s + 1))) ^ 2 = g ^ ((mod - 1) / 2 ^ s) := by
  rw [← pow_mul, Nat.mul_comm, two_mul_div_two_pow_succ _ _ h]

theorem root_pow_half [Fact mod.Prime] (g : ZMod mod) (hg : IsPrimitiveRoot g (mod - 1))
    (s : Nat) (h : 2 ^ (s + 1) ∣ mod - 1) :
    (g ^ ((mod - 1) / 2 ^ (s + 1))) ^ (2 ^ s) = -1 := by
  rw [← pow_mul, Nat.mul_comm, two_pow_mul_div_two_pow_succ _ _ h]
  apply primitive_root_pow_half g hg
  exact Dvd.dvd.trans (Dvd.intro_left (2 ^ s) (by rw [pow_succ])) h

/-! ## `fft` -/

theorem length_fft_stages (roots : List (ZMod mod)) (lg : Nat) (d : Nat) :
    ∀ (s fuel : Nat) (cur : polynom_t mod), s + d = lg → cur.length = 2 ^ lg →
      (fft_stages roots (2 ^ lg) fuel (2 ^ s) cur).length = 2 ^ lg := by
  induction d with
  | zero =>
    intro s fuel cur hs hlen
    have hsl : s = lg := by omega
    subst hsl
    cases fuel with
    | zero => exact hlen
    | succ f => unfold fft_stages; rw [if_neg (lt_irrefl _)]; exact hlen
  | succ d ih =>
    intro s fuel cur hs hlen
    cases fuel with
    | zero => exact hlen
    | succ f =>
      have hlt : s < lg := by omega
      have hpow : 2 ^ s < 2 ^ lg := Nat.pow_lt_pow_right (by omega) hlt
      unfold fft_stages
      rw [if_pos hpow]
      have hsh : 2 ^ s <<< 1 = 2 ^ (s + 1) := by rw [Nat.shiftLeft_eq]; ring
      rw [hsh]
      apply ih (s + 1) f _ (by omega)
      have hn : 2 ^ d * (2 * 2 ^ s) = 2 ^ lg := by
        rw [← hs, pow_add, pow_succ]; ring
      have hB : 2 ^ d - 0 ≤ 2 ^ lg := by
        rw [← hn]
        have : 2 ^ d * 1 ≤ 2 ^ d * (2 * 2 ^ s) :=
          Nat.mul_le_mul_left _ (by have := Nat.two_pow_pos s; omega)
        omega
      have key := fft_blocks_spec (roots.getD (std_lg (2 ^ s)) 0) (2 ^ s) (2 ^ d)
        Nat.one_le_two_pow (2 ^ lg) 0 cur (Nat.zero_le _) hB (by rw [hn, hlen])
      rw [hn, Nat.zero_mul] at key
      rw [key.1, hlen]

theorem fft_eq (g : ZMod mod) (c : fft_cache mod) (a : polynom_t mod) (lg : Nat)
    (hlen : a.length = 2 ^ lg) :
    fft g c a = some (⟨fft_reversed_mask c.reversed_mask (2 ^ lg) lg, fft_roots g c.roots lg⟩,
      fft_stages (fft_roots g c.roots lg) (2 ^ lg) (2 ^ lg) 1
        (fft_permute (fft_reversed_mask c.reversed_mask (2 ^ lg) lg) a)) := by
  unfold fft
  have hne : a.isEmpty = false := by
    cases a with
    | nil => have := Nat.two_pow_pos lg; simp at hlen; omega
    | cons x t => rfl
  have hand : 2 ^ lg &&& (2 ^ lg - 1) = 0 := by
    rw [Nat.and_pow_two_sub_one_eq_mod, Nat.mod_self]
  simp only [hne, Bool.false_eq_true, if_false, hlen, hand, ne_eq, not_true_eq_false,
    std_lg_two_pow]

theorem cache_ok_fft (g : ZMod mod) (c : fft_cache mod) (hc : cache_ok g c) (lg : Nat) :
    cache_ok g ⟨fft_reversed_mask c.reversed_mask (2 ^ lg) lg, fft_roots g c.roots lg⟩ := by
  have h1 := fft_reversed_mask_spec c.reversed_mask lg hc.1
  have h2 := fft_roots_spec g c.roots lg hc.2
  exact ⟨Or.inr ⟨lg, h1.1, h1.2⟩, fun i hi => h2.2 i (by rw [h2.1] at hi; exact hi)⟩

theorem cache_ok_init (g : ZMod mod) : cache_ok g (fft_cache.init mod) :=
  ⟨Or.inl rfl, fun i hi => absurd hi (by simp [fft_cache.init])⟩

/-- On a buffer whose length is a power of two `fft` returns a buffer of the same length
and keeps the tables valid. -/
theorem fft_total (g : ZMod mod) (c : fft_cache mod) (a : polynom_t mod) (lg : Nat)
    (hlen : a.length = 2 ^ lg) :
    ∃ c' r, fft g c a = some (c', r) ∧ r.length = 2 ^ lg ∧ (cache_ok g c → cache_ok g c') := by
  refine ⟨_, _, fft_eq g c a lg hlen, ?_, fun hc => cache_ok_fft g c hc lg⟩
  have := length_fft_stages (fft_roots g c.roots lg) lg lg 0 (2 ^ lg)
    (fft_permute (fft_reversed_mask c.reversed_mask (2 ^ lg) lg) a) (by omega)
    (by rw [length_fft_permute, hlen])
  rwa [pow_zero] at this

/-- On a buffer whose length `2^lg` divides `mod - 1`, `fft` computes the number-theoretic
transform with the root `g ^ ((mod - 1) / 2^lg)`. -/
theorem fft_spec [Fact mod.Prime] (g : ZMod mod) (hg : IsPrimitiveRoot g (mod - 1))
    (c : fft_cache mod) (hc : cache_ok g c) (a : polynom_t mod) (lg : Nat)
    (hlen : a.length = 2 ^ lg) (hdvd : 2 ^ lg ∣ mod - 1) :
    ∃ c', fft g c a = some (c', ntt (g ^ ((mod - 1) / 2 ^ lg)) a) ∧ cache_ok g c' := by
  refine ⟨_, ?_, cache_ok_fft g c hc lg⟩
  rw [fft_eq g c a lg hlen]
  congr 2
  have hrm := fft_reversed_mask_spec c.reversed_mask lg hc.1
  have hroots := fft_roots_spec g c.roots lg hc.2
  have hperm := fft_permute_spec lg (fft_reversed_mask c.reversed_mask (2 ^ lg) lg) a hlen hrm.2
  have hdv : ∀ s, s < lg → 2 ^ (s + 1) ∣ mod - 1 := fun s hs =>
    (pow_dvd_pow 2 (by omega : s + 1 ≤ lg)).trans hdvd
  have key := fft_stages_spec (fun s => g ^ ((mod - 1) / 2 ^ s)) (fft_roots g c.roots lg) a lg
    (fun s hs => hroots.2 s hs) (fun s hs => root_sq g s (hdv s hs))
    (fun s hs => root_pow_half g hg s (hdv s hs)) lg 0 (2 ^ lg)
    (fft_permute (fft_reversed_mask c.reversed_mask (2 ^ lg) lg) a) (by omega)
    (Nat.lt_two_pow lg).le hperm.1
    (by
      intro blk t hblk ht
      have ht0 : t = 0 := by simpa using ht
      subst ht0
      rw [pow_zero, Nat.mul_one, Nat.add_zero, hperm.2 blk hblk, fft_block_value_bottom])
  rw [pow_zero] at key
  apply list_ext_getD 0
  · rw [key.1]; simp [ntt, hlen]
  · intro i hi
    rw [key.1] at hi
    rw [key.2 i hi, fft_block_value_top _ a lg i hlen]
    unfold ntt
    rw [List.getD_eq_getElem _ _ (by simpa [hlen] using hi)]
    simp

end polynom_t

namespace polynom_t

variable {mod : Nat}

/-! ## The transform length chosen by `operator*=` -/

theorem mul_grow_loop (rs : Nat) (fuel : Nat) :
    ∀ s, rs ≤ 2 ^ s + fuel → (∀ j, j < s → 2 ^ j < rs) →
      ∃ lg, mul_grow rs fuel (2 ^ s) = 2 ^ lg ∧ rs ≤ 2 ^ lg ∧ ∀ j, j < lg → 2 ^ j < rs := by
  induction fuel with
  | zero =>
    intro s hs hmin
    exact ⟨s, rfl, by omega, hmin⟩
  | succ f ih =>
    intro s hs hmin
    unfold mul_grow
    by_cases h : 2 ^ s < rs
    · rw [if_pos h]
      have hsh : 2 ^ s <<< 1 = 2 ^ (s + 1) := by rw [Nat.shiftLeft_eq]; ring
      rw [hsh]
      apply ih (s + 1)
      · have : 2 ^ (s + 1) = 2 ^ s + 2 ^ s := by rw [pow_succ]; ring
        have := Nat.two_pow_pos s
        omega
      · intro j hj
        by_cases hjs : j = s
        · subst hjs; exact h
        · exact hmin j (by omega)
    · rw [if_neg h]
      exact ⟨s, rfl, by omega, hmin⟩

theorem mul_grow_spec (rs : Nat) :
    ∃ lg, mul_grow rs rs 1 = 2 ^ lg ∧ rs ≤ 2 ^ lg ∧ ∀ j, j < lg → 2 ^ j < rs := by
  have := mul_grow_loop rs rs 0 (by omega) (fun j hj => absurd hj (by omega))
  rwa [pow_zero] at this

theorem mul_grow_dvd (rs : Nat) (h : admits mod rs) : mul_grow rs rs 1 ∣ mod - 1 := by
  obtain ⟨lg, h1, _, h3⟩ := mul_grow_spec rs
  obtain ⟨K, hK1, hK2⟩ := h
  rw [h1]
  have : lg ≤ K := by
    by_contra hlt
    have := h3 K (by omega)
    omega
  exact (pow_dvd_pow 2 this).trans hK2

theorem admits_mono {N M : Nat} (h : admits mod N) (hle : M ≤ N) : admits mod M := by
  obtain ⟨K, h1, h2⟩ := h
  exact ⟨K, by omega, h2⟩

/-! ## The transform as evaluation at the powers of the root -/

theorem toPoly_eq_sum (a : polynom_t mod) :
    toPoly a = ∑ j in Finset.range a.length, Polynomial.monomial j (a.getD j 0) := by
  ext i
  rw [coeff_toPoly, Polynomial.finset_sum_coeff]
  simp only [Polynomial.coeff_monomial]
  rw [Finset.sum_ite_eq' (Finset.range a.length) i (fun j => a.getD j 0)]
  by_cases h : i < a.length
  · simp [h]
  · simp only [Finset.mem_range, h, if_false]
    exact getD_of_le 0 a i (by omega)

theorem ntt_coeff_eq_eval (w : ZMod mod) (a : polynom_t mod) (t : Nat) :
    ntt_coeff w a t = Polynomial.eval (w ^ t) (toPoly a) := by
  rw [toPoly_eq_sum, Polynomial.eval_finset_sum]
  unfold ntt_coeff
  apply Finset.sum_congr rfl
  intro j _
  rw [Polynomial.eval_monomial, ← pow_mul, Nat.mul_comm]

theorem length_ntt (w : ZMod mod) (a : polynom_t mod) : (ntt w a).length = a.length := by
  simp [ntt]

theorem getD_ntt (w : ZMod mod) (a : polynom_t mod) (t : Nat) (ht : t < a.length) :
    (ntt w a).getD t 0 = ntt_coeff w a t := by
  unfold ntt
  rw [List.getD_eq_getElem _ _ (by simpa using ht)]
  simp

/-! ## Orthogonality of the powers of a primitive root, and the inverse transform -/

theorem sum_pow_primitive [Fact mod.Prime] (w : ZMod mod) (n : Nat) (hw : IsPrimitiveRoot w n)
    (m : Nat) :
    ∑ t in Finset.range n, w ^ (t * m) = if n ∣ m then (n : ZMod mod) else 0 := by
  have hterm : ∀ t, w ^ (t * m) = (w ^ m) ^ t := fun t => by rw [← pow_mul, Nat.mul_comm]
  simp only [hterm]
  by_cases h : n ∣ m
  · rw [if_pos h, (hw.pow_eq_one_iff_dvd m).mpr h]
    simp
  · rw [if_neg h]
    have hne : w ^ m - 1 ≠ 0 := by
      intro h0
      exact h ((hw.pow_eq_one_iff_dvd m).mp (sub_eq_zero.mp h0))
    have hgeo := geom_sum_mul (w ^ m) n
    have hone : (w ^ m) ^ n = 1 := by rw [← pow_mul, Nat.mul_comm, pow_mul, hw.pow_eq_one, one_pow]
    rw [hone, sub_self] at hgeo
    exact (mul_eq_zero.mp hgeo).resolve_right hne

theorem ntt_ntt [Fact mod.Prime] (w : ZMod mod) (r : polynom_t mod) (hw : IsPrimitiveRoot w r.length)
    (s : Nat) (hs : s < r.length) :
    ntt_coeff w (ntt w r) s = (r.length : ZMod mod) * r.getD ((r.length - s) % r.length) 0 := by
  unfold ntt_coeff
  rw [length_ntt]
  have h1 : ∀ t ∈ Finset.range r.length, (ntt w r).getD t 0 * w ^ (t * s) =
      ∑ j in Finset.range r.length, r.getD j 0 * w ^ (t * (j + s)) := by
    intro t ht
    rw [getD_ntt w r t (Finset.mem_range.mp ht)]
    unfold ntt_coeff
    rw [Finset.sum_mul]
    apply Finset.sum_congr rfl
    intro j _
    rw [mul_assoc, ← pow_add]
    congr 2; ring
  rw [Finset.sum_congr rfl h1, Finset.sum_comm]
  have h2 : ∀ j ∈ Finset.range r.length,
      ∑ t in Finset.range r.length, r.getD j 0 * w ^ (t * (j + s)) =
      r.getD j 0 * (if r.length ∣ j + s then (r.length : ZMod mod) else 0) := by
    intro j _
    rw [← Finset.mul_sum, sum_pow_primitive w r.length hw]
  rw [Finset.sum_congr rfl h2]
  have hpos : 0 < r.length := by omega
  rw [Finset.sum_eq_single ((r.length - s) % r.length)]
  · have hd : r.length ∣ (r.length - s) % r.length + s := by
      by_cases h0 : s = 0
      · subst h0; simp
      · rw [Nat.mod_eq_of_lt (by omega)]
        have : r.length - s + s = r.length := by omega
        rw [this]
    rw [if_pos hd, mul_comm]
  · intro j hj hne
    have hj' := Finset.mem_range.mp hj
    have hnd : ¬ r.length ∣ j + s := by
      intro ⟨q, hq⟩
      apply hne
      have hq1 : q = 1 ∨ q = 0 ∨ 2 ≤ q := by omega
      rcases hq1 with hq1 | hq1 | hq1
      · subst hq1
        by_cases h0 : s = 0
        · subst h0; omega
        · rw [Nat.mod_eq_of_lt (by omega)]; omega
      · subst hq1
        have : j = 0 ∧ s = 0 := by omega
        rw [this.1, this.2]; simp
      · exfalso
        have : r.length * 2 ≤ r.length * q := Nat.mul_le_mul_left _ hq1
        omega
    rw [if_neg hnd, mul_zero]
  · intro hnot
    exact absurd (Finset.mem_range.mpr (Nat.mod_lt _ hpos)) hnot

end polynom_t

theorem getD_take_one_append_reverse_drop {α : Type} (d : α) (D : List α) (k : Nat)
    (hk : k < D.length) :
    (D.take 1 ++ (D.drop 1).reverse).getD k d = D.getD ((D.length - k) % D.length) d := by
  cases D with
  | nil => simp at hk
  | cons x t =>
    cases k with
    | zero => simp
    | succ j =>
      have hj : j < t.length := by simpa using hk
      have e1 : ((x :: t).length - (j + 1)) % (x :: t).length = t.length - j := by
        simp only [List.length_cons]
        rw [Nat.mod_eq_of_lt (by omega)]; omega
      rw [e1]
      simp only [List.take_succ_cons, List.take_zero, List.drop_succ_cons, List.drop_zero,
        List.singleton_append, List.getD_cons_succ]
      rw [List.getD_eq_getElem _ _ (by simpa using hj), List.getElem_reverse]
      obtain ⟨m, hm⟩ : ∃ m, t.length - j = m + 1 := ⟨t.length - j - 1, by omega⟩
      rw [hm, List.getD_cons_succ, List.getD_eq_getElem _ _ (by omega)]
      congr 1
      omega

namespace polynom_t

variable {mod : Nat}

/-! ## The transform branch of `operator*=` -/

theorem toPoly_resize_of_le (p : polynom_t mod) (n : Nat) (h : p.length ≤ n) :
    toPoly (resize p n) = toPoly p := by
  rw [toPoly_eq_iff]
  intro i
  rw [getD_resize]
  by_cases hi : i < n
  · rw [if_pos hi]
  · rw [if_neg hi, getD_of_le 0 p i (by omega)]

theorem natCast_two_pow_ne_zero [Fact mod.Prime] (hodd : mod ≠ 2) (lg : Nat) :
    (((2 ^ lg : Nat)) : ZMod mod) ≠ 0 := by
  intro h
  rw [ZMod.natCast_zmod_eq_zero_iff_dvd] at h
  have hp : mod.Prime := Fact.out
  have h2 : mod ∣ 2 := hp.dvd_of_dvd_pow h
  exact hodd ((Nat.prime_dvd_prime_iff_eq hp Nat.prime_two).mp h2)

theorem length_mul_pointwise (a b : polynom_t mod) (n : Nat) :
    ((List.range n).foldl (fun a i => a.set i (a.getD i 0 * b.getD i 0)) a).length =
      a.length :=
  foldl_set_pointwise_length 0 (fun i x => x * b.getD i 0) n a

theorem getD_mul_pointwise (a b : polynom_t mod) (n i : Nat) (hi : i < n) (hn : n ≤ a.length) :
    ((List.range n).foldl (fun a i => a.set i (a.getD i 0 * b.getD i 0)) a).getD i 0 =
      a.getD i 0 * b.getD i 0 := by
  rw [foldl_set_pointwise_getD 0 (fun i x => x * b.getD i 0) n a i, if_pos ⟨hi, by omega⟩]

/-- Without any assumption on the modulus beyond being an odd prime, the transform branch
returns a sequence of length `|p| + |q| - 1` and keeps the tables valid. -/
theorem mul_fft_total [Fact mod.Prime] (hodd : mod ≠ 2) (g : ZMod mod) (c : fft_cache mod)
    (p q : polynom_t mod) :
    ∃ c' r, mul_fft g c p q = some (c', r) ∧ r.length = p.length + q.length - 1 ∧
      (cache_ok g c → cache_ok g c') := by
  obtain ⟨lg, hn, _, _⟩ := mul_grow_spec (p.length + q.length - 1)
  obtain ⟨c1, a, h1, ha, hc1⟩ := fft_total g c (resize p (2 ^ lg)) lg (length_resize _ _)
  obtain ⟨c2, b, h2, _, hc2⟩ := fft_total g c1 (resize q (2 ^ lg)) lg (length_resize _ _)
  obtain ⟨c3, d, h3, _, hc3⟩ := fft_total g c2
    ((List.range (2 ^ lg)).foldl (fun a i => a.set i (a.getD i 0 * b.getD i 0)) a) lg
    (by rw [length_mul_pointwise, ha])
  unfold mul_fft
  simp only [hn, h1, h2, h3, fdiv_eq _ _ (natCast_two_pow_ne_zero hodd lg)]
  exact ⟨_, _, rfl, by rw [List.length_map, length_resize], fun hc => hc3 (hc2 (hc1 hc))⟩

/-- When the modulus admits the transform length, the transform branch returns the exact
convolution. -/
theorem mul_fft_spec [Fact mod.Prime] (g : ZMod mod) (hg : IsPrimitiveRoot g (mod - 1))
    (c : fft_cache mod) (hc : cache_ok g c) (p q : polynom_t mod) (hp : p ≠ []) (hq : q ≠ [])
    (hadm : admits mod (p.length + q.length - 1)) :
    ∃ c', mul_fft g c p q = some (c', conv p q) ∧ cache_ok g c' := by
  have hprime : mod.Prime := Fact.out
  have hmod1 : 0 < mod - 1 := by have := hprime.two_le; omega
  have hplen : 0 < p.length := List.length_pos.mpr hp
  have hqlen : 0 < q.length := List.length_pos.mpr hq
  obtain ⟨lg, hn, hle, _⟩ := mul_grow_spec (p.length + q.length - 1)
  have hdvd : 2 ^ lg ∣ mod - 1 := by rw [← hn]; exact mul_grow_dvd _ hadm
  have hnlt : 2 ^ lg < mod := by have := Nat.le_of_dvd hmod1 hdvd; omega
  have hn0 : (((2 ^ lg : Nat)) : ZMod mod) ≠ 0 :=
    natCast_ne_zero_of_lt _ (Nat.two_pow_pos lg) hnlt
  have hw : IsPrimitiveRoot (g ^ ((mod - 1) / 2 ^ lg)) (2 ^ lg) :=
    hg.pow hmod1 (Nat.div_mul_cancel hdvd).symm
  obtain ⟨c1, h1, hc1⟩ := fft_spec g hg c hc (resize p (2 ^ lg)) lg (length_resize _ _) hdvd
  obtain ⟨c2, h2, hc2⟩ := fft_spec g hg c1 hc1 (resize q (2 ^ lg)) lg (length_resize _ _) hdvd
  -- the pointwise product is the transform of the padded convolution
  have hprod : (List.range (2 ^ lg)).foldl (fun a i =>
      a.set i (a.getD i 0 * (ntt (g ^ ((mod - 1) / 2 ^ lg)) (resize q (2 ^ lg))).getD i 0))
      (ntt (g ^ ((mod - 1) / 2 ^ lg)) (resize p (2 ^ lg))) =
      ntt (g ^ ((mod - 1) / 2 ^ lg)) (resize (conv p q) (2 ^ lg)) := by
    apply list_ext_getD 0
    · rw [length_mul_pointwise, length_ntt, length_ntt, length_resize, length_resize]
    · intro i hi
      rw [length_mul_pointwise, length_ntt, length_resize] at hi
      rw [getD_mul_pointwise _ _ _ _ hi (by rw [length_ntt, length_resize]),
        getD_ntt _ _ _ (by rw [length_resize]; exact hi),
        getD_ntt _ _ _ (by rw [length_resize]; exact hi),
        getD_ntt _ _ _ (by rw [length_resize]; exact hi),
        ntt_coeff_eq_eval, ntt_coeff_eq_eval, ntt_coeff_eq_eval,
        toPoly_resize_of_le p _ (by omega), toPoly_resize_of_le q _ (by omega),
        toPoly_resize_of_le (conv p q) _ (by rw [length_conv p q hp hq]; exact hle),
        toPoly_conv, Polynomial.eval_mul]
  obtain ⟨c3, h3, hc3⟩ := fft_spec g hg c2 hc2
    (ntt (g ^ ((mod - 1) / 2 ^ lg)) (resize (conv p q) (2 ^ lg))) lg
    (by rw [length_ntt, length_resize]) hdvd
  refine ⟨c3, ?_, hc3⟩
  unfold mul_fft
  simp only [hn, h1, h2, hprod, h3, fdiv_eq _ _ hn0]
  congr 2
  apply list_ext_getD 0
  · rw [List.length_map, length_resize, length_conv p q hp hq]
  · intro k hk
    rw [List.length_map, length_resize] at hk
    have hk2 : k < 2 ^ lg := by omega
    have hrl : (resize (conv p q) (2 ^ lg)).length = 2 ^ lg := length_resize _ _
    rw [List.getD_eq_getElem _ _ (by rw [List.length_map, length_resize]; exact hk),
      List.getElem_map, ← List.getD_eq_getElem _ (0 : ZMod mod), getD_resize, if_pos hk,
      getD_take_one_append_reverse_drop 0 _ k (by rw [length_ntt, length_ntt, hrl]; exact hk2),
      length_ntt, length_ntt, hrl,
      getD_ntt _ _ _ (by rw [length_ntt, hrl]; exact Nat.mod_lt _ (Nat.two_pow_pos lg))]
    have key := ntt_ntt (g ^ ((mod - 1) / 2 ^ lg)) (resize (conv p q) (2 ^ lg))
      (by rw [hrl]; exact hw) ((2 ^ lg - k) % 2 ^ lg)
      (by rw [hrl]; exact Nat.mod_lt _ (Nat.two_pow_pos lg))
    rw [hrl] at key
    rw [key]
    have hidx : (2 ^ lg - (2 ^ lg - k) % 2 ^ lg) % 2 ^ lg = k := by
      by_cases h0 : k = 0
      · subst h0; simp
      · rw [Nat.mod_eq_of_lt (by omega : 2 ^ lg - k < 2 ^ lg)]
        have : 2 ^ lg - (2 ^ lg - k) = k := by omega
        rw [this, Nat.mod_eq_of_lt hk2]
    rw [hidx, getD_resize, if_pos hk2, mul_one_div, mul_comm, mul_div_assoc, div_self hn0,
      mul_one]

end polynom_t

namespace polynom_t

variable {mod : Nat}

/-! ## `operator*=` -/

theorem conv_of_isEmpty (p q : polynom_t mod) (h : p.isEmpty ∨ q.isEmpty) : conv p q = [] := by
  unfold conv; rw [if_pos h]

/-- When the modulus admits the transform length, `operator*=` returns the exact
convolution and keeps the tables valid. -/
theorem mul_assign_spec [Fact mod.Prime] (g : ZMod mod) (hg : IsPrimitiveRoot g (mod - 1))
    (c : fft_cache mod) (hc : cache_ok g c) (p q : polynom_t mod)
    (hadm : admits mod (p.length + q.length - 1)) :
    ∃ c', mul_assign g c p q = some (c', conv p q) ∧ cache_ok g c' := by
  unfold mul_assign
  by_cases he : p.isEmpty ∨ q.isEmpty
  · rw [if_pos he, conv_of_isEmpty p q he]
    exact ⟨c, rfl, hc⟩
  · rw [if_neg he]
    have hp : p ≠ [] := fun h => he (Or.inl (by rw [h]; rfl))
    have hq : q ≠ [] := fun h => he (Or.inr (by rw [h]; rfl))
    by_cases hs : min p.length q.length ≤ 20 ∨ max p.length q.length ≤ 64
    · rw [if_pos hs, mul_brute_eq_conv p q hp hq]
      exact ⟨c, rfl, hc⟩
    · rw [if_neg hs]
      exact mul_fft_spec g hg c hc p q hp hq hadm

/-- For an odd prime modulus `operator*=` always completes and keeps the tables valid. -/
theorem mul_assign_total [Fact mod.Prime] (hodd : mod ≠ 2) (g : ZMod mod) (c : fft_cache mod)
    (p q : polynom_t mod) :
    ∃ c' r, mul_assign g c p q = some (c', r) ∧ (cache_ok g c → cache_ok g c') := by
  unfold mul_assign
  by_cases he : p.isEmpty ∨ q.isEmpty
  · rw [if_pos he]; exact ⟨c, _, rfl, id⟩
  · rw [if_neg he]
    by_cases hs : min p.length q.length ≤ 20 ∨ max p.length q.length ≤ 64
    · rw [if_pos hs]; exact ⟨c, _, rfl, id⟩
    · rw [if_neg hs]
      obtain ⟨c', r, h1, _, h3⟩ := mul_fft_total hodd g c p q
      exact ⟨c', r, h1, h3⟩

theorem admits_iff_mul_grow (N : Nat) :
    admits mod N ↔ mul_grow N N 1 ∣ mod - 1 := by
  constructor
  · exact mul_grow_dvd N
  · intro h
    obtain ⟨lg, h1, h2, _⟩ := mul_grow_spec N
    exact ⟨lg, h2, by rw [← h1]; exact h⟩

/-- C1: over a prime modulus that admits the needed transform length (the next power of
two `≥ |p| + |q| - 1` divides `mod - 1`), `p * q` is the exact convolution: empty when `p`
or `q` is empty, otherwise of stored length `|p| + |q| - 1` with coefficient `k` the sum of
`p[i] * q[j]` over `i + j = k`; and the transform branch returns exactly what the direct
double loop returns on the same inputs. -/
theorem mul_assign_exact [Fact mod.Prime] (g : ZMod mod) (hg : IsPrimitiveRoot g (mod - 1))
    (c : fft_cache mod) (hc : cache_ok g c) (p q : polynom_t mod)
    (hadm : mul_grow (p.length + q.length - 1) (p.length + q.length - 1) 1 ∣ mod - 1) :
    (∃ c' r, mul_assign g c p q = some (c', r) ∧ cache_ok g c' ∧
      (p = [] ∨ q = [] → r = []) ∧
      (p ≠ [] → q ≠ [] → r.length = p.length + q.length - 1 ∧
        ∀ k, k < p.length + q.length - 1 →
          r.getD k 0 = ∑ x in Finset.antidiagonal k, p.getD x.1 0 * q.getD x.2 0)) ∧
    (p ≠ [] → q ≠ [] → ∃ c', mul_fft g c p q = some (c', mul_brute p q)) := by
  have hadm' : admits mod (p.length + q.length - 1) := (admits_iff_mul_grow _).mpr hadm
  constructor
  · obtain ⟨c', h1, h2⟩ := mul_assign_spec g hg c hc p q hadm'
    refine ⟨c', conv p q, h1, h2, ?_, ?_⟩
    · intro h
      apply conv_of_isEmpty
      rcases h with h | h
      · exact Or.inl (by rw [h]; rfl)
      · exact Or.inr (by rw [h]; rfl)
    · intro hp hq
      exact ⟨length_conv p q hp hq, fun k _ => getD_conv p q k⟩
  · intro hp hq
    obtain ⟨c', h1, _⟩ := mul_fft_spec g hg c hc p q hp hq hadm'
    exact ⟨c', by rw [h1, mul_brute_eq_conv p q hp hq]⟩

theorem mul_assign_exact_witness :
    IsPrimitiveRoot (3 : ZMod 998244353) (998244353 - 1) ∧
    cache_ok (3 : ZMod 998244353) (fft_cache.init 998244353) ∧
    mul_grow 3 3 1 ∣ 998244353 - 1 ∧
    mul_assign (3 : ZMod 998244353) (fft_cache.init 998244353) [1, 1] [1, 1] =
      some (fft_cache.init 998244353, [1, 2, 1]) ∧
    ∃ c' r, mul_assign (3 : ZMod 998244353) (fft_cache.init 998244353) [1, 1] [1, 1] =
      some (c', r) ∧ cache_ok 3 c' ∧ (([1, 1] : polynom_t 998244353) = [] ∨
        ([1, 1] : polynom_t 998244353) = [] → r = []) ∧
      (([1, 1] : polynom_t 998244353) ≠ [] → ([1, 1] : polynom_t 998244353) ≠ [] →
        r.length = 2 + 2 - 1 ∧ ∀ k, k < 2 + 2 - 1 →
          r.getD k 0 = ∑ x in Finset.antidiagonal k,
            ([1, 1] : polynom_t 998244353).getD x.1 0 * ([1, 1] : polynom_t 998244353).getD x.2 0) :=
  ⟨isPrimitiveRoot_three, cache_ok_init 3, by decide, by decide,
    (mul_assign_exact (3 : ZMod 998244353) isPrimitiveRoot_three (fft_cache.init 998244353)
      (cache_ok_init 3) [1, 1] [1, 1] (by decide)).1⟩

/-! ## Ring laws -/

/-- C10: for all `p`, `q`, `r` over the same modulus (transform lengths admissible) the
ring laws hold on the normalized results: `(p+q)+r == p+(q+r)`, `p+q == q+p` and
`p*(q+r) == p*q + p*r`; each of the three products completes, from any valid state of
the tables. -/
theorem ring_laws [Fact mod.Prime] (g : ZMod mod) (hg : IsPrimitiveRoot g (mod - 1))
    (c1 c2 c3 : fft_cache mod) (h1 : cache_ok g c1) (h2 : cache_ok g c2) (h3 : cache_ok g c3)
    (p q r : polynom_t mod) (hadm : admits mod (p.length + max q.length r.length - 1)) :
    normalize (add_assign (add_assign p q) r) = normalize (add_assign p (add_assign q r)) ∧
    normalize (add_assign p q) = normalize (add_assign q p) ∧
    ∃ c1' c2' c3' x y z,
      mul_assign g c1 p (add_assign q r) = some (c1', x) ∧
      mul_assign g c2 p q = some (c2', y) ∧
      mul_assign g c3 p r = some (c3', z) ∧
      normalize x = normalize (add_assign y z) := by
  refine ⟨?_, ?_, ?_⟩
  · apply normalize_eq_of_toPoly_eq
    simp only [toPoly_add_assign]; ring
  · apply normalize_eq_of_toPoly_eq
    simp only [toPoly_add_assign]; ring
  · obtain ⟨c1', e1, _⟩ := mul_assign_spec g hg c1 h1 p (add_assign q r)
      (by rw [length_add_assign]; exact hadm)
    obtain ⟨c2', e2, _⟩ := mul_assign_spec g hg c2 h2 p q
      (admits_mono hadm (by have := le_max_left q.length r.length; omega))
    obtain ⟨c3', e3, _⟩ := mul_assign_spec g hg c3 h3 p r
      (admits_mono hadm (by have := le_max_right q.length r.length; omega))
    refine ⟨c1', c2', c3', _, _, _, e1, e2, e3, ?_⟩
    apply normalize_eq_of_toPoly_eq
    simp only [toPoly_add_assign, toPoly_conv]; ring

theorem ring_laws_witness :
    IsPrimitiveRoot (3 : ZMod 998244353) (998244353 - 1) ∧
    cache_ok (3 : ZMod 998244353) (fft_cache.init 998244353) ∧
    admits 998244353 (([1, 2] : polynom_t 998244353).length +
      max ([3, 4] : polynom_t 998244353).length ([5] : polynom_t 998244353).length - 1) ∧
    ∃ c1' c2' c3' x y z,
      mul_assign (3 : ZMod 998244353) (fft_cache.init 998244353) [1, 2] (add_assign [3, 4] [5]) =
        some (c1', x) ∧
      mul_assign (3 : ZMod 998244353) (fft_cache.init 998244353) [1, 2] [3, 4] = some (c2', y) ∧
      mul_assign (3 : ZMod 998244353) (fft_cache.init 998244353) [1, 2] [5] = some (c3', z) ∧
      normalize x = normalize (add_assign y z) :=
  ⟨isPrimitiveRoot_three, cache_ok_init 3, ⟨2, by decide, by decide⟩,
    (ring_laws (3 : ZMod 998244353) isPrimitiveRoot_three _ _ _ (cache_ok_init 3)
      (cache_ok_init 3) (cache_ok_init 3) [1, 2] [3, 4] [5] ⟨2, by decide, by decide⟩).2.2⟩

end polynom_t

namespace polynom_t

variable {mod : Nat}

/-- C9 (amended): for a non-empty polynomial `p` of stored length at most `mod`,
`p.derivative().integral(p[0])` completes and, resized to `len(p)`, is `p` again;
`derivative()` has length `max(0, len - 1)` with coefficient `i` equal to `(i+1) * p[i+1]`;
`integral(c)` of a polynomial `q` of stored length smaller than `mod` (every divisor `i` is
then a nonzero field element) has length `len + 1`, coefficient `0` equal to `c` and
coefficient `i` equal to `q[i-1] / i`. -/
theorem derivative_integral_roundtrip [Fact mod.Prime] (p : polynom_t mod) (hp : p ≠ [])
    (hlen : p.length ≤ mod) :
    (∃ r, integral (derivative p) (p.getD 0 0) = some r ∧ resize r p.length = p) ∧
    ((derivative p).length = p.length - 1 ∧
      ∀ i, i < p.length - 1 →
        (derivative p).getD i 0 = ((i + 1 : Nat) : ZMod mod) * p.getD (i + 1) 0) ∧
    (∀ (q : polynom_t mod) (c : ZMod mod), q.length < mod →
      ∃ r, integral q c = some r ∧ r.length = q.length + 1 ∧ r.getD 0 0 = c ∧
        ∀ i, 1 ≤ i → i ≤ q.length → r.getD i 0 = q.getD (i - 1) 0 / ((i : Nat) : ZMod mod)) := by
  have hpos : 0 < p.length := List.length_pos.mpr hp
  refine ⟨?_, ⟨length_derivative p, fun i _ => getD_derivative p i⟩, ?_⟩
  · obtain ⟨r, hr, hlen', hget⟩ :=
      integral_spec (derivative p) (p.getD 0 0) (by rw [length_derivative]; omega)
    refine ⟨r, hr, ?_⟩
    rw [length_derivative] at hlen' hget
    apply list_ext_getD 0
    · rw [length_resize]
    · intro i hi
      rw [length_resize] at hi
      rw [getD_resize, if_pos hi, hget]
      by_cases h0 : i = 0
      · subst h0; simp
      · rw [if_neg h0, if_pos (by omega), getD_derivative]
        have hi1 : i - 1 + 1 = i := by omega
        rw [hi1]
        have hne : ((i : Nat) : ZMod mod) ≠ 0 := natCast_ne_zero_of_lt i (by omega) (by omega)
        field_simp
  · intro q c hq
    obtain ⟨r, hr, hlen', hget⟩ := integral_spec q c hq
    refine ⟨r, hr, hlen', ?_, ?_⟩
    · rw [hget, if_pos rfl]
    · intro i h1 h2
      rw [hget, if_neg (by omega), if_pos h2]

theorem derivative_integral_roundtrip_witness :
    ([1, 2, 3] : polynom_t 998244353) ≠ [] ∧
    ([1, 2, 3] : polynom_t 998244353).length ≤ 998244353 ∧
    ∃ r, integral (derivative ([1, 2, 3] : polynom_t 998244353)) 1 = some r ∧
      resize r 3 = [1, 2, 3] :=
  ⟨by simp, by simp,
    (derivative_integral_roundtrip ([1, 2, 3] : polynom_t 998244353) (by simp) (by simp)).1⟩

theorem derivative_integral_roundtrip_counterexample :
    Nat.Prime 7 ∧ ([1, 1, 1, 1, 1, 1, 1] : polynom_t 7) ≠ [] ∧
    ([1, 1, 1, 1, 1, 1, 1] : polynom_t 7).length ≤ 7 ∧
    integral ([1, 1, 1, 1, 1, 1, 1] : polynom_t 7) 0 = none ∧
    ¬ ∃ r, integral ([1, 1, 1, 1, 1, 1, 1] : polynom_t 7) 0 = some r ∧
      r.length = ([1, 1, 1, 1, 1, 1, 1] : polynom_t 7).length + 1 := by
  have hev : integral ([1, 1, 1, 1, 1, 1, 1] : polynom_t 7) 0 = none := by decide
  refine ⟨by norm_num, by decide, by decide, hev, ?_⟩
  rintro ⟨r, h, _⟩
  rw [hev] at h
  exact absurd h (by simp)

end polynom_t

namespace polynom_t

variable {mod : Nat}

/-! ## Congruence modulo `X ^ n` -/

theorem modX_iff (n : Nat) (A B : Polynomial (ZMod mod)) :
    modX n A B ↔ ∀ i, i < n → A.coeff i = B.coeff i := by
  unfold modX
  rw [Polynomial.X_pow_dvd_iff]
  constructor
  · intro h i hi
    have := h i hi
    rw [Polynomial.coeff_sub] at this
    exact sub_eq_zero.mp this
  · intro h i hi
    rw [Polynomial.coeff_sub, h i hi, sub_self]

theorem modX_refl (n : Nat) (A : Polynomial (ZMod mod)) : modX n A A := by
  unfold modX; rw [sub_self]; exact dvd_zero _

theorem modX_symm {n : Nat} {A B : Polynomial (ZMod mod)} (h : modX n A B) : modX n B A := by
  unfold modX at *
  have : B - A = -(A - B) := by ring
  rw [this]
  exact (dvd_neg).mpr h

theorem modX_trans {n : Nat} {A B C : Polynomial (ZMod mod)} (h1 : modX n A B)
    (h2 : modX n B C) : modX n A C := by
  unfold modX at *
  have : A - C = (A - B) + (B - C) := by ring
  rw [this]
  exact dvd_add h1 h2

theorem modX_of_le {n m : Nat} {A B : Polynomial (ZMod mod)} (h : modX n A B) (hle : m ≤ n) :
    modX m A B := by
  unfold modX at *
  exact (pow_dvd_pow _ hle).trans h

theorem modX_add {n : Nat} {A A' B B' : Polynomial (ZMod mod)} (h1 : modX n A A')
    (h2 : modX n B B') : modX n (A + B) (A' + B') := by
  unfold modX at *
  have : A + B - (A' + B') = (A - A') + (B - B') := by ring
  rw [this]
  exact dvd_add h1 h2

theorem modX_sub {n : Nat} {A A' B B' : Polynomial (ZMod mod)} (h1 : modX n A A')
    (h2 : modX n B B') : modX n (A - B) (A' - B') := by
  unfold modX at *
  have : A - B - (A' - B') = (A - A') - (B - B') := by ring
  rw [this]
  exact dvd_sub h1 h2

theorem modX_mul {n : Nat} {A A' B B' : Polynomial (ZMod mod)} (h1 : modX n A A')
    (h2 : modX n B B') : modX n (A * B) (A' * B') := by
  unfold modX at *
  have : A * B - A' * B' = (A - A') * B + A' * (B - B') := by ring
  rw [this]
  exact dvd_add (Dvd.dvd.mul_right h1 _) (Dvd.dvd.mul_left h2 _)

theorem modX_resize (p : polynom_t mod) (n : Nat) : modX n (toPoly (resize p n)) (toPoly p) := by
  rw [modX_iff]
  intro i hi
  rw [coeff_toPoly, coeff_toPoly, getD_resize, if_pos hi]

theorem getD_take {α : Type} (d : α) (l : List α) (k i : Nat) :
    (l.take k).getD i d = if i < k then l.getD i d else d := by
  simp only [List.getD_eq_getElem?_getD, List.getElem?_take]
  split <;> rfl

theorem modX_take (p : polynom_t mod) (n : Nat) :
    modX n (toPoly (p.take (min p.length n))) (toPoly p) := by
  rw [modX_iff]
  intro i hi
  rw [coeff_toPoly, coeff_toPoly, getD_take]
  by_cases h : i < min p.length n
  · rw [if_pos h]
  · rw [if_neg h, getD_of_le 0 p i (by omega)]

theorem toPoly_singleton (x : ZMod mod) : toPoly [x] = Polynomial.C x := by
  ext i
  rw [coeff_toPoly, Polynomial.coeff_C]
  cases i with
  | zero => simp
  | succ k => simp

/-- The Newton step for the inverse doubles the precision. -/
theorem modX_newton_inv {m : Nat} {P Q : Polynomial (ZMod mod)} (h : modX m (P * Q) 1) :
    modX (2 * m) (P * (Q * (2 - P * Q))) 1 := by
  unfold modX at *
  have e : P * (Q * (2 - P * Q)) - 1 = -((P * Q - 1) ^ 2) := by ring
  rw [e, dvd_neg]
  have : (Polynomial.X : Polynomial (ZMod mod)) ^ (2 * m) = (Polynomial.X ^ m) ^ 2 := by
    rw [← pow_mul, Nat.mul_comm]
  rw [this]
  exact pow_dvd_pow_of_dvd h 2

/-! ## `operator*=` whenever its product is exact -/

theorem mul_assign_ok [Fact mod.Prime] (g : ZMod mod) (hg : IsPrimitiveRoot g (mod - 1))
    (c : fft_cache mod) (hc : cache_ok g c) (p q : polynom_t mod)
    (hok : mul_ok mod p.length q.length) :
    ∃ c', mul_assign g c p q = some (c', conv p q) ∧ cache_ok g c' := by
  rcases hok with h | h | h
  · unfold mul_assign
    by_cases he : p.isEmpty ∨ q.isEmpty
    · rw [if_pos he, conv_of_isEmpty p q he]; exact ⟨c, rfl, hc⟩
    · rw [if_neg he, if_pos (Or.inl h),
        mul_brute_eq_conv p q (fun h => he (Or.inl (by rw [h]; rfl)))
          (fun h => he (Or.inr (by rw [h]; rfl)))]
      exact ⟨c, rfl, hc⟩
  · unfold mul_assign
    by_cases he : p.isEmpty ∨ q.isEmpty
    · rw [if_pos he, conv_of_isEmpty p q he]; exact ⟨c, rfl, hc⟩
    · rw [if_neg he, if_pos (Or.inr h),
        mul_brute_eq_conv p q (fun h => he (Or.inl (by rw [h]; rfl)))
          (fun h => he (Or.inr (by rw [h]; rfl)))]
      exact ⟨c, rfl, hc⟩
  · exact mul_assign_spec g hg c hc p q h

theorem mul_ok_of_admits {a b N : Nat} (h : admits mod N) (hle : a + b - 1 ≤ N) :
    mul_ok mod a b := Or.inr (Or.inr (admits_mono h hle))

end polynom_t

namespace polynom_t

variable {mod : Nat}

/-! ## The seed loop of `inv` -/

theorem inv_seed_fold (p : polynom_t mod) (start_inv : ZMod mod) (sz : Nat)
    (hs : start_inv * p.getD 0 0 = 1) (I : Nat) (hI : I ≤ sz) :
    ∃ q hv : polynom_t mod,
      (List.range I).foldl (fun (s : polynom_t mod × polynom_t mod) i =>
        let inv := s.1.set i (((if i = 0 then 1 else 0) - s.2.getD i 0) * start_inv)
        let steps := min p.length (sz - i)
        (inv, (List.range steps).foldl (fun h j =>
          h.set (i + j) (h.getD (i + j) 0 + inv.getD i 0 * p.getD j 0)) s.2))
        (List.replicate sz 0, List.replicate sz 0) = (q, hv) ∧
      q.length = sz ∧ hv.length = sz ∧
      (∀ k, k < sz → hv.getD k 0 =
        ∑ i in Finset.range I, if i ≤ k then q.getD i 0 * p.getD (k - i) 0 else 0) ∧
      (∀ k, k < I → ∑ i in Finset.range (k + 1), q.getD i 0 * p.getD (k - i) 0 =
        if k = 0 then 1 else 0) := by
  induction I with
  | zero =>
    refine ⟨_, _, rfl, by simp, by simp, ?_, fun k hk => absurd hk (by omega)⟩
    intro k _
    rw [getD_replicate_eq]; simp
  | succ I ih =>
    obtain ⟨q, hv, hfold, hq, hhv, hb, hc⟩ := ih (by omega)
    rw [List.range_succ, List.foldl_append, hfold]
    simp only [List.foldl_cons, List.foldl_nil]
    have hqI : (q.set I (((if I = 0 then 1 else 0) - hv.getD I 0) * start_inv)).getD I 0 =
        ((if I = 0 then 1 else 0) - hv.getD I 0) * start_inv := getD_set_self _ _ _ _ (by omega)
    have hqne : ∀ i, i ≠ I →
        (q.set I (((if I = 0 then 1 else 0) - hv.getD I 0) * start_inv)).getD i 0 = q.getD i 0 :=
      fun i hi => getD_set_ne _ _ _ _ _ (fun h => hi h.symm)
    refine ⟨_, _, rfl, by simp only [List.length_set, hq], ?_, ?_, ?_⟩
    · rw [foldl_set_shift_length 0 (fun j x => x +
        (q.set I (((if I = 0 then 1 else 0) - hv.getD I 0) * start_inv)).getD I 0 * p.getD j 0)]
      exact hhv
    · intro k hk
      rw [foldl_set_shift_getD 0 (fun j x => x +
        (q.set I (((if I = 0 then 1 else 0) - hv.getD I 0) * start_inv)).getD I 0 * p.getD j 0),
        hhv, Finset.sum_range_succ, hb k hk]
      have hsum : ∑ i in Finset.range I, (if i ≤ k then
          (q.set I (((if I = 0 then 1 else 0) - hv.getD I 0) * start_inv)).getD i 0 *
            p.getD (k - i) 0 else 0) =
          ∑ i in Finset.range I, (if i ≤ k then q.getD i 0 * p.getD (k - i) 0 else 0) := by
        apply Finset.sum_congr rfl
        intro i hi
        rw [hqne i (by have := Finset.mem_range.mp hi; omega)]
      rw [hsum]
      by_cases h1 : I ≤ k ∧ k < I + min p.length (sz - I) ∧ k < sz
      · rw [if_pos h1, if_pos h1.1]
      · rw [if_neg h1]
        by_cases h2 : I ≤ k
        · rw [if_pos h2, getD_of_le 0 p (k - I) (by omega), mul_zero, add_zero]
        · rw [if_neg h2, add_zero]
    · intro k hk
      by_cases hkI : k = I
      · subst hkI
        rw [Finset.sum_range_succ, Nat.sub_self, hqI]
        have hsum : ∑ i in Finset.range k,
            (q.set k (((if k = 0 then 1 else 0) - hv.getD k 0) * start_inv)).getD i 0 *
              p.getD (k - i) 0 =
            ∑ i in Finset.range k, if i ≤ k then q.getD i 0 * p.getD (k - i) 0 else 0 := by
          apply Finset.sum_congr rfl
          intro i hi
          have := Finset.mem_range.mp hi
          rw [hqne i (by omega), if_pos (by omega)]
        rw [hsum, ← hb k (by omega), mul_assoc, hs, mul_one]
        ring
      · have hlt : k < I := by omega
        rw [← hc k hlt]
        apply Finset.sum_congr rfl
        intro i hi
        rw [hqne i (by have := Finset.mem_range.mp hi; omega)]

theorem inv_seed_spec (p : polynom_t mod) (start_inv : ZMod mod) (sz : Nat)
    (hs : start_inv * p.getD 0 0 = 1) :
    (inv_seed p start_inv sz).1.length = sz ∧
    modX sz (toPoly p * toPoly (inv_seed p start_inv sz).1) 1 := by
  obtain ⟨q, hv, hfold, hq, _, _, hc⟩ := inv_seed_fold p start_inv sz hs sz (le_refl _)
  unfold inv_seed
  rw [hfold]
  refine ⟨hq, ?_⟩
  rw [modX_iff]
  intro k hk
  rw [mul_comm, coeff_toPoly_mul, conv_coeff_eq_range, hc k hk, Polynomial.coeff_one]

end polynom_t

namespace polynom_t

variable {mod : Nat}

/-! ## The doubling loop of `inv` -/

theorem toPoly_two : toPoly ([2] : polynom_t mod) = 2 := by
  rw [toPoly_singleton]
  exact map_ofNat Polynomial.C 2

theorem toPoly_one : toPoly ([1] : polynom_t mod) = 1 := by
  rw [toPoly_singleton]
  exact map_one Polynomial.C

theorem admits_four_mul {d s : Nat} (hadm : admits mod (2 * d)) (hs : 2 ^ s < d) :
    admits mod (2 ^ (s + 2)) := by
  obtain ⟨K, h1, h2⟩ := hadm
  refine ⟨K, ?_, h2⟩
  have hlt : 2 ^ (s + 1) < 2 ^ K := by
    have : 2 ^ (s + 1) = 2 * 2 ^ s := by rw [pow_succ]; ring
    omega
  have hsk : s + 1 < K := (Nat.pow_lt_pow_iff_right (by omega)).mp hlt
  exact Nat.pow_le_pow_right (by omega) (by omega)

theorem inv_newton_done (g : ZMod mod) (p : polynom_t mod) (degree fuel power : Nat)
    (c : fft_cache mod) (q : polynom_t mod) (h : ¬ power < degree) :
    inv_newton g p degree fuel power c q = some (c, q) := by
  cases fuel with
  | zero => rfl
  | succ f => unfold inv_newton; rw [if_neg h]

theorem inv_newton_spec [Fact mod.Prime] (g : ZMod mod) (hg : IsPrimitiveRoot g (mod - 1))
    (p : polynom_t mod) (degree : Nat) (hadm : admits mod (2 * degree)) (fuel : Nat) :
    ∀ (s : Nat) (c : fft_cache mod) (q : polynom_t mod), cache_ok g c →
      degree ≤ fuel + 2 ^ s → q.length = min degree (2 ^ s) →
      modX q.length (toPoly p * toPoly q) 1 →
      ∃ c' r, inv_newton g p degree fuel (2 ^ s) c q = some (c', r) ∧ cache_ok g c' ∧
        r.length = degree ∧ modX degree (toPoly p * toPoly r) 1 := by
  induction fuel with
  | zero =>
    intro s c q hc hd hlen hmod
    have hl : q.length = degree := by omega
    rw [hl] at hmod
    exact ⟨c, q, rfl, hc, hl, hmod⟩
  | succ f ih =>
    intro s c q hc hd hlen hmod
    unfold inv_newton
    by_cases hlt : 2 ^ s < degree
    · rw [if_pos hlt]
      have hsh : 2 ^ s <<< 1 = 2 ^ (s + 1) := by rw [Nat.shiftLeft_eq]; ring
      have hp1 : 2 ^ (s + 1) = 2 * 2 ^ s := by rw [pow_succ]; ring
      have hp2 : 2 ^ (s + 2) = 4 * 2 ^ s := by rw [pow_succ, pow_succ]; ring
      have hpos : 0 < 2 ^ s := Nat.two_pow_pos s
      have hql : q.length = 2 ^ s := by omega
      rw [hsh]
      have hadm4 := admits_four_mul hadm hlt
      have hptl : (p.take (min p.length (2 ^ (s + 1)))).length ≤ 2 ^ (s + 1) := by
        rw [List.length_take]; omega
      obtain ⟨c1, e1, hc1⟩ := mul_assign_ok g hg c hc (p.take (min p.length (2 ^ (s + 1)))) q
        (mul_ok_of_admits hadm4 (by omega))
      rw [e1]
      simp only []
      have hvl : (sub_assign [2] (resize (conv (p.take (min p.length (2 ^ (s + 1)))) q)
          (2 ^ (s + 1)))).length = 2 ^ (s + 1) := by
        rw [length_sub_assign, length_resize]
        simp only [List.length_singleton]
        omega
      obtain ⟨c2, e2, hc2⟩ := mul_assign_ok g hg c1 hc1 q
        (sub_assign [2] (resize (conv (p.take (min p.length (2 ^ (s + 1)))) q) (2 ^ (s + 1))))
        (mul_ok_of_admits hadm4 (by rw [hvl]; omega))
      rw [e2]
      simp only []
      apply ih (s + 1) c2 _ hc2 (by omega) (length_resize _ _)
      rw [length_resize]
      -- the new iterate is `Q * (2 - P * Q)` up to `X ^ (2 * 2 ^ s)`
      rw [hql] at hmod
      have h1 : modX (2 ^ (s + 1))
          (toPoly (resize (conv (p.take (min p.length (2 ^ (s + 1)))) q) (2 ^ (s + 1))))
          (toPoly p * toPoly q) := by
        apply modX_trans (modX_resize _ _)
        rw [toPoly_conv]
        exact modX_mul (modX_take p _) (modX_refl _ _)
      have h2 : modX (2 ^ (s + 1))
          (toPoly (conv q (sub_assign [2]
            (resize (conv (p.take (min p.length (2 ^ (s + 1)))) q) (2 ^ (s + 1))))))
          (toPoly q * (2 - toPoly p * toPoly q)) := by
        rw [toPoly_conv, toPoly_sub_assign, toPoly_two]
        exact modX_mul (modX_refl _ _) (modX_sub (modX_refl _ _) h1)
      have h3 : modX (2 ^ (s + 1)) (toPoly p * (toPoly q * (2 - toPoly p * toPoly q))) 1 := by
        have := modX_newton_inv hmod
        rwa [← hp1] at this
      have hmin : min degree (2 ^ (s + 1)) ≤ 2 ^ (s + 1) := Nat.min_le_right _ _
      apply modX_trans _ (modX_of_le h3 hmin)
      apply modX_mul (modX_refl _ _)
      exact modX_trans (modX_resize _ _) (modX_of_le h2 hmin)
    · rw [if_neg hlt]
      have hl : q.length = degree := by omega
      rw [hl] at hmod
      exact ⟨c, q, rfl, hc, hl, hmod⟩

end polynom_t

/-- The element `3` generates the multiplicative group modulo `17`. -/
theorem isPrimitiveRoot_three_17 : IsPrimitiveRoot (3 : ZMod 17) (17 - 1) := by
  have e1 : (3 : ZMod 17) ^ (17 - 1) = 1 := by decide
  have e2 : (3 : ZMod 17) ^ ((17 - 1) / 2) ≠ 1 := by decide
  have key : orderOf (3 : ZMod 17) = 17 - 1 := by
    apply orderOf_eq_of_pow_and_pow_div_prime (by norm_num) e1
    intro p hp hdvd
    have hfac : (17 - 1 : Nat) = 2 ^ 4 := by norm_num
    rw [hfac] at hdvd
    have := (Nat.prime_dvd_prime_iff_eq hp Nat.prime_two).mp (hp.dvd_of_dvd_pow hdvd)
    subst this
    exact e2
  rw [← key]
  exact IsPrimitiveRoot.orderOf _

/-- The element `5` generates the multiplicative group modulo `193`. -/
theorem isPrimitiveRoot_five_193 : IsPrimitiveRoot (5 : ZMod 193) (193 - 1) := by
  have e1 : T.power (5 : ZMod 193) (193 - 1) = 1 := by decide
  have e2 : T.power (5 : ZMod 193) ((193 - 1) / 2) ≠ 1 := by decide
  have e3 : T.power (5 : ZMod 193) ((193 - 1) / 3) ≠ 1 := by decide
  rw [T.power_eq_pow] at e1 e2 e3
  have key : orderOf (5 : ZMod 193) = 193 - 1 := by
    apply orderOf_eq_of_pow_and_pow_div_prime (by norm_num) e1
    intro p hp hdvd
    have hfac : (193 - 1 : Nat) = 2 ^ 6 * 3 := by norm_num
    rw [hfac] at hdvd
    rcases (Nat.Prime.dvd_mul hp).mp hdvd with h | h
    · have := (Nat.prime_dvd_prime_iff_eq hp Nat.prime_two).mp (hp.dvd_of_dvd_pow h)
      subst this
      exact e2
    · have := (Nat.prime_dvd_prime_iff_eq hp Nat.prime_three).mp h
      subst this
      exact e3
  rw [← key]
  exact IsPrimitiveRoot.orderOf _

namespace polynom_t

variable {mod : Nat}

/-! ## `inv` -/

/-- For `p` with nonzero constant term, `inv(d)` completes with a sequence of length `d`
that inverts `p` modulo `x^d`, when `d ≤ 128` (seed only) or the modulus admits the
transform length `≥ 2 * d` of the last doubling round. -/
theorem inv_spec [Fact mod.Prime] (g : ZMod mod) (hg : IsPrimitiveRoot g (mod - 1))
    (c : fft_cache mod) (hc : cache_ok g c) (p : polynom_t mod) (hp0 : p.getD 0 0 ≠ 0)
    (d : Nat) (hadm : d ≤ 128 ∨ admits mod (2 * d)) :
    ∃ c' r, inv g c p d = some (c', r) ∧ cache_ok g c' ∧ r.length = d ∧
      modX d (toPoly p * toPoly r) 1 := by
  have hne : ¬ (p.isEmpty ∨ p.getD 0 0 = 0) := by
    intro h
    rcases h with h | h
    · rw [List.isEmpty_iff.mp h] at hp0; exact hp0 rfl
    · exact hp0 h
  have hs : (1 / p.getD 0 0) * p.getD 0 0 = 1 := by
    rw [one_div, inv_mul_cancel₀ hp0]
  unfold inv
  rw [if_neg hne, fdiv_eq _ _ hp0]
  simp only []
  obtain ⟨hl, hm⟩ := inv_seed_spec p (1 / p.getD 0 0) (min d 128) hs
  by_cases hd : d ≤ 128
  · have hmin : min d 128 = d := by omega
    rw [hmin] at hl hm ⊢
    rw [inv_newton_done g p d d d c _ (lt_irrefl _)]
    simp only []
    refine ⟨c, _, rfl, hc, length_resize _ _, ?_⟩
    exact modX_trans (modX_mul (modX_refl _ _) (modX_resize _ _)) hm
  · have hmin : min d 128 = 2 ^ 7 := by norm_num; omega
    have hadm' : admits mod (2 * d) := hadm.resolve_left hd
    rw [hmin] at hl hm ⊢
    obtain ⟨c', r, e, hc', hrl, hrm⟩ := inv_newton_spec g hg p d hadm' d 7 c _ hc (by omega)
      (by rw [hl]; norm_num; omega) (by rw [hl]; exact hm)
    rw [e]
    simp only []
    refine ⟨c', _, rfl, hc', length_resize _ _, ?_⟩
    exact modX_trans (modX_mul (modX_refl _ _) (modX_resize _ _)) hrm

/-- C5 (amended): for `p` with nonzero constant term and `d ≥ 1`, when every product
involved is exact (`d ≤ 128` or the modulus admits the transform length `≥ 2 * d` of the
doubling rounds; and `p * p.inv(d)` takes the direct branch or its transform length is
admitted), `p.inv(d)` has stored length exactly `d` and `(p * p.inv(d))` truncated to `d`
terms is `[1, 0, ..., 0]`. -/
theorem inv_roundtrip [Fact mod.Prime] (g : ZMod mod) (hg : IsPrimitiveRoot g (mod - 1))
    (c : fft_cache mod) (hc : cache_ok g c) (p : polynom_t mod) (hp0 : p.getD 0 0 ≠ 0)
    (d : Nat) (hd : 1 ≤ d) (hadm : d ≤ 128 ∨ admits mod (2 * d))
    (hmul : mul_ok mod p.length d) :
    ∃ c1 q c2 r, inv g c p d = some (c1, q) ∧ q.length = d ∧
      mul_assign g c1 p q = some (c2, r) ∧ resize r d = 1 :: List.replicate (d - 1) 0 := by
  obtain ⟨c1, q, e1, hc1, hql, hqm⟩ := inv_spec g hg c hc p hp0 d hadm
  obtain ⟨c2, e2, _⟩ := mul_assign_ok g hg c1 hc1 p q (by rw [hql]; exact hmul)
  refine ⟨c1, q, c2, _, e1, hql, e2, ?_⟩
  apply list_ext_getD 0
  · rw [length_resize]; simp; omega
  · intro k hk
    rw [length_resize] at hk
    rw [getD_resize, if_pos hk, getD_conv, ← coeff_toPoly_mul,
      (modX_iff d _ _).mp hqm k hk, Polynomial.coeff_one]
    cases k with
    | zero => simp
    | succ j => simp [getD_replicate_eq]

end polynom_t

theorem getD_zipWith_eq {α β γ : Type} (f : α → β → γ) (x : List α) (y : List β)
    (dx : α) (dy : β) (dz : γ) (i : Nat) (hx : i < x.length) (hy : i < y.length) :
    (List.zipWith f x y).getD i dz = f (x.getD i dx) (y.getD i dy) := by
  rw [List.getD_eq_getElem _ _ (by simp; omega), List.getD_eq_getElem _ _ hx,
    List.getD_eq_getElem _ _ hy, List.getElem_zipWith]

theorem getD_drop_eq {α : Type} (d : α) (l : List α) (k i : Nat) :
    (l.drop k).getD i d = l.getD (k + i) d := by
  simp only [List.getD_eq_getElem?_getD, List.getElem?_drop]

namespace polynom_t

variable {mod : Nat}

/-! ## The closed form of one stage -/

theorem length_pow_list (root : ZMod mod) (k : Nat) : ∀ cur, (pow_list root k cur).length = k := by
  induction k with
  | zero => intro cur; rfl
  | succ k ih => intro cur; simp [pow_list, ih]

theorem getD_pow_list (root : ZMod mod) (k : Nat) :
    ∀ cur i, i < k → (pow_list root k cur).getD i 0 = cur * root ^ i := by
  induction k with
  | zero => intro cur i hi; omega
  | succ k ih =>
    intro cur i hi
    cases i with
    | zero => simp [pow_list]
    | succ j =>
      rw [pow_list, List.getD_cons_succ, ih _ j (by omega), pow_succ]
      ring

theorem stage_block_spec (root : ZMod mod) (len : Nat) (blk : polynom_t mod)
    (hl : blk.length = 2 * len) :
    (stage_block root len blk).length = 2 * len ∧
    ∀ r, r < len →
      (stage_block root len blk).getD r 0 = blk.getD r 0 + blk.getD (r + len) 0 * root ^ r ∧
      (stage_block root len blk).getD (r + len) 0 =
        blk.getD r 0 - blk.getD (r + len) 0 * root ^ r := by
  have l1 : (blk.take len).length = len := by rw [List.length_take]; omega
  have l2 : (blk.drop len).length = len := by rw [List.length_drop]; omega
  have l3 : (List.zipWith (fun b w => b * w) (blk.drop len) (pow_list root len 1)).length = len := by
    rw [List.length_zipWith, l2, length_pow_list]; omega
  have l4 : (List.zipWith (fun a v => a + v) (blk.take len)
      (List.zipWith (fun b w => b * w) (blk.drop len) (pow_list root len 1))).length = len := by
    rw [List.length_zipWith, l1, l3]; omega
  have l5 : (List.zipWith (fun a v => a - v) (blk.take len)
      (List.zipWith (fun b w => b * w) (blk.drop len) (pow_list root len 1))).length = len := by
    rw [List.length_zipWith, l1, l3]; omega
  have tw : ∀ r, r < len →
      (List.zipWith (fun b w => b * w) (blk.drop len) (pow_list root len 1)).getD r 0 =
        blk.getD (r + len) 0 * root ^ r := by
    intro r hr
    rw [getD_zipWith_eq _ _ _ 0 0 0 r (by omega) (by rw [length_pow_list]; omega),
      getD_drop_eq, getD_pow_list root len 1 r hr, one_mul, Nat.add_comm]
  unfold stage_block
  refine ⟨by rw [List.length_append, l4, l5]; omega, fun r hr => ⟨?_, ?_⟩⟩
  · rw [List.getD_append _ _ _ _ (by omega),
      getD_zipWith_eq _ _ _ 0 0 0 r (by omega) (by omega), tw r hr, getD_take, if_pos hr]
  · rw [List.getD_append_right _ _ _ _ (by omega), l4, Nat.add_sub_cancel,
      getD_zipWith_eq _ _ _ 0 0 0 r (by omega) (by omega), tw r hr, getD_take, if_pos hr]

theorem stage_fast_spec (root : ZMod mod) (len : Nat) (B : Nat) :
    ∀ a : polynom_t mod, a.length = B * (2 * len) →
      (stage_fast root len B a).length = a.length ∧
      ∀ c r, c < B → r < len →
        (stage_fast root len B a).getD (c * (2 * len) + r) 0 =
          a.getD (c * (2 * len) + r) 0 + a.getD (c * (2 * len) + r + len) 0 * root ^ r ∧
        (stage_fast root len B a).getD (c * (2 * len) + r + len) 0 =
          a.getD (c * (2 * len) + r) 0 - a.getD (c * (2 * len) + r + len) 0 * root ^ r := by
  induction B with
  | zero => intro a _; exact ⟨rfl, fun c r hc _ => absurd hc (by omega)⟩
  | succ B ih =>
    intro a ha
    have hsucc : (B + 1) * (2 * len) = B * (2 * len) + 2 * len := by ring
    have ht : (a.take (2 * len)).length = 2 * len := by rw [List.length_take]; omega
    have hd : (a.drop (2 * len)).length = B * (2 * len) := by rw [List.length_drop]; omega
    obtain ⟨b1, b2⟩ := stage_block_spec root len (a.take (2 * len)) ht
    obtain ⟨i1, i2⟩ := ih (a.drop (2 * len)) hd
    unfold stage_fast
    refine ⟨by rw [List.length_append, b1, i1, hd]; omega, fun c r hc hr => ?_⟩
    cases c with
    | zero =>
      simp only [Nat.zero_mul, Nat.zero_add]
      obtain ⟨g1, g2⟩ := b2 r hr
      rw [List.getD_append _ _ _ _ (by omega), List.getD_append _ _ _ _ (by omega), g1, g2,
        getD_take, getD_take, if_pos (by omega), if_pos (by omega)]
      exact ⟨rfl, rfl⟩
    | succ c' =>
      have hc' : c' < B := by omega
      obtain ⟨g1, g2⟩ := i2 c' r hc' hr
      have e1 : (c' + 1) * (2 * len) + r = 2 * len + (c' * (2 * len) + r) := by ring
      have e2 : (c' + 1) * (2 * len) + r + len = 2 * len + (c' * (2 * len) + r + len) := by ring
      rw [e2, e1, List.getD_append_right _ _ _ _ (by omega),
        List.getD_append_right _ _ _ _ (by omega), b1, Nat.add_sub_cancel_left,
        Nat.add_sub_cancel_left, g1, g2, getD_drop_eq, getD_drop_eq]
      exact ⟨rfl, rfl⟩

theorem fft_blocks_eq_stage_fast (root : ZMod mod) (len B : Nat) (hlen : 1 ≤ len)
    (fuel : Nat) (hf : B ≤ fuel) (a : polynom_t mod) (ha : a.length = B * (2 * len)) :
    fft_blocks root len (B * (2 * len)) fuel 0 a = stage_fast root len B a := by
  have key := fft_blocks_spec root len B hlen fuel 0 a (Nat.zero_le _) (by omega) (by omega)
  rw [Nat.zero_mul] at key
  obtain ⟨k1, _, k3⟩ := key
  obtain ⟨s1, s2⟩ := stage_fast_spec root len B a ha
  apply list_ext_getD 0
  · rw [k1, s1]
  · intro k hk
    rw [k1, ha] at hk
    have hpos : 0 < 2 * len := by omega
    have hc : k / (2 * len) < B := by
      rw [Nat.div_lt_iff_lt_mul hpos]; exact hk
    have hdecomp : k = k / (2 * len) * (2 * len) + k % (2 * len) := by
      rw [Nat.mul_comm]; exact (Nat.div_add_mod k (2 * len)).symm
    have hr : k % (2 * len) < 2 * len := Nat.mod_lt _ hpos
    by_cases hlo : k % (2 * len) < len
    · rw [hdecomp, (k3 _ _ (Nat.zero_le _) hc hlo).1, (s2 _ _ hc hlo).1]
    · have hr' : k % (2 * len) - len < len := by omega
      have hd2 : k = k / (2 * len) * (2 * len) + (k % (2 * len) - len) + len := by omega
      rw [hd2, (k3 _ _ (Nat.zero_le _) hc hr').2, (s2 _ _ hc hr').2]

end polynom_t

namespace polynom_t

variable {mod : Nat}

/-! ## The closed form of `fft` and of the transform branch of `operator*=` -/

theorem getD_map_range (f : Nat → ZMod mod) (n i : Nat) (h : i < n) :
    ((List.range n).map f).getD i 0 = f i := by
  rw [List.getD_eq_getElem _ _ (by simpa using h)]
  simp

theorem length_fft_fast_loop (rt : Nat → ZMod mod) (lg : Nat) (d : Nat) :
    ∀ (s : Nat) (a : polynom_t mod), s + d = lg → a.length = 2 ^ lg →
      (fft_fast_loop rt lg d s a).length = 2 ^ lg := by
  induction d with
  | zero => intro s a _ ha; exact ha
  | succ d ih =>
    intro s a hs ha
    unfold fft_fast_loop
    apply ih (s + 1) _ (by omega)
    have hn : 2 ^ (lg - s - 1) * (2 * 2 ^ s) = 2 ^ lg := by
      have : lg = (lg - s - 1) + (s + 1) := by omega
      conv_rhs => rw [this]
      rw [pow_add, pow_succ]; ring
    rw [(stage_fast_spec (rt s) (2 ^ s) (2 ^ (lg - s - 1)) a (by rw [hn, ha])).1, ha]

theorem fft_stages_eq_fast (rt : Nat → ZMod mod) (roots : List (ZMod mod)) (lg : Nat)
    (hroots : ∀ s, s < lg → roots.getD s 0 = rt s) (d : Nat) :
    ∀ (s fuel : Nat) (cur : polynom_t mod), s + d = lg → d ≤ fuel → cur.length = 2 ^ lg →
      fft_stages roots (2 ^ lg) fuel (2 ^ s) cur = fft_fast_loop rt lg d s cur := by
  induction d with
  | zero =>
    intro s fuel cur hs _ _
    have hsl : s = lg := by omega
    subst hsl
    cases fuel with
    | zero => rfl
    | succ f => unfold fft_stages; rw [if_neg (lt_irrefl _)]; rfl
  | succ d ih =>
    intro s fuel cur hs hf hlen
    cases fuel with
    | zero => omega
    | succ f =>
      have hlt : s < lg := by omega
      have hpow : 2 ^ s < 2 ^ lg := Nat.pow_lt_pow_right (by omega) hlt
      have hsh : 2 ^ s <<< 1 = 2 ^ (s + 1) := by rw [Nat.shiftLeft_eq]; ring
      have hn : 2 ^ (lg - s - 1) * (2 * 2 ^ s) = 2 ^ lg := by
        have : lg = (lg - s - 1) + (s + 1) := by omega
        conv_rhs => rw [this]
        rw [pow_add, pow_succ]; ring
      have hB : 2 ^ (lg - s - 1) ≤ 2 ^ lg := Nat.pow_le_pow_right (by omega) (by omega)
      have hblk := fft_blocks_eq_stage_fast (rt s) (2 ^ s) (2 ^ (lg - s - 1)) Nat.one_le_two_pow
        (2 ^ lg) hB cur (by rw [hn, hlen])
      rw [hn] at hblk
      unfold fft_stages fft_fast_loop
      rw [if_pos hpow, std_lg_two_pow, hroots s hlt, hsh, hblk]
      apply ih (s + 1) f _ (by omega) (by omega)
      rw [(stage_fast_spec (rt s) (2 ^ s) (2 ^ (lg - s - 1)) cur (by rw [hn, hlen])).1, hlen]

theorem fft_eq_fast (g : ZMod mod) (c : fft_cache mod) (hc : cache_ok g c) (a : polynom_t mod)
    (lg : Nat) (hlen : a.length = 2 ^ lg) :
    ∃ c', fft g c a = some (c', fft_fast g lg a) ∧ cache_ok g c' := by
  refine ⟨_, ?_, cache_ok_fft g c hc lg⟩
  rw [fft_eq g c a lg hlen]
  congr 2
  have hrm := fft_reversed_mask_spec c.reversed_mask lg hc.1
  have hroots := fft_roots_spec g c.roots lg hc.2
  have hperm := fft_permute_spec lg (fft_reversed_mask c.reversed_mask (2 ^ lg) lg) a hlen hrm.2
  have hp : fft_permute (fft_reversed_mask c.reversed_mask (2 ^ lg) lg) a =
      (List.range (2 ^ lg)).map (fun j => a.getD (brev lg j) 0) := by
    apply list_ext_getD 0
    · rw [hperm.1]; simp
    · intro i hi
      rw [hperm.1] at hi
      rw [hperm.2 i hi, getD_map_range _ _ _ hi]
  rw [hp]
  unfold fft_fast
  have := fft_stages_eq_fast (fun s => T.power g ((mod - 1) / (2 <<< s)))
    (fft_roots g c.roots lg) lg
    (fun s hs => by
      show (fft_roots g c.roots lg).getD s 0 = T.power g ((mod - 1) / (2 <<< s))
      rw [hroots.2 s hs, T.power_eq_pow, two_shiftLeft]) lg 0 (2 ^ lg)
    ((List.range (2 ^ lg)).map (fun j => a.getD (brev lg j) 0)) (by omega)
    (Nat.lt_two_pow lg).le (by simp)
  rwa [pow_zero] at this

theorem length_fft_fast (g : ZMod mod) (lg : Nat) (a : polynom_t mod) :
    (fft_fast g lg a).length = 2 ^ lg := by
  unfold fft_fast
  exact length_fft_fast_loop _ lg lg 0 _ (by omega) (by simp)

theorem mul_pointwise_eq_zipWith (a b : polynom_t mod) (n : Nat) (ha : a.length = n)
    (hb : b.length = n) :
    (List.range n).foldl (fun a i => a.set i (a.getD i 0 * b.getD i 0)) a =
      List.zipWith (fun x y => x * y) a b := by
  apply list_ext_getD 0
  · rw [length_mul_pointwise, List.length_zipWith, ha, hb, Nat.min_self]
  · intro i hi
    rw [length_mul_pointwise, ha] at hi
    rw [getD_mul_pointwise a b n i hi (by omega),
      getD_zipWith_eq _ _ _ 0 0 0 i (by omega) (by omega)]

/-- Whatever the modulus, the transform branch of `operator*=` returns `mul_fast`. -/
theorem mul_fft_eq_fast (g : ZMod mod) (c : fft_cache mod) (hc : cache_ok g c)
    (p q : polynom_t mod) :
    ∃ c', cache_ok g c' ∧ mul_fft g c p q = (mul_fast g p q).map (fun r => (c', r)) := by
  obtain ⟨lg, hn, _, _⟩ := mul_grow_spec (p.length + q.length - 1)
  obtain ⟨c1, h1, hc1⟩ := fft_eq_fast g c hc (resize p (2 ^ lg)) lg (length_resize _ _)
  obtain ⟨c2, h2, hc2⟩ := fft_eq_fast g c1 hc1 (resize q (2 ^ lg)) lg (length_resize _ _)
  have hz := mul_pointwise_eq_zipWith (fft_fast g lg (resize p (2 ^ lg)))
    (fft_fast g lg (resize q (2 ^ lg))) (2 ^ lg) (length_fft_fast _ _ _) (length_fft_fast _ _ _)
  obtain ⟨c3, h3, hc3⟩ := fft_eq_fast g c2 hc2
    (List.zipWith (fun x y => x * y) (fft_fast g lg (resize p (2 ^ lg)))
      (fft_fast g lg (resize q (2 ^ lg)))) lg
    (by rw [List.length_zipWith, length_fft_fast, length_fft_fast, Nat.min_self])
  refine ⟨c3, hc3, ?_⟩
  unfold mul_fft mul_fast
  simp only [hn, h1, h2, hz, h3, std_lg_two_pow]
  cases fdiv 1 (((2 ^ lg : Nat)) : ZMod mod) with
  | none => rfl
  | some v => rfl

end polynom_t

namespace polynom_t

variable {mod : Nat}

/-- When both operands are long enough for the transform branch, `operator*=` returns
`mul_fast`, whatever the modulus. -/
theorem mul_assign_eq_fast (g : ZMod mod) (c : fft_cache mod) (hc : cache_ok g c)
    (p q : polynom_t mod) (hmin : 20 < min p.length q.length)
    (hmax : 64 < max p.length q.length) :
    ∃ c', cache_ok g c' ∧ mul_assign g c p q = (mul_fast g p q).map (fun r => (c', r)) := by
  obtain ⟨c', h1, h2⟩ := mul_fft_eq_fast g c hc p q
  refine ⟨c', h1, ?_⟩
  unfold mul_assign
  have hp : p.isEmpty = false := by
    cases p with
    | nil => simp at hmin
    | cons x t => rfl
  have hq : q.isEmpty = false := by
    cases q with
    | nil => simp at hmin
    | cons x t => rfl
  rw [if_neg (by simp [hp, hq]), if_neg (by omega), h2]

set_option maxRecDepth 100000 in
/-- Evaluation behind the counterexample of C5: over `mod = 17`, for `p` the 65
coefficients `1` and `d = 21`, the product `p * p.inv(21)` goes through a transform of
length 128, which `mod - 1 = 16` does not admit, and its first 21 coefficients are not
`[1, 0, ..., 0]`. -/
theorem inv_roundtrip_eval :
    (inv (3 : ZMod 17) (fft_cache.init 17) (List.replicate 65 1) 21).bind (fun x =>
      (mul_fast (3 : ZMod 17) (List.replicate 65 1) x.2).map (fun y =>
        decide (resize y 21 = 1 :: List.replicate 20 0))) = some false := by
  decide!

theorem inv_roundtrip_counterexample :
    IsPrimitiveRoot (3 : ZMod 17) (17 - 1) ∧ cache_ok (3 : ZMod 17) (fft_cache.init 17) ∧
    (List.replicate 65 (1 : ZMod 17)).getD 0 0 ≠ 0 ∧ 1 ≤ 21 ∧
    ¬ ∃ c1 q c2 r, inv (3 : ZMod 17) (fft_cache.init 17) (List.replicate 65 1) 21 = some (c1, q) ∧
      q.length = 21 ∧ mul_assign (3 : ZMod 17) c1 (List.replicate 65 1) q = some (c2, r) ∧
      resize r 21 = 1 :: List.replicate 20 0 := by
  refine ⟨isPrimitiveRoot_three_17, cache_ok_init 3, by decide, by decide, ?_⟩
  rintro ⟨c1, q, c2, r, h1, hq, h2, h3⟩
  have hev := inv_roundtrip_eval
  rw [h1] at hev
  obtain ⟨c', r', e1, hc1, _, _⟩ := inv_spec (3 : ZMod 17) isPrimitiveRoot_three_17
    (fft_cache.init 17) (cache_ok_init 3) (List.replicate 65 1) (by decide) 21 (Or.inl (by decide))
  rw [h1] at e1
  have hc1' : cache_ok (3 : ZMod 17) c1 := by
    have : c1 = c' := by injection e1 with e1; exact (Prod.mk.inj e1).1
    rw [this]; exact hc1
  obtain ⟨c3, _, h4⟩ := mul_assign_eq_fast (3 : ZMod 17) c1 hc1' (List.replicate 65 1) q
    (by rw [hq]; decide) (by rw [hq]; decide)
  rw [h2] at h4
  cases hm : mul_fast (3 : ZMod 17) (List.replicate 65 1) q with
  | none => rw [hm] at h4; simp at h4
  | some y =>
    rw [hm] at h4
    simp only [Option.map_some', Option.some.injEq, Prod.mk.injEq] at h4
    simp only [Option.some_bind, hm, Option.map_some', Option.some.injEq] at hev
    rw [← h4.2, h3] at hev
    simp at hev

theorem inv_roundtrip_witness :
    IsPrimitiveRoot (3 : ZMod 998244353) (998244353 - 1) ∧
    cache_ok (3 : ZMod 998244353) (fft_cache.init 998244353) ∧
    ([1, 1] : polynom_t 998244353).getD 0 0 ≠ 0 ∧ 1 ≤ 200 ∧
    (200 ≤ 128 ∨ admits 998244353 (2 * 200)) ∧
    mul_ok 998244353 ([1, 1] : polynom_t 998244353).length 200 ∧
    ∃ c1 q c2 r, inv (3 : ZMod 998244353) (fft_cache.init 998244353) [1, 1] 200 = some (c1, q) ∧
      q.length = 200 ∧ mul_assign (3 : ZMod 998244353) c1 [1, 1] q = some (c2, r) ∧
      resize r 200 = 1 :: List.replicate (200 - 1) 0 :=
  ⟨isPrimitiveRoot_three, cache_ok_init 3, by decide, by decide,
    Or.inr ⟨9, by decide, by decide⟩, Or.inl (by decide),
    inv_roundtrip (3 : ZMod 998244353) isPrimitiveRoot_three (fft_cache.init 998244353)
      (cache_ok_init 3) [1, 1] (by decide) 200 (by decide) (Or.inr ⟨9, by decide, by decide⟩)
      (Or.inl (by decide))⟩

end polynom_t

namespace polynom_t

variable {mod : Nat}

/-! ## The long-division branch of `operator/=` -/

theorem toPoly_set_of_zero (q : polynom_t mod) (pos : Nat) (v : ZMod mod)
    (hpos : pos < q.length) (hz : q.getD pos 0 = 0) :
    toPoly (q.set pos v) = toPoly q + Polynomial.C v * Polynomial.X ^ pos := by
  ext i
  rw [coeff_toPoly, Polynomial.coeff_add, coeff_toPoly, Polynomial.coeff_C_mul,
    Polynomial.coeff_X_pow, getD_set_eq]
  by_cases h : pos = i
  · subst h
    rw [if_pos ⟨rfl, hpos⟩, hz, if_pos rfl]; ring
  · rw [if_neg (by omega), if_neg (fun h' => h h'.symm)]; ring

theorem toPoly_div_inner (a b : polynom_t mod) (pos : Nat) (v : ZMod mod)
    (hlen : pos + b.length ≤ a.length) :
    toPoly ((List.range b.length).foldl (fun a j =>
      a.set (pos + j) (a.getD (pos + j) 0 - b.getD j 0 * v)) a) =
      toPoly a - Polynomial.C v * Polynomial.X ^ pos * toPoly b := by
  ext i
  rw [coeff_toPoly, foldl_set_shift_getD 0 (fun j x => x - b.getD j 0 * v),
    Polynomial.coeff_sub, coeff_toPoly, mul_assoc, Polynomial.coeff_C_mul,
    Polynomial.coeff_X_pow_mul', coeff_toPoly]
  by_cases h1 : pos ≤ i
  · rw [if_pos h1]
    by_cases h2 : i < pos + b.length
    · rw [if_pos ⟨h1, h2, by omega⟩]; ring
    · rw [if_neg (by omega), getD_of_le 0 b (i - pos) (by omega)]; ring
  · rw [if_neg (by omega), if_neg h1]; ring

theorem div_loop_spec (b : polynom_t mod) (inv_b : ZMod mod) (n : Nat)
    (hm : 1 ≤ b.length) (hn : b.length ≤ n)
    (hinv : b.getD (b.length - 1) 0 * inv_b = 1) (k : Nat) :
    ∀ (a quo : polynom_t mod), k ≤ n - b.length + 1 → a.length = n →
      quo.length = n - b.length + 1 →
      (∀ i, b.length - 1 + k ≤ i → a.getD i 0 = 0) → (∀ j, j < k → quo.getD j 0 = 0) →
      (div_loop b inv_b b.length k (a, quo)).2.length = n - b.length + 1 ∧
      toPoly (div_loop b inv_b b.length k (a, quo)).2 * toPoly b +
          toPoly (div_loop b inv_b b.length k (a, quo)).1 = toPoly quo * toPoly b + toPoly a ∧
      ∀ i, b.length - 1 ≤ i → (div_loop b inv_b b.length k (a, quo)).1.getD i 0 = 0 := by
  induction k with
  | zero =>
    intro a quo _ _ hq ha _
    exact ⟨hq, rfl, fun i hi => ha i (by omega)⟩
  | succ k ih =>
    intro a quo hk hal hql ha hquo
    unfold div_loop
    simp only []
    have hpos : b.length - 1 + k + 1 - b.length = k := by omega
    rw [hpos]
    have hqk : (quo.set k (a.getD (b.length - 1 + k) 0 * inv_b)).getD k 0 =
        a.getD (b.length - 1 + k) 0 * inv_b := getD_set_self _ _ _ _ (by omega)
    rw [hqk]
    have hA := toPoly_div_inner a b k (a.getD (b.length - 1 + k) 0 * inv_b) (by omega)
    have hQ := toPoly_set_of_zero quo k (a.getD (b.length - 1 + k) 0 * inv_b) (by omega)
      (hquo k (by omega))
    obtain ⟨r1, r2, r3⟩ := ih
      ((List.range b.length).foldl (fun x j =>
        x.set (k + j) (x.getD (k + j) 0 - b.getD j 0 * (a.getD (b.length - 1 + k) 0 * inv_b))) a)
      (quo.set k (a.getD (b.length - 1 + k) 0 * inv_b)) (by omega)
      (by rw [foldl_set_shift_length 0
            (fun j x => x - b.getD j 0 * (a.getD (b.length - 1 + k) 0 * inv_b))]; exact hal)
      (by rw [List.length_set]; exact hql)
      (by
        intro i hi
        rw [foldl_set_shift_getD 0
          (fun j x => x - b.getD j 0 * (a.getD (b.length - 1 + k) 0 * inv_b))]
        by_cases hik : i = b.length - 1 + k
        · subst hik
          rw [if_pos ⟨by omega, by omega, by omega⟩]
          have e : b.length - 1 + k - k = b.length - 1 := by omega
          simp only [e]
          have : b.getD (b.length - 1) 0 * (a.getD (b.length - 1 + k) 0 * inv_b) =
              a.getD (b.length - 1 + k) 0 * (b.getD (b.length - 1) 0 * inv_b) := by ring
          rw [this, hinv]; ring
        · rw [if_neg (by omega)]
          exact ha i (by omega))
      (by
        intro j hj
        rw [getD_set_ne _ _ _ _ _ (by omega)]
        exact hquo j (by omega))
    refine ⟨r1, ?_, r3⟩
    rw [r2, hA, hQ]; ring

theorem div_long_spec [Fact mod.Prime] (a b : polynom_t mod) (hm : 1 ≤ b.length)
    (hn : b.length ≤ a.length) (hb : b.getD (b.length - 1) 0 ≠ 0) :
    ∃ quo : polynom_t mod, div_long a b = some (normalize quo) ∧
      quo.length = a.length - b.length + 1 ∧
      ∃ R : Polynomial (ZMod mod), toPoly a = toPoly quo * toPoly b + R ∧
        ∀ i, b.length - 1 ≤ i → R.coeff i = 0 := by
  unfold div_long
  rw [fdiv_eq _ _ hb]
  simp only []
  have hinv : b.getD (b.length - 1) 0 * (1 / b.getD (b.length - 1) 0) = 1 := by
    rw [mul_one_div, div_self hb]
  obtain ⟨r1, r2, r3⟩ := div_loop_spec b (1 / b.getD (b.length - 1) 0) a.length hm hn hinv
    (a.length - b.length + 1) a (List.replicate (a.length - b.length + 1) 0) (le_refl _) rfl
    (by simp) (fun i hi => getD_of_le 0 a i (by omega)) (fun j _ => getD_replicate_eq _ _ _)
  have hz : toPoly (List.replicate (a.length - b.length + 1) (0 : ZMod mod)) = 0 := by
    ext i; rw [coeff_toPoly, getD_replicate_eq]; simp
  rw [hz, zero_mul, zero_add] at r2
  exact ⟨_, rfl, r1, toPoly (div_loop b (1 / b.getD (b.length - 1) 0) b.length
    (a.length - b.length + 1) (a, List.replicate (a.length - b.length + 1) 0)).1, r2.symm,
    fun i hi => by rw [coeff_toPoly]; exact r3 i hi⟩

end polynom_t

theorem getD_reverse_eq {α : Type} (d : α) (l : List α) (i : Nat) (hi : i < l.length) :
    l.reverse.getD i d = l.getD (l.length - 1 - i) d := by
  rw [List.getD_eq_getElem _ _ (by simpa using hi), List.getElem_reverse,
    List.getD_eq_getElem _ _ (by omega)]

namespace polynom_t

variable {mod : Nat}

/-! ## The reversal branch of `operator/=` -/

theorem toPoly_reverse (l : polynom_t mod) :
    toPoly l.reverse = Polynomial.reflect (l.length - 1) (toPoly l) := by
  ext i
  rw [coeff_toPoly, Polynomial.coeff_reflect, coeff_toPoly]
  by_cases hi : i < l.length
  · rw [getD_reverse_eq 0 l i hi, Polynomial.revAt_le (show i ≤ l.length - 1 by omega)]
  · rw [getD_of_le 0 l.reverse i (by rw [List.length_reverse]; omega)]
    have : Polynomial.revAt (l.length - 1) i = i := by
      by_cases h0 : i ≤ l.length - 1
      · rw [Polynomial.revAt_le h0]; omega
      · unfold Polynomial.revAt
        simp only [Function.Embedding.coeFn_mk]
        rw [if_neg h0]
    rw [this, getD_of_le 0 l i (by omega)]

theorem natDegree_toPoly_le (l : polynom_t mod) : (toPoly l).natDegree ≤ l.length - 1 := by
  rw [Polynomial.natDegree_le_iff_coeff_eq_zero]
  intro N hN
  rw [coeff_toPoly, getD_of_le 0 l N (by omega)]

/-- With exact products, the reversal branch returns what long division returns. -/
theorem div_reverse_spec [Fact mod.Prime] (g : ZMod mod) (hg : IsPrimitiveRoot g (mod - 1))
    (c : fft_cache mod) (hc : cache_ok g c) (a b : polynom_t mod) (hm : 1 ≤ b.length)
    (hn : b.length ≤ a.length) (hb : b.getD (b.length - 1) 0 ≠ 0)
    (hinv : a.length - b.length + 1 ≤ 128 ∨ admits mod (2 * (a.length - b.length + 1)))
    (hmul : mul_ok mod a.length (a.length - b.length + 1)) :
    ∃ c' quo, div_reverse g c a b = some (c', normalize quo) ∧ cache_ok g c' ∧
      div_long a b = some (normalize quo) := by
  obtain ⟨quo, hlong, hql, R, hA, hR⟩ := div_long_spec a b hm hn hb
  have hb0 : b.reverse.getD 0 0 ≠ 0 := by
    rw [getD_reverse_eq 0 b 0 (by omega)]; exact hb
  obtain ⟨c1, binv, e1, hc1, hbl, hbm⟩ := inv_spec g hg c hc b.reverse hb0
    (a.length - b.length + 1) hinv
  obtain ⟨c2, e2, hc2⟩ := mul_assign_ok g hg c1 hc1 a.reverse binv
    (by rw [List.length_reverse, hbl]; exact hmul)
  refine ⟨c2, quo, ?_, hc2, hlong⟩
  unfold div_reverse
  rw [e1]
  simp only []
  rw [e2]
  simp only []
  congr 3
  -- the truncated product is the reversed quotient
  have hrev : modX (a.length - b.length + 1) (toPoly a.reverse)
      (toPoly quo.reverse * toPoly b.reverse) := by
    rw [toPoly_reverse, toPoly_reverse, toPoly_reverse, hA, Polynomial.reflect_add]
    have hdeg : a.length - 1 = (quo.length - 1) + (b.length - 1) := by omega
    rw [hdeg, Polynomial.reflect_mul _ _ (natDegree_toPoly_le quo) (natDegree_toPoly_le b)]
    rw [modX_iff]
    intro i hi
    rw [Polynomial.coeff_add, Polynomial.coeff_reflect _ R, Polynomial.revAt_le (show i ≤ quo.length - 1 + (b.length - 1) by omega),
      hR _ (by omega), add_zero]
  have hq : modX (a.length - b.length + 1) (toPoly (conv a.reverse binv)) (toPoly quo.reverse) := by
    rw [toPoly_conv]
    have h1 := modX_mul hrev (modX_refl (a.length - b.length + 1) (toPoly binv))
    have h2 : modX (a.length - b.length + 1)
        (toPoly quo.reverse * toPoly b.reverse * toPoly binv) (toPoly quo.reverse) := by
      have := modX_mul (modX_refl (a.length - b.length + 1) (toPoly quo.reverse)) hbm
      rwa [mul_one, ← mul_assoc] at this
    exact modX_trans h1 h2
  have hlist : resize (conv a.reverse binv) (a.length - b.length + 1) = quo.reverse := by
    apply list_ext_getD 0
    · rw [length_resize, List.length_reverse, hql]
    · intro i hi
      rw [length_resize] at hi
      rw [getD_resize, if_pos hi]
      exact (modX_iff _ _ _).mp hq i hi
  rw [hlist, List.reverse_reverse]

end polynom_t

namespace polynom_t

variable {mod : Nat}

/-! ## The results do not depend on the cached tables, and the operations return -/

theorem mul_assign_transfer (g : ZMod mod) (c c' : fft_cache mod) (hc : cache_ok g c)
    (hc' : cache_ok g c') (p q : polynom_t mod) (c1 : fft_cache mod) (r : polynom_t mod)
    (h : mul_assign g c p q = some (c1, r)) :
    cache_ok g c1 ∧ ∃ c1', mul_assign g c' p q = some (c1', r) ∧ cache_ok g c1' := by
  unfold mul_assign at h ⊢
  by_cases he : p.isEmpty ∨ q.isEmpty
  · rw [if_pos he] at h ⊢
    injection h with h; injection h with h1 h2
    subst h1; subst h2
    exact ⟨hc, c', rfl, hc'⟩
  · rw [if_neg he] at h ⊢
    by_cases hs : min p.length q.length ≤ 20 ∨ max p.length q.length ≤ 64
    · rw [if_pos hs] at h ⊢
      injection h with h; injection h with h1 h2
      subst h1; subst h2
      exact ⟨hc, c', rfl, hc'⟩
    · rw [if_neg hs] at h ⊢
      obtain ⟨ca, hca, ea⟩ := mul_fft_eq_fast g c hc p q
      obtain ⟨cb, hcb, eb⟩ := mul_fft_eq_fast g c' hc' p q
      rw [ea] at h
      rw [eb]
      cases hf : mul_fast g p q with
      | none => rw [hf] at h; simp at h
      | some v =>
        rw [hf] at h
        simp only [Option.map_some'] at h ⊢
        injection h with h; injection h with h1 h2
        subst h1; subst h2
        exact ⟨hca, cb, rfl, hcb⟩

theorem inv_newton_transfer (g : ZMod mod) (p : polynom_t mod) (degree : Nat) (fuel : Nat) :
    ∀ (power : Nat) (c c' : fft_cache mod) (q : polynom_t mod), cache_ok g c → cache_ok g c' →
      ∀ (c1 : fft_cache mod) (r : polynom_t mod),
        inv_newton g p degree fuel power c q = some (c1, r) →
        cache_ok g c1 ∧ ∃ c1', inv_newton g p degree fuel power c' q = some (c1', r) ∧
          cache_ok g c1' := by
  induction fuel with
  | zero =>
    intro power c c' q hc hc' c1 r h
    unfold inv_newton at h ⊢
    injection h with h; injection h with h1 h2
    subst h1; subst h2
    exact ⟨hc, c', rfl, hc'⟩
  | succ fuel ih =>
    intro power c c' q hc hc' c1 r h
    unfold inv_newton at h ⊢
    by_cases hp : power < degree
    · rw [if_pos hp] at h ⊢
      cases h1 : mul_assign g c (p.take (min p.length (power <<< 1))) q with
      | none => rw [h1] at h; simp at h
      | some x1 =>
        obtain ⟨ca, t⟩ := x1
        rw [h1] at h
        simp only [] at h
        obtain ⟨hca, ca', e1, hca'⟩ := mul_assign_transfer g c c' hc hc' _ _ ca t h1
        rw [e1]
        simp only []
        cases h2 : mul_assign g ca q (sub_assign [2] (resize t (power <<< 1))) with
        | none => rw [h2] at h; simp at h
        | some x2 =>
          obtain ⟨cb, u⟩ := x2
          rw [h2] at h
          simp only [] at h
          obtain ⟨hcb, cb', e2, hcb'⟩ := mul_assign_transfer g ca ca' hca hca' _ _ cb u h2
          rw [e2]
          simp only []
          exact ih _ cb cb' _ hcb hcb' c1 r h
    · rw [if_neg hp] at h ⊢
      injection h with h; injection h with h1 h2
      subst h1; subst h2
      exact ⟨hc, c', rfl, hc'⟩

theorem inv_transfer (g : ZMod mod) (c c' : fft_cache mod) (hc : cache_ok g c)
    (hc' : cache_ok g c') (p : polynom_t mod) (d : Nat) (c1 : fft_cache mod)
    (r : polynom_t mod) (h : inv g c p d = some (c1, r)) :
    cache_ok g c1 ∧ ∃ c1', inv g c' p d = some (c1', r) ∧ cache_ok g c1' := by
  unfold inv at h ⊢
  by_cases he : p.isEmpty ∨ p.getD 0 0 = 0
  · rw [if_pos he] at h; simp at h
  · rw [if_neg he] at h ⊢
    cases hf : fdiv 1 (p.getD 0 0) with
    | none => rw [hf] at h; simp at h
    | some s =>
      rw [hf] at h
      simp only [] at h ⊢
      cases hn : inv_newton g p d d (min d 128) c (inv_seed p s (min d 128)).1 with
      | none => rw [hn] at h; simp at h
      | some x =>
        obtain ⟨ca, t⟩ := x
        rw [hn] at h
        simp only [] at h
        obtain ⟨hca, ca', e1, hca'⟩ := inv_newton_transfer g p d d _ c c' _ hc hc' ca t hn
        rw [e1]
        simp only []
        injection h with h; injection h with h1 h2
        subst h1; subst h2
        exact ⟨hca, ca', rfl, hca'⟩

theorem div_assign_transfer (g : ZMod mod) (c c' : fft_cache mod) (hc : cache_ok g c)
    (hc' : cache_ok g c') (p q : polynom_t mod) (c1 : fft_cache mod) (r : polynom_t mod)
    (h : div_assign g c p q = some (c1, r)) :
    cache_ok g c1 ∧ ∃ c1', div_assign g c' p q = some (c1', r) ∧ cache_ok g c1' := by
  unfold div_assign at h ⊢
  simp only [] at h ⊢
  by_cases he : (normalize q).isEmpty
  · rw [if_pos he] at h; simp at h
  · rw [if_neg he] at h ⊢
    by_cases hlt : (normalize p).length < (normalize q).length
    · rw [if_pos hlt] at h ⊢
      injection h with h; injection h with h1 h2
      subst h1; subst h2
      exact ⟨hc, c', rfl, hc'⟩
    · rw [if_neg hlt] at h ⊢
      by_cases hs : (normalize p).length ≤ 128 ∨ (normalize q).length ≤ 64
      · rw [if_pos hs] at h ⊢
        cases hl : div_long (normalize p) (normalize q) with
        | none => rw [hl] at h; simp at h
        | some v =>
          rw [hl] at h
          simp only [] at h ⊢
          injection h with h; injection h with h1 h2
          subst h1; subst h2
          exact ⟨hc, c', rfl, hc'⟩
      · rw [if_neg hs] at h ⊢
        unfold div_reverse at h ⊢
        cases hi : inv g c (normalize q).reverse
            ((normalize p).length - (normalize q).length + 1) with
        | none => rw [hi] at h; simp at h
        | some x =>
          obtain ⟨ca, t⟩ := x
          rw [hi] at h
          simp only [] at h
          obtain ⟨hca, ca', e1, hca'⟩ := inv_transfer g c c' hc hc' _ _ ca t hi
          rw [e1]
          simp only []
          cases hm : mul_assign g ca (normalize p).reverse t with
          | none => rw [hm] at h; simp at h
          | some y =>
            obtain ⟨cb, u⟩ := y
            rw [hm] at h
            simp only [] at h
            obtain ⟨hcb, cb', e2, hcb'⟩ := mul_assign_transfer g ca ca' hca hca' _ _ cb u hm
            rw [e2]
            simp only []
            injection h with h; injection h with h1 h2
            subst h1; subst h2
            exact ⟨hcb, cb', rfl, hcb'⟩

end polynom_t

namespace polynom_t

variable {mod : Nat}

theorem inv_newton_total [Fact mod.Prime] (hodd : mod ≠ 2) (g : ZMod mod) (p : polynom_t mod)
    (degree : Nat) (fuel : Nat) :
    ∀ (power : Nat) (c : fft_cache mod) (q : polynom_t mod), cache_ok g c →
      ∃ c' r, inv_newton g p degree fuel power c q = some (c', r) ∧ cache_ok g c' := by
  induction fuel with
  | zero =>
    intro power c q hc
    exact ⟨c, q, rfl, hc⟩
  | succ fuel ih =>
    intro power c q hc
    unfold inv_newton
    by_cases hp : power < degree
    · rw [if_pos hp]
      obtain ⟨c1, t, e1, h1⟩ := mul_assign_total hodd g c (p.take (min p.length (power <<< 1))) q
      rw [e1]
      simp only []
      obtain ⟨c2, u, e2, h2⟩ := mul_assign_total hodd g c1 q
        (sub_assign [2] (resize t (power <<< 1)))
      rw [e2]
      simp only []
      exact ih _ c2 _ (h2 (h1 hc))
    · rw [if_neg hp]
      exact ⟨c, q, rfl, hc⟩

theorem inv_total [Fact mod.Prime] (hodd : mod ≠ 2) (g : ZMod mod) (c : fft_cache mod)
    (hc : cache_ok g c) (p : polynom_t mod) (hp0 : p.getD 0 0 ≠ 0) (d : Nat) :
    ∃ c' r, inv g c p d = some (c', r) ∧ cache_ok g c' := by
  unfold inv
  have hne : ¬ (p.isEmpty ∨ p.getD 0 0 = 0) := by
    intro h
    rcases h with h | h
    · rw [List.isEmpty_iff] at h
      rw [h] at hp0
      exact hp0 rfl
    · exact hp0 h
  rw [if_neg hne, fdiv_eq 1 _ hp0]
  simp only []
  obtain ⟨c1, r, e1, h1⟩ := inv_newton_total hodd g p d d (min d 128) c
    (inv_seed p (1 / p.getD 0 0) (min d 128)).1 hc
  rw [e1]
  exact ⟨c1, _, rfl, h1⟩

theorem normalize_ne_nil (b : polynom_t mod) (hb : ∃ i, b.getD i 0 ≠ 0) : normalize b ≠ [] := by
  intro h
  obtain ⟨i, hi⟩ := hb
  apply hi
  rw [← getD_normalize b i, h]
  rfl

theorem div_assign_total [Fact mod.Prime] (hodd : mod ≠ 2) (g : ZMod mod) (c : fft_cache mod)
    (hc : cache_ok g c) (p b : polynom_t mod) (hb : ∃ i, b.getD i 0 ≠ 0) :
    ∃ c' quo, div_assign g c p b = some (c', quo) ∧ cache_ok g c' := by
  have hbn := normalize_ne_nil b hb
  have hlast := normalize_last_ne b hbn
  have hm : 1 ≤ (normalize b).length := by
    cases hnb : normalize b with
    | nil => exact absurd hnb hbn
    | cons x t => simp
  unfold div_assign
  simp only []
  rw [if_neg (by rw [List.isEmpty_iff]; exact hbn)]
  by_cases hlt : (normalize p).length < (normalize b).length
  · rw [if_pos hlt]
    exact ⟨c, [], rfl, hc⟩
  · rw [if_neg hlt]
    by_cases hs : (normalize p).length ≤ 128 ∨ (normalize b).length ≤ 64
    · rw [if_pos hs]
      obtain ⟨quo, e, _⟩ := div_long_spec (normalize p) (normalize b) hm (by omega) hlast
      rw [e]
      exact ⟨c, _, rfl, hc⟩
    · rw [if_neg hs]
      unfold div_reverse
      have hb0 : (normalize b).reverse.getD 0 0 ≠ 0 := by
        rw [getD_reverse_eq 0 (normalize b) 0 (by omega)]; exact hlast
      obtain ⟨c1, binv, e1, h1⟩ := inv_total hodd g c hc (normalize b).reverse hb0
        ((normalize p).length - (normalize b).length + 1)
      rw [e1]
      simp only []
      obtain ⟨c2, u, e2, h2⟩ := mul_assign_total hodd g c1 (normalize p).reverse binv
      rw [e2]
      exact ⟨c2, _, rfl, h2 h1⟩

/-- C2: over an odd prime modulus, for every polynomial `p` and every `b` with at least one
nonzero coefficient (trailing zeros allowed in both), `p / b`, `(p / b) * b` and `p % b` all
return, whatever valid tables each call starts from, and `(p / b) * b + (p % b)` has the same
coefficient as `p` at every index, missing coefficients counting as zero. The statement also
covers the zero polynomial `p`. -/
theorem div_mod_identity [Fact mod.Prime] (hodd : mod ≠ 2) (g : ZMod mod)
    (c ca cb : fft_cache mod) (hc : cache_ok g c) (hca : cache_ok g ca) (hcb : cache_ok g cb)
    (p b : polynom_t mod) (hb : ∃ i, b.getD i 0 ≠ 0) :
    ∃ c1 quo c2 e c3 r, div_assign g c p b = some (c1, quo) ∧
      mul_assign g ca quo b = some (c2, e) ∧ mod_assign g cb p b = some (c3, r) ∧
      ∀ i, (add_assign e r).getD i 0 = p.getD i 0 := by
  obtain ⟨c1, quo, e1, _⟩ := div_assign_total hodd g c hc p b hb
  obtain ⟨c2, e, e2, _⟩ := mul_assign_total hodd g ca quo b
  obtain ⟨_, c1', e1', h1'⟩ := div_assign_transfer g c cb hc hcb p b c1 quo e1
  obtain ⟨_, c2', e2', _⟩ := mul_assign_transfer g ca c1' hca h1' quo b c2 e e2
  refine ⟨c1, quo, c2, e, c2', normalize (sub_assign p e), e1, e2, ?_, ?_⟩
  · unfold mod_assign
    rw [e1']
    simp only []
    rw [e2']
  · intro i
    rw [getD_add_assign, getD_normalize, getD_sub_assign]
    ring

theorem div_mod_identity_witness :
    (998244353 ≠ 2) ∧ cache_ok (3 : ZMod 998244353) (fft_cache.init 998244353) ∧
    (∃ i, ([1, 1] : polynom_t 998244353).getD i 0 ≠ 0) ∧
    (div_assign (3 : ZMod 998244353) (fft_cache.init 998244353) [1, 0, 1] [1, 1]).map
      (fun x => degree x.2) = some 1 ∧
    ∃ c1 quo c2 e c3 r,
      div_assign (3 : ZMod 998244353) (fft_cache.init 998244353) [1, 0, 1] [1, 1] =
        some (c1, quo) ∧
      mul_assign (3 : ZMod 998244353) (fft_cache.init 998244353) quo [1, 1] = some (c2, e) ∧
      mod_assign (3 : ZMod 998244353) (fft_cache.init 998244353) [1, 0, 1] [1, 1] =
        some (c3, r) ∧
      ∀ i, (add_assign e r).getD i 0 = ([1, 0, 1] : polynom_t 998244353).getD i 0 :=
  ⟨by decide, cache_ok_init 3, ⟨0, by decide⟩, by decide,
    div_mod_identity (by decide) (3 : ZMod 998244353) (fft_cache.init 998244353)
      (fft_cache.init 998244353) (fft_cache.init 998244353) (cache_ok_init 3) (cache_ok_init 3)
      (cache_ok_init 3) [1, 0, 1] [1, 1] ⟨0, by decide⟩⟩

end polynom_t

namespace polynom_t

variable {mod : Nat}

/-- C4 (amended): for a dividend `a` and a divisor `b` whose normalized lengths satisfy
`n ≥ m ≥ 1`, provided the products of the reversal algorithm are exact (with `K = n - m + 1`:
`K ≤ 128` or the modulus admits transform length `2 * K`, and the product of `n` by `K`
coefficients takes the direct branch or has an admitted transform length), the long-division
branch and the reversal branch of `operator/=` return the identical quotient sequence, which is
also the value of `a / b`. -/
theorem div_branches_agree [Fact mod.Prime] (g : ZMod mod) (hg : IsPrimitiveRoot g (mod - 1))
    (c : fft_cache mod) (hc : cache_ok g c) (a b : polynom_t mod)
    (hm : 1 ≤ (normalize b).length) (hn : (normalize b).length ≤ (normalize a).length)
    (hinv : (normalize a).length - (normalize b).length + 1 ≤ 128 ∨
      admits mod (2 * ((normalize a).length - (normalize b).length + 1)))
    (hmul : mul_ok mod (normalize a).length
      ((normalize a).length - (normalize b).length + 1)) :
    ∃ c1 c2 quo, div_long (normalize a) (normalize b) = some quo ∧
      div_reverse g c (normalize a) (normalize b) = some (c1, quo) ∧
      div_assign g c a b = some (c2, quo) := by
  have hbn : normalize b ≠ [] := by
    intro h; rw [h] at hm; simp at hm
  obtain ⟨c1, quo, e1, _, e2⟩ := div_reverse_spec g hg c hc (normalize a) (normalize b) hm hn
    (normalize_last_ne b hbn) hinv hmul
  have hdiv : ∃ c2, div_assign g c a b = some (c2, normalize quo) := by
    unfold div_assign
    simp only []
    rw [if_neg (by rw [List.isEmpty_iff]; exact hbn), if_neg (by omega)]
    by_cases hs : (normalize a).length ≤ 128 ∨ (normalize b).length ≤ 64
    · rw [if_pos hs, e2]
      exact ⟨c, rfl⟩
    · rw [if_neg hs, e1]
      exact ⟨c1, rfl⟩
  obtain ⟨c2, e3⟩ := hdiv
  exact ⟨c1, c2, normalize quo, e2, e1, e3⟩

theorem div_branches_agree_witness :
    IsPrimitiveRoot (3 : ZMod 998244353) (998244353 - 1) ∧
    cache_ok (3 : ZMod 998244353) (fft_cache.init 998244353) ∧
    1 ≤ (normalize ([1, 1] : polynom_t 998244353)).length ∧
    (normalize ([1, 1] : polynom_t 998244353)).length ≤
      (normalize ([1, 0, 1] : polynom_t 998244353)).length ∧
    ∃ c1 c2 quo, div_long (normalize ([1, 0, 1] : polynom_t 998244353)) (normalize [1, 1]) =
        some quo ∧
      div_reverse (3 : ZMod 998244353) (fft_cache.init 998244353) (normalize [1, 0, 1])
        (normalize [1, 1]) = some (c1, quo) ∧
      div_assign (3 : ZMod 998244353) (fft_cache.init 998244353) [1, 0, 1] [1, 1] =
        some (c2, quo) :=
  ⟨isPrimitiveRoot_three, cache_ok_init 3, by decide, by decide,
    div_branches_agree (3 : ZMod 998244353) isPrimitiveRoot_three (fft_cache.init 998244353)
      (cache_ok_init 3) [1, 0, 1] [1, 1] (by decide) (by decide) (Or.inl (by decide))
      (Or.inl (by decide))⟩

set_option maxRecDepth 100000 in
/-- Evaluation behind the counterexample of C4: over `mod = 17`, dividing the 65
coefficients `1` by the 45 coefficients `1`, the reversal branch multiplies 65 by 21
coefficients through a transform of length 128, which `mod - 1 = 16` does not admit, and
its quotient differs from the one of long division. -/
theorem div_branches_eval :
    (inv (3 : ZMod 17) (fft_cache.init 17) (List.replicate 45 (1 : ZMod 17)).reverse 21).bind
      (fun x => (mul_fast (3 : ZMod 17) (List.replicate 65 (1 : ZMod 17)).reverse x.2).map
        (fun y => decide (div_long (List.replicate 65 (1 : ZMod 17)) (List.replicate 45 1) =
          some (normalize (resize y 21).reverse)))) = some false := by
  decide!

end polynom_t

namespace polynom_t

theorem div_branches_counterexample :
    IsPrimitiveRoot (3 : ZMod 17) (17 - 1) ∧ cache_ok (3 : ZMod 17) (fft_cache.init 17) ∧
    1 ≤ (normalize (List.replicate 45 (1 : ZMod 17))).length ∧
    (normalize (List.replicate 45 (1 : ZMod 17))).length ≤
      (normalize (List.replicate 65 (1 : ZMod 17))).length ∧
    ¬ ∃ c1 quo, div_long (normalize (List.replicate 65 (1 : ZMod 17)))
        (normalize (List.replicate 45 (1 : ZMod 17))) = some quo ∧
      div_reverse (3 : ZMod 17) (fft_cache.init 17) (normalize (List.replicate 65 (1 : ZMod 17)))
        (normalize (List.replicate 45 (1 : ZMod 17))) = some (c1, quo) := by
  have hna : normalize (List.replicate 65 (1 : ZMod 17)) = List.replicate 65 1 := by decide
  have hnb : normalize (List.replicate 45 (1 : ZMod 17)) = List.replicate 45 1 := by decide
  rw [hna, hnb]
  refine ⟨isPrimitiveRoot_three_17, cache_ok_init 3, by decide, by decide, ?_⟩
  rintro ⟨c1, quo, h1, h2⟩
  have hev := div_branches_eval
  unfold div_reverse at h2
  have hK : (List.replicate 65 (1 : ZMod 17)).length - (List.replicate 45 (1 : ZMod 17)).length
      + 1 = 21 := by decide
  rw [hK] at h2
  obtain ⟨c', r', e1, hc1, hlen, _⟩ := inv_spec (3 : ZMod 17) isPrimitiveRoot_three_17
    (fft_cache.init 17) (cache_ok_init 3) (List.replicate 45 (1 : ZMod 17)).reverse
    (by decide) 21 (Or.inl (by decide))
  rw [e1] at h2 hev
  simp only [Option.some_bind] at h2 hev
  obtain ⟨c3, _, h4⟩ := mul_assign_eq_fast (3 : ZMod 17) c' hc1
    (List.replicate 65 (1 : ZMod 17)).reverse r'
    (by rw [hlen, List.length_reverse, List.length_replicate]; decide)
    (by rw [hlen, List.length_reverse, List.length_replicate]; decide)
  rw [h4] at h2
  cases hm : mul_fast (3 : ZMod 17) (List.replicate 65 (1 : ZMod 17)).reverse r' with
  | none => rw [hm] at h2; simp at h2
  | some y =>
    rw [hm] at h2 hev
    simp only [Option.map_some', Option.some.injEq, Prod.mk.injEq] at h2 hev
    rw [h1, ← h2.2] at hev
    simp at hev

end polynom_t

namespace polynom_t

variable {mod : Nat}

/-! ## `degree` and the remainder -/

theorem degree_loop_congr (p q : polynom_t mod) (k : Nat)
    (h : ∀ i, i < k → p.getD i 0 = q.getD i 0) : degree_loop p k = degree_loop q k := by
  induction k with
  | zero => rfl
  | succ k ih =>
    simp only [degree_loop]
    rw [h k (by omega), ih (fun i hi => h i (by omega))]

theorem degree_eq (p : polynom_t mod) : degree p = ((normalize p).length : Int) - 1 := by
  induction p using List.reverseRecOn with
  | nil => rfl
  | append_singleton l x ih =>
    unfold degree at ih ⊢
    rw [List.length_append, List.length_singleton]
    simp only [degree_loop]
    have hx : (l ++ [x]).getD l.length 0 = x := by
      rw [List.getD_append_right _ _ _ _ (le_refl _), Nat.sub_self]; rfl
    rw [hx]
    by_cases h0 : x = 0
    · subst h0
      rw [if_pos rfl, normalize_append_zero, ← ih]
      exact degree_loop_congr _ _ _ (fun i hi => List.getD_append _ _ _ _ hi)
    · rw [if_neg h0, normalize_append_ne _ _ h0, List.length_append, List.length_singleton]
      push_cast
      ring

theorem length_normalize_le_of_zero (s : polynom_t mod) (k : Nat)
    (h : ∀ i, k ≤ i → s.getD i 0 = 0) : (normalize s).length ≤ k := by
  by_contra hlt
  have hne : normalize s ≠ [] := by
    intro h0; rw [h0] at hlt; simp at hlt
  apply normalize_last_ne s hne
  rw [getD_normalize]
  exact h _ (by omega)

theorem mul_ok_mono {a a1 b : Nat} (h : mul_ok mod a b) (hle : a1 ≤ a) : mul_ok mod a1 b := by
  unfold mul_ok at h ⊢
  rcases h with h | h | h
  · exact Or.inl (by omega)
  · exact Or.inr (Or.inl (by omega))
  · exact Or.inr (Or.inr (admits_mono h (by omega)))

/-- With exact products in the reversal branch, `operator/=` returns a quotient `quo` with
`p = quo * b + R` where `R` has no coefficient at index `m - 1` or above. -/
theorem div_assign_spec [Fact mod.Prime] (g : ZMod mod) (hg : IsPrimitiveRoot g (mod - 1))
    (c : fft_cache mod) (hc : cache_ok g c) (p b : polynom_t mod)
    (hb : ∃ i, b.getD i 0 ≠ 0)
    (hdiv : (normalize p).length ≤ 128 ∨ (normalize b).length ≤ 64 ∨
      (((normalize p).length - (normalize b).length + 1 ≤ 128 ∨
          admits mod (2 * ((normalize p).length - (normalize b).length + 1))) ∧
        mul_ok mod (normalize p).length ((normalize p).length - (normalize b).length + 1))) :
    ∃ c1 quo, div_assign g c p b = some (c1, quo) ∧ cache_ok g c1 ∧
      quo.length ≤ (normalize p).length - (normalize b).length + 1 ∧
      ∃ R : Polynomial (ZMod mod), toPoly p = toPoly quo * toPoly b + R ∧
        ∀ i, (normalize b).length - 1 ≤ i → R.coeff i = 0 := by
  have hbn := normalize_ne_nil b hb
  have hlast := normalize_last_ne b hbn
  have hm : 1 ≤ (normalize b).length := by
    cases hnb : normalize b with
    | nil => exact absurd hnb hbn
    | cons x t => simp
  unfold div_assign
  simp only []
  rw [if_neg (by rw [List.isEmpty_iff]; exact hbn)]
  by_cases hlt : (normalize p).length < (normalize b).length
  · rw [if_pos hlt]
    refine ⟨c, [], rfl, hc, by simp, toPoly p, by rw [toPoly_nil, zero_mul, zero_add], ?_⟩
    intro i hi
    rw [coeff_toPoly, ← getD_normalize, getD_of_le 0 _ i (by omega)]
  · rw [if_neg hlt]
    obtain ⟨quo, e, hql, R, hA, hR⟩ := div_long_spec (normalize p) (normalize b) hm
      (by omega) hlast
    have hfin : (normalize quo).length ≤ (normalize p).length - (normalize b).length + 1 ∧
        ∃ R : Polynomial (ZMod mod), toPoly p = toPoly (normalize quo) * toPoly b + R ∧
          ∀ i, (normalize b).length - 1 ≤ i → R.coeff i = 0 := by
      refine ⟨by rw [← hql]; exact length_normalize_le quo, R, ?_, hR⟩
      rw [toPoly_normalize, ← toPoly_normalize p, ← toPoly_normalize b]
      exact hA
    by_cases hs : (normalize p).length ≤ 128 ∨ (normalize b).length ≤ 64
    · rw [if_pos hs, e]
      exact ⟨c, normalize quo, rfl, hc, hfin⟩
    · rw [if_neg hs]
      have hrev : ((normalize p).length - (normalize b).length + 1 ≤ 128 ∨
          admits mod (2 * ((normalize p).length - (normalize b).length + 1))) ∧
          mul_ok mod (normalize p).length ((normalize p).length - (normalize b).length + 1) := by
        rcases hdiv with h | h | h
        · exact absurd (Or.inl h) hs
        · exact absurd (Or.inr h) hs
        · exact h
      obtain ⟨c1, quo2, e1, hc1, e2⟩ := div_reverse_spec g hg c hc (normalize p) (normalize b)
        hm (by omega) hlast hrev.1 hrev.2
      rw [e1]
      rw [e] at e2
      injection e2 with e2
      rw [← e2]
      exact ⟨c1, normalize quo, rfl, hc1, hfin⟩

end polynom_t

namespace polynom_t

variable {mod : Nat}

/-- C3 (amended): for every polynomial `p` and every `b` with at least one nonzero
coefficient, provided the quotient is computed exactly (normalized lengths `n ≤ 128` or
`m ≤ 64`, or the reversal branch with `K = n - m + 1 ≤ 128` or transform length `2 * K`
admitted and the product of `n` by `K` coefficients exact) and the product `(p / b) * b`
of at most `K` by `|b|` stored coefficients takes the direct branch or has an admitted
transform length, the remainder `p % b` is returned, is stored normalized (empty or with a
nonzero last coefficient) and satisfies `degree (p % b) < degree b`; in particular it is
empty when `b` is a nonzero constant. -/
theorem mod_assign_degree [Fact mod.Prime] (g : ZMod mod) (hg : IsPrimitiveRoot g (mod - 1))
    (c : fft_cache mod) (hc : cache_ok g c) (p b : polynom_t mod)
    (hb : ∃ i, b.getD i 0 ≠ 0)
    (hdiv : (normalize p).length ≤ 128 ∨ (normalize b).length ≤ 64 ∨
      (((normalize p).length - (normalize b).length + 1 ≤ 128 ∨
          admits mod (2 * ((normalize p).length - (normalize b).length + 1))) ∧
        mul_ok mod (normalize p).length ((normalize p).length - (normalize b).length + 1)))
    (hmul : mul_ok mod ((normalize p).length - (normalize b).length + 1) b.length) :
    ∃ c1 r, mod_assign g c p b = some (c1, r) ∧ (r = [] ∨ r.getD (r.length - 1) 0 ≠ 0) ∧
      degree r < degree b ∧ (degree b = 0 → r = []) := by
  obtain ⟨c1, quo, e1, hc1, hql, R, hA, hR⟩ := div_assign_spec g hg c hc p b hb hdiv
  obtain ⟨c2, e2, _⟩ := mul_assign_ok g hg c1 hc1 quo b (mul_ok_mono hmul hql)
  have hm : 1 ≤ (normalize b).length := by
    have hbn := normalize_ne_nil b hb
    cases hnb : normalize b with
    | nil => exact absurd hnb hbn
    | cons x t => simp
  have hrl : (normalize (sub_assign p (conv quo b))).length ≤ (normalize b).length - 1 := by
    apply length_normalize_le_of_zero
    intro i hi
    rw [← coeff_toPoly, toPoly_sub_assign, toPoly_conv, hA]
    rw [add_sub_cancel_left]
    exact hR i hi
  have hnorm : normalize (sub_assign p (conv quo b)) = [] ∨
      (normalize (sub_assign p (conv quo b))).getD
        ((normalize (sub_assign p (conv quo b))).length - 1) 0 ≠ 0 := by
    by_cases h0 : normalize (sub_assign p (conv quo b)) = []
    · exact Or.inl h0
    · exact Or.inr (normalize_last_ne _ h0)
  refine ⟨c2, normalize (sub_assign p (conv quo b)), ?_, hnorm, ?_, ?_⟩
  · unfold mod_assign
    rw [e1]
    simp only []
    rw [e2]
  · rw [degree_eq, degree_eq, normalize_idem]
    omega
  · intro hd
    rw [degree_eq] at hd
    have : (normalize (sub_assign p (conv quo b))).length = 0 := by omega
    exact List.length_eq_zero.mp this

theorem mod_assign_degree_witness :
    IsPrimitiveRoot (3 : ZMod 998244353) (998244353 - 1) ∧
    cache_ok (3 : ZMod 998244353) (fft_cache.init 998244353) ∧
    (∃ i, ([1, 1] : polynom_t 998244353).getD i 0 ≠ 0) ∧
    (normalize ([1, 0, 1] : polynom_t 998244353)).length ≤ 128 ∧
    ∃ c1 r, mod_assign (3 : ZMod 998244353) (fft_cache.init 998244353) [1, 0, 1] [1, 1] =
        some (c1, r) ∧ (r = [] ∨ r.getD (r.length - 1) 0 ≠ 0) ∧
      degree r < degree ([1, 1] : polynom_t 998244353) ∧
      (degree ([1, 1] : polynom_t 998244353) = 0 → r = []) :=
  ⟨isPrimitiveRoot_three, cache_ok_init 3, ⟨0, by decide⟩, by decide,
    mod_assign_degree (3 : ZMod 998244353) isPrimitiveRoot_three (fft_cache.init 998244353)
      (cache_ok_init 3) [1, 0, 1] [1, 1] ⟨0, by decide⟩ (Or.inl (by decide))
      (Or.inl (by decide))⟩

set_option maxRecDepth 100000 in
/-- Evaluation behind the counterexample of C3: over `mod = 17`, for `p` the 21
coefficients `1` and `b` the constant `1` stored with 64 trailing zeros, the quotient is
`p`, and the product `(p / b) * b` of 21 by 65 coefficients goes through a transform of
length 128, which `mod - 1 = 16` does not admit; the remainder is not empty. -/
theorem mod_assign_eval :
    div_assign (3 : ZMod 17) (fft_cache.init 17) (List.replicate 21 1)
        (1 :: List.replicate 64 0) = some (fft_cache.init 17, List.replicate 21 1) ∧
    (mul_fast (3 : ZMod 17) (List.replicate 21 1) (1 :: List.replicate 64 0)).map
      (fun e => decide (normalize (sub_assign (List.replicate 21 1) e) = [])) = some false := by
  decide!

theorem mod_assign_degree_counterexample :
    cache_ok (3 : ZMod 17) (fft_cache.init 17) ∧
    (∃ i, (1 :: List.replicate 64 (0 : ZMod 17)).getD i 0 ≠ 0) ∧
    ¬ ∃ c1 r, mod_assign (3 : ZMod 17) (fft_cache.init 17) (List.replicate 21 1)
        (1 :: List.replicate 64 0) = some (c1, r) ∧
      degree r < degree (1 :: List.replicate 64 (0 : ZMod 17)) := by
  refine ⟨cache_ok_init 3, ⟨0, by decide⟩, ?_⟩
  rintro ⟨c1, r, h1, h2⟩
  obtain ⟨hd, hev⟩ := mod_assign_eval
  unfold mod_assign at h1
  rw [hd] at h1
  simp only [] at h1
  obtain ⟨c3, _, h4⟩ := mul_assign_eq_fast (3 : ZMod 17) (fft_cache.init 17) (cache_ok_init 3)
    (List.replicate 21 1) (1 :: List.replicate 64 0) (by decide) (by decide)
  rw [h4] at h1
  cases hm : mul_fast (3 : ZMod 17) (List.replicate 21 1) (1 :: List.replicate 64 0) with
  | none => rw [hm] at h1; simp at h1
  | some y =>
    rw [hm] at h1 hev
    simp only [Option.map_some', Option.some.injEq, Prod.mk.injEq] at h1 hev
    rw [h1.2] at hev
    simp only [decide_eq_false_iff_not] at hev
    have hb0 : degree (1 :: List.replicate 64 (0 : ZMod 17)) = 0 := by decide
    have hn : normalize r = r := by rw [← h1.2, normalize_idem]
    rw [degree_eq, hn, hb0] at h2
    exact hev (List.length_eq_zero.mp (by omega))

end polynom_t

namespace binary_indexed_tree

variable {α : Type}

/-! ## `pos & -pos` is the largest power of two dividing `pos` -/

theorem land_odd_compl (a j : Nat) (hj : 2 * a + 1 < 2 ^ j) :
    (2 * a + 1) &&& (2 ^ j - (2 * a + 1)) = 1 := by
  apply Nat.eq_of_testBit_eq
  intro i
  rw [Nat.testBit_and, Nat.testBit_two_pow_sub_succ (by omega)]
  have hj1 : 0 < j := by
    rcases Nat.eq_zero_or_pos j with h | h
    · rw [h] at hj; simp at hj
    · exact h
  cases i with
  | zero =>
    simp [Nat.testBit_zero, hj1]
    omega
  | succ i =>
    rw [Nat.testBit_succ, Nat.testBit_succ]
    have h1 : (2 * a + 1) / 2 = a := by omega
    have h2 : 2 * a / 2 = a := by omega
    rw [h1, h2]
    have h3 : Nat.testBit 1 (i + 1) = false := by
      rw [Nat.testBit_succ]; simp
    rw [h3]
    cases a.testBit i <;> simp

theorem lowbit_spec (c : Nat) (h0 : 0 < c) (h32 : c < 2 ^ 32) :
    ∃ k, lowbit c = 2 ^ k ∧ 2 ^ k ∣ c ∧ ¬ 2 ^ (k + 1) ∣ c := by
  obtain ⟨k, m, hm, hc⟩ := Nat.exists_eq_two_pow_mul_odd (Nat.pos_iff_ne_zero.mp h0)
  obtain ⟨a, ha⟩ := hm
  have hk : k < 32 := by
    by_contra hk
    have : 2 ^ 32 ≤ 2 ^ k := Nat.pow_le_pow_right (by norm_num) (by omega)
    have : 2 ^ k ≤ c := by rw [hc]; exact Nat.le_mul_of_pos_right _ (by omega)
    omega
  have hsplit : (2 : Nat) ^ 32 = 2 ^ k * 2 ^ (32 - k) := by
    rw [← pow_add]; congr 1; omega
  have hlt : 2 * a + 1 < 2 ^ (32 - k) := by
    have h1 : 2 ^ k * m < 2 ^ k * 2 ^ (32 - k) := by rw [← hsplit, ← hc]; exact h32
    rw [← ha]
    exact Nat.lt_of_mul_lt_mul_left h1
  refine ⟨k, ?_, ⟨m, hc⟩, ?_⟩
  · unfold lowbit
    rw [Nat.mod_eq_of_lt (by omega)]
    have hsub : 2 ^ 32 - c = 2 ^ k * (2 ^ (32 - k) - (2 * a + 1)) := by
      rw [Nat.mul_sub, ← hsplit, ← ha, ← hc]
    rw [hsub]
    nth_rewrite 1 [hc]
    rw [ha]
    apply Nat.eq_of_testBit_eq
    intro i
    rw [Nat.testBit_and, Nat.testBit_mul_pow_two, Nat.testBit_mul_pow_two]
    have h1 := land_odd_compl a (32 - k) hlt
    have h2 : ((2 * a + 1).testBit (i - k) && (2 ^ (32 - k) - (2 * a + 1)).testBit (i - k)) =
        Nat.testBit 1 (i - k) := by
      rw [← Nat.testBit_and, h1]
    have h3 : Nat.testBit (2 ^ k) i = (decide (i ≥ k) && Nat.testBit 1 (i - k)) := by
      have := @Nat.testBit_mul_pow_two k 1 i
      rwa [mul_one] at this
    rw [h3, ← h2]
    cases decide (i ≥ k) <;> simp
  · rintro ⟨q, hq⟩
    rw [hc, pow_succ, mul_assoc] at hq
    have := Nat.eq_of_mul_eq_mul_left (by positivity) hq
    omega

theorem lowbit_pos (c : Nat) (h0 : 0 < c) (h32 : c < 2 ^ 32) : 1 ≤ lowbit c := by
  obtain ⟨k, hk, _, _⟩ := lowbit_spec c h0 h32
  rw [hk]; exact Nat.one_le_two_pow

theorem lowbit_le (c : Nat) (h0 : 0 < c) (h32 : c < 2 ^ 32) : lowbit c ≤ c := by
  obtain ⟨k, hk, hd, _⟩ := lowbit_spec c h0 h32
  rw [hk]; exact Nat.le_of_dvd h0 hd

/-- Two numbers with the same exact power of two have the same exponent. -/
theorem two_pow_unique (x j k : Nat) (hj : 2 ^ j ∣ x) (hj1 : ¬ 2 ^ (j + 1) ∣ x)
    (hk : 2 ^ k ∣ x) (hk1 : ¬ 2 ^ (k + 1) ∣ x) : j = k := by
  by_contra hne
  rcases Nat.lt_or_gt_of_ne hne with h | h
  · exact hj1 ((pow_dvd_pow 2 (by omega)).trans hk)
  · exact hk1 ((pow_dvd_pow 2 (by omega)).trans hj)

/-- Between `c` and `c + lowbit c` the covered range of an index starts at `c` or later. -/
theorem lowbit_between (c r : Nat) (h0 : 0 < c) (hr0 : 0 < r) (hr : r < lowbit c)
    (h32 : c + r < 2 ^ 32) : lowbit (c + r) ≤ r := by
  obtain ⟨k, hk, hd, _⟩ := lowbit_spec c h0 (by omega)
  obtain ⟨j, hj, hjd, hjn⟩ := lowbit_spec (c + r) (by omega) h32
  rw [hj]
  rw [hk] at hr
  by_contra hlt
  -- `2^j > r`, so `2^j` does not divide `r`; but `2^j` divides `c + r`
  have hjk : j ≤ k := by
    by_contra hjk
    have h1 : 2 ^ (k + 1) ∣ 2 ^ j := pow_dvd_pow 2 (by omega)
    have h2 : 2 ^ k ∣ c + r := (pow_dvd_pow 2 (by omega)).trans hjd
    have h3 : 2 ^ k ∣ r := (Nat.dvd_add_right hd).mp h2
    have := Nat.le_of_dvd hr0 h3
    omega
  have h2 : 2 ^ j ∣ r := (Nat.dvd_add_right ((pow_dvd_pow 2 hjk).trans hd)).mp hjd
  have := Nat.le_of_dvd hr0 h2
  omega

/-- The next index of `add` covers at least the range of the current one. -/
theorem lowbit_next (c : Nat) (h0 : 0 < c) (h32 : c + lowbit c < 2 ^ 32) :
    2 * lowbit c ≤ lowbit (c + lowbit c) := by
  obtain ⟨k, hk, hd, hn⟩ := lowbit_spec c h0 (by omega)
  obtain ⟨j, hj, hjd, hjn⟩ := lowbit_spec (c + lowbit c) (by omega) h32
  rw [hj, hk]
  rw [hk] at hjd hjn
  have h1 : 2 ^ (k + 1) ∣ c + 2 ^ k := by
    obtain ⟨q, hq⟩ := hd
    have hodd : ¬ 2 ∣ q := by
      rintro ⟨t, ht⟩
      apply hn
      exact ⟨t, by rw [hq, ht, pow_succ]; ring⟩
    have : q % 2 = 1 := by omega
    refine ⟨(q + 1) / 2, ?_⟩
    have h2 : q + 1 = 2 * ((q + 1) / 2) := by omega
    calc c + 2 ^ k = 2 ^ k * (q + 1) := by rw [hq]; ring
      _ = 2 ^ k * (2 * ((q + 1) / 2)) := by rw [← h2]
      _ = 2 ^ (k + 1) * ((q + 1) / 2) := by rw [pow_succ]; ring
  have hkj : k + 1 ≤ j := by
    by_contra hlt
    exact hjn ((pow_dvd_pow 2 (by omega)).trans h1)
  calc 2 * 2 ^ k = 2 ^ (k + 1) := by rw [pow_succ]; ring
    _ ≤ 2 ^ j := Nat.pow_le_pow_right (by norm_num) hkj

end binary_indexed_tree

namespace binary_indexed_tree

variable {α : Type}

/-! ## The loops of `query` and `add` -/

theorem query_loop_spec [AddCommMonoid α] (n : Nat) (hn : n < 2 ^ 30) (bit : List α)
    (A : Nat → α) (hinv : tree_ok n bit A) (fuel : Nat) :
    ∀ (i : Nat) (s : α), i ≤ fuel → i ≤ n →
      query_loop bit fuel i s = s + ∑ j in Finset.range i, A j := by
  induction fuel with
  | zero =>
    intro i s hi _
    have : i = 0 := by omega
    subst this
    simp [query_loop]
  | succ fuel ih =>
    intro i s hi hin
    unfold query_loop
    by_cases h0 : 0 < i
    · rw [if_pos h0]
      have h32 : i < 2 ^ 32 := by
        have : (2 : Nat) ^ 30 < 2 ^ 32 := by norm_num
        omega
      have hl1 := lowbit_pos i h0 h32
      have hl2 := lowbit_le i h0 h32
      rw [ih (i - lowbit i) _ (by omega) (by omega), hinv.2 i h0 hin, add_assoc]
      congr 1
      rw [add_comm]
      exact Finset.sum_range_add_sum_Ico A (by omega)
    · rw [if_neg h0]
      have : i = 0 := by omega
      subst this
      simp

theorem sum_bump [AddCommMonoid α] (A : Nat → α) (pos : Nat) (delta : α) (s : Finset Nat) :
    ∑ j in s, (if j = pos then A j + delta else A j) =
      ∑ j in s, A j + (if pos ∈ s then delta else 0) := by
  have h : ∀ j, (if j = pos then A j + delta else A j) =
      A j + (if pos = j then delta else 0) := by
    intro j
    by_cases hj : j = pos
    · rw [if_pos hj, if_pos hj.symm]
    · rw [if_neg hj, if_neg (fun h => hj h.symm), add_zero]
  simp only [h]
  rw [Finset.sum_add_distrib, Finset.sum_ite_eq]

theorem add_loop_spec [AddCommMonoid α] (n : Nat) (hn : n < 2 ^ 30) (A : Nat → α)
    (pos : Nat) (delta : α) (fuel : Nat) :
    ∀ (c : Nat) (bit : List α), bit.length = n + 1 → n + 1 ≤ fuel + c → 1 ≤ c →
      pos < c → (c ≤ n → c - lowbit c ≤ pos) →
      (∀ i, 1 ≤ i → i < c → i ≤ n → bit.getD i 0 =
        ∑ j in Finset.Ico (i - lowbit i) i, (if j = pos then A j + delta else A j)) →
      (∀ i, c ≤ i → i ≤ n → bit.getD i 0 = ∑ j in Finset.Ico (i - lowbit i) i, A j) →
      tree_ok n (add_loop delta fuel c bit) (fun j => if j = pos then A j + delta else A j) := by
  have h3032 : (2 : Nat) ^ 30 + 2 ^ 30 < 2 ^ 32 := by norm_num
  induction fuel with
  | zero =>
    intro c bit hlen hfuel hc hpc _ hdone _
    exact ⟨hlen, fun i h1 h2 => hdone i h1 (by omega) h2⟩
  | succ fuel ih =>
    intro c bit hlen hfuel hc hpc hchain hdone hrest
    unfold add_loop
    by_cases hcn : c < bit.length
    · rw [if_pos hcn]
      rw [hlen] at hcn
      have hcn1 : c ≤ n := by omega
      have hl1 := lowbit_pos c hc (by omega)
      have hl2 := lowbit_le c hc (by omega)
      have hch := hchain hcn1
      apply ih (c + lowbit c) _ (by rw [List.length_set]; exact hlen) (by omega) (by omega)
        (by omega)
      · intro hle
        have := lowbit_next c hc (by omega)
        omega
      · intro i h1 h2 h3
        by_cases hic : i < c
        · rw [getD_set_ne bit c i _ 0 (by omega)]
          exact hdone i h1 hic h3
        · by_cases hie : i = c
          · subst hie
            rw [getD_set_self bit i _ 0 (by omega), hrest i (le_refl _) h3, sum_bump,
              if_pos (Finset.mem_Ico.mpr ⟨hch, hpc⟩)]
          · rw [getD_set_ne bit c i _ 0 (by omega), hrest i (by omega) h3, sum_bump,
              if_neg, add_zero]
            rw [Finset.mem_Ico]
            have hb := lowbit_between c (i - c) hc (by omega) (by omega) (by omega)
            have hci : c + (i - c) = i := by omega
            rw [hci] at hb
            omega
      · intro i h1 h2
        rw [getD_set_ne bit c i _ 0 (by omega)]
        exact hrest i (by omega) h2
    · rw [if_neg hcn]
      rw [hlen] at hcn
      exact ⟨hlen, fun i h1 h2 => hdone i h1 (by omega) h2⟩

/-- One call of `add` keeps the invariant, for the values bumped at `pos`. -/
theorem add_spec [AddCommMonoid α] (n : Nat) (hn : n < 2 ^ 30) (t : binary_indexed_tree α)
    (A : Nat → α) (hinv : tree_ok n t.bit A) (pos : Nat) (delta : α) :
    tree_ok n (add t pos delta).bit (fun j => if j = pos then A j + delta else A j) := by
  unfold add
  have h3032 : (2 : Nat) ^ 30 < 2 ^ 32 := by norm_num
  apply add_loop_spec n hn A pos delta t.bit.length (pos + 1) t.bit hinv.1
    (by rw [hinv.1]; omega) (by omega) (by omega)
  · intro _
    have := lowbit_pos (pos + 1) (by omega) (by omega)
    omega
  · intro i h1 h2 h3
    rw [hinv.2 i h1 h3, sum_bump, if_neg, add_zero]
    rw [Finset.mem_Ico]
    omega
  · intro i h1 h2
    exact hinv.2 i (by omega) h2

end binary_indexed_tree

namespace binary_indexed_tree

variable {α : Type}

/-! ## Histories of `add` calls -/

theorem delta_sum_nil [AddCommMonoid α] (keep : Nat → Bool) :
    delta_sum ([] : List (Nat × α)) keep = 0 := rfl

theorem delta_sum_append [AddCommMonoid α] (ops : List (Nat × α)) (pos : Nat) (delta : α)
    (keep : Nat → Bool) :
    delta_sum (ops ++ [(pos, delta)]) keep =
      delta_sum ops keep + (if keep pos then delta else 0) := by
  unfold delta_sum
  rw [List.filter_append, List.map_append, List.sum_append]
  congr 1
  by_cases h : keep pos = true
  · simp [List.filter, h]
  · simp [List.filter, h]

theorem after_adds_append [Zero α] [Add α] (n : Nat) (ops : List (Nat × α)) (pos : Nat)
    (delta : α) :
    after_adds n (ops ++ [(pos, delta)]) = add (after_adds n ops) pos delta := by
  unfold after_adds
  rw [List.foldl_append]
  rfl

theorem tree_ok_build [AddCommMonoid α] (n : Nat) :
    tree_ok n (build n : binary_indexed_tree α).bit (fun _ => 0) := by
  refine ⟨by simp [build], ?_⟩
  intro i _ hi
  rw [Finset.sum_const_zero]
  unfold build
  rw [List.getD_eq_getElem _ _ (by simp; omega)]
  simp

/-- After any history of `add` calls the vector `bit` satisfies the invariant for the
per-position sums of the deltas. -/
theorem tree_ok_after_adds [AddCommMonoid α] (n : Nat) (hn : n < 2 ^ 30)
    (ops : List (Nat × α)) :
    tree_ok n (after_adds n ops).bit (fun j => delta_sum ops (fun q => decide (q = j))) := by
  induction ops using List.reverseRecOn with
  | nil =>
    exact tree_ok_build n
  | append_singleton ops op ih =>
    obtain ⟨pos, delta⟩ := op
    rw [after_adds_append]
    have h := add_spec n hn (after_adds n ops) _ ih pos delta
    have hfun : (fun j => delta_sum (ops ++ [(pos, delta)]) (fun q => decide (q = j))) =
        (fun j => if j = pos then delta_sum ops (fun q => decide (q = j)) + delta
          else delta_sum ops (fun q => decide (q = j))) := by
      funext j
      rw [delta_sum_append]
      by_cases hj : j = pos
      · rw [if_pos hj, if_pos (by simp [hj])]
      · rw [if_neg hj, if_neg (by simp; exact fun h => hj h.symm), add_zero]
    rw [hfun]
    exact h

theorem sum_range_delta_sum [AddCommMonoid α] (ops : List (Nat × α)) (m : Nat) :
    ∑ j in Finset.range m, delta_sum ops (fun q => decide (q = j)) =
      delta_sum ops (fun q => decide (q < m)) := by
  induction ops using List.reverseRecOn with
  | nil => simp [delta_sum_nil]
  | append_singleton ops op ih =>
    obtain ⟨pos, delta⟩ := op
    simp only [delta_sum_append]
    rw [Finset.sum_add_distrib, ih]
    congr 1
    simp only [decide_eq_true_eq]
    rw [Finset.sum_ite_eq]
    simp only [Finset.mem_range]

theorem length_after_adds [AddCommMonoid α] (n : Nat) (hn : n < 2 ^ 30)
    (ops : List (Nat × α)) : (after_adds n ops).bit.length = n + 1 :=
  (tree_ok_after_adds n hn ops).1

theorem delta_sum_congr [AddCommMonoid α] (ops : List (Nat × α)) (k1 k2 : Nat → Bool)
    (h : ∀ q, k1 q = k2 q) : delta_sum ops k1 = delta_sum ops k2 := by
  have : k1 = k2 := funext h
  rw [this]

theorem query_spec [AddCommMonoid α] (n : Nat) (hn : n < 2 ^ 30) (ops : List (Nat × α))
    (pref : Int) (h1 : -1 ≤ pref) (h2 : pref < n) :
    query (after_adds n ops) pref = delta_sum ops (fun pos => decide ((pos : Int) ≤ pref)) := by
  unfold query
  rw [query_loop_spec n hn _ _ (tree_ok_after_adds n hn ops) _ _ _ (le_refl _) (by omega),
    zero_add, sum_range_delta_sum]
  apply delta_sum_congr
  intro q
  apply decide_eq_decide.mpr
  omega

end binary_indexed_tree

namespace binary_indexed_tree

variable {α : Type}

theorem delta_sum_split [AddCommMonoid α] (ops : List (Nat × α)) (k1 k2 k3 : Nat → Bool)
    (h : ∀ q, k1 q = (k2 q || k3 q)) (hd : ∀ q, ¬ (k2 q = true ∧ k3 q = true)) :
    delta_sum ops k1 = delta_sum ops k2 + delta_sum ops k3 := by
  induction ops using List.reverseRecOn with
  | nil => simp [delta_sum_nil]
  | append_singleton ops op ih =>
    obtain ⟨pos, delta⟩ := op
    rw [delta_sum_append, delta_sum_append, delta_sum_append, ih, h pos]
    have hdp := hd pos
    cases h2 : k2 pos <;> cases h3 : k3 pos
    · simp
    · simp [add_assoc]
    · simp [add_assoc, add_comm]
    · exact absurd ⟨h2, h3⟩ hdp

theorem delta_sum_false [AddCommMonoid α] (ops : List (Nat × α)) (k : Nat → Bool)
    (h : ∀ q, k q = false) : delta_sum ops k = 0 := by
  induction ops using List.reverseRecOn with
  | nil => rfl
  | append_singleton ops op ih =>
    obtain ⟨pos, delta⟩ := op
    rw [delta_sum_append, ih, h pos]
    simp

/-- C16: for a tree of size `n` (with `n < 2^30`, so that every `int` of the two loops
stays in range) built by the constructor and updated by any finite sequence of calls
`add(pos_k, delta_k)` with `0 ≤ pos_k < n`, `query(pref)` for `-1 ≤ pref < n` returns the
sum of the `delta_k` with `pos_k ≤ pref`, which is the neutral value for `pref = -1`, and
`size()` returns `n`. -/
theorem query_prefix_sum [AddCommMonoid α] (n : Nat) (hn : n < 2 ^ 30)
    (ops : List (Nat × α)) (_hops : ∀ op, op ∈ ops → op.1 < n) (pref : Int) (h1 : -1 ≤ pref)
    (h2 : pref < n) :
    query (after_adds n ops) pref = delta_sum ops (fun pos => decide ((pos : Int) ≤ pref)) ∧
    (pref = -1 → query (after_adds n ops) pref = 0) ∧
    size (after_adds n ops) = n := by
  refine ⟨query_spec n hn ops pref h1 h2, ?_, ?_⟩
  · intro hp
    rw [query_spec n hn ops pref h1 h2]
    apply delta_sum_false
    intro q
    apply decide_eq_false
    omega
  · unfold size
    rw [length_after_adds n hn ops]
    push_cast
    ring

theorem query_prefix_sum_witness :
    (10 < 2 ^ 30) ∧
    (∀ op, op ∈ [(0, (5 : Int)), (3, 2), (9, 7), (3, 1)] → op.1 < 10) ∧
    delta_sum [(0, (5 : Int)), (3, 2), (9, 7), (3, 1)] (fun pos => decide ((pos : Int) ≤ 3)) = 8 ∧
    (query (after_adds 10 [(0, (5 : Int)), (3, 2), (9, 7), (3, 1)]) 3 =
      delta_sum [(0, (5 : Int)), (3, 2), (9, 7), (3, 1)] (fun pos => decide ((pos : Int) ≤ 3)) ∧
    ((3 : Int) = -1 → query (after_adds 10 [(0, (5 : Int)), (3, 2), (9, 7), (3, 1)]) 3 = 0) ∧
    size (after_adds 10 [(0, (5 : Int)), (3, 2), (9, 7), (3, 1)]) = ((10 : Nat) : Int)) :=
  ⟨by decide, by decide, by decide,
    query_prefix_sum 10 (by decide) [(0, (5 : Int)), (3, 2), (9, 7), (3, 1)] (by decide) 3
      (by decide) (by decide)⟩

/-- C17: under the same update history, for `0 ≤ l` and `r ≤ n`, `query(l, r)` returns the
sum of the added deltas at the positions of the half-open interval `[l, r)`, and the neutral
value whenever `r ≤ l`. -/
theorem query_range_sum [AddCommGroup α] (n : Nat) (hn : n < 2 ^ 30)
    (ops : List (Nat × α)) (_hops : ∀ op, op ∈ ops → op.1 < n) (l r : Int) (hl : 0 ≤ l)
    (hr : r ≤ n) :
    query_range (after_adds n ops) l r =
      delta_sum ops (fun pos => decide (l ≤ (pos : Int) ∧ (pos : Int) < r)) ∧
    (r ≤ l → query_range (after_adds n ops) l r = 0) := by
  have hz : r ≤ l → query_range (after_adds n ops) l r = 0 := by
    intro h
    unfold query_range
    rw [if_pos h]
  refine ⟨?_, hz⟩
  by_cases h : r ≤ l
  · rw [hz h]
    symm
    apply delta_sum_false
    intro q
    apply decide_eq_false
    omega
  · unfold query_range
    rw [if_neg h, query_spec n hn ops (r - 1) (by omega) (by omega),
      query_spec n hn ops (l - 1) (by omega) (by omega)]
    rw [sub_eq_iff_eq_add, add_comm]
    apply delta_sum_split
    · intro q
      by_cases ha : (q : Int) ≤ l - 1
      · have hb : (q : Int) ≤ r - 1 := by omega
        simp [ha, hb]
      · by_cases hb : (q : Int) ≤ r - 1
        · have hc : l ≤ (q : Int) ∧ (q : Int) < r := ⟨by omega, by omega⟩
          simp [ha, hb, hc]
        · have hc : ¬ (l ≤ (q : Int) ∧ (q : Int) < r) := by omega
          simp [ha, hb, hc]
    · intro q hq
      simp only [decide_eq_true_eq] at hq
      omega

theorem query_range_sum_witness :
    (10 < 2 ^ 30) ∧
    (∀ op, op ∈ [(0, (5 : Int)), (3, 2), (9, 7), (3, 1)] → op.1 < 10) ∧
    delta_sum [(0, (5 : Int)), (3, 2), (9, 7), (3, 1)]
      (fun pos => decide ((1 : Int) ≤ (pos : Int) ∧ (pos : Int) < 10)) = 10 ∧
    (query_range (after_adds 10 [(0, (5 : Int)), (3, 2), (9, 7), (3, 1)]) 1 10 =
      delta_sum [(0, (5 : Int)), (3, 2), (9, 7), (3, 1)]
        (fun pos => decide ((1 : Int) ≤ (pos : Int) ∧ (pos : Int) < 10)) ∧
    ((10 : Int) ≤ 1 → query_range (after_adds 10 [(0, (5 : Int)), (3, 2), (9, 7), (3, 1)]) 1 10
      = 0)) :=
  ⟨by decide, by decide, by decide,
    query_range_sum 10 (by decide) [(0, (5 : Int)), (3, 2), (9, 7), (3, 1)] (by decide) 1 10
      (by decide) (by decide)⟩

end binary_indexed_tree

namespace polynom_t

variable {mod : Nat}

/-- C13: `p + q` and `p - q` have stored length exactly `max |p| |q|` and coefficient `i`
equal to `p[i] + q[i]`, respectively `p[i] - q[i]`, missing coefficients counting as zero;
in particular `p - p` is the all-zero sequence of length `|p|`. -/
theorem add_sub_pointwise (p q : polynom_t mod) :
    (add_assign p q).length = max p.length q.length ∧
    (sub_assign p q).length = max p.length q.length ∧
    (∀ i, (add_assign p q).getD i 0 = p.getD i 0 + q.getD i 0) ∧
    (∀ i, (sub_assign p q).getD i 0 = p.getD i 0 - q.getD i 0) ∧
    sub_assign p p = List.replicate p.length 0 := by
  refine ⟨length_add_assign p q, length_sub_assign p q, getD_add_assign p q,
    getD_sub_assign p q, ?_⟩
  apply list_ext_getD 0
  · rw [length_sub_assign, List.length_replicate, max_self]
  · intro i hi
    rw [getD_sub_assign, sub_self]
    rw [length_sub_assign, max_self] at hi
    rw [List.getD_eq_getElem _ _ (by rw [List.length_replicate]; exact hi)]
    simp

theorem normalize_eq_take (p : polynom_t mod) :
    normalize p = p.take (normalize p).length := by
  have h : normalize p <+: p := by
    unfold normalize
    exact List.rdropWhile_prefix _ _
  exact List.prefix_iff_eq_take.mp h

/-- C14: `degree()` returns the highest index holding a nonzero coefficient, or `-1` when
`p` is empty or all-zero; `normalize()` leaves the prefix of the original of length
`degree() + 1`, so the stored length is `degree() + 1`, the degree is unchanged, and
`normalize()` is idempotent. -/
theorem degree_normalize (p : polynom_t mod) :
    (degree p = -1 ↔ ∀ i, p.getD i 0 = 0) ∧
    (-1 ≤ degree p ∧ degree p < p.length) ∧
    (∀ k : Nat, degree p = k → p.getD k 0 ≠ 0 ∧ ∀ i, k < i → p.getD i 0 = 0) ∧
    normalize p = p.take (degree p + 1).toNat ∧
    ((normalize p).length : Int) = degree p + 1 ∧
    degree (normalize p) = degree p ∧
    normalize (normalize p) = normalize p := by
  have hd := degree_eq p
  have hle := length_normalize_le p
  refine ⟨?_, ⟨by omega, by omega⟩, ?_, ?_, by omega, ?_, normalize_idem p⟩
  · constructor
    · intro h i
      have h0 : (normalize p).length = 0 := by omega
      rw [← getD_normalize, List.length_eq_zero.mp h0]
      rfl
    · intro h
      have h0 : normalize p = [] := by
        by_contra hne
        exact normalize_last_ne p hne (by rw [getD_normalize]; exact h _)
      rw [hd, h0]
      rfl
  · intro k hk
    have hlen : (normalize p).length = k + 1 := by omega
    have hne : normalize p ≠ [] := by
      intro h0; rw [h0] at hlen; simp at hlen
    constructor
    · have := normalize_last_ne p hne
      rw [hlen, getD_normalize] at this
      exact this
    · intro i hi
      rw [← getD_normalize, getD_of_le 0 _ i (by omega)]
  · have : (degree p + 1).toNat = (normalize p).length := by omega
    rw [this]
    exact normalize_eq_take p
  · rw [degree_eq (normalize p), normalize_idem, hd]

theorem eval_fold (p : polynom_t mod) (x : ZMod mod) (n : Nat) :
    (List.range n).foldl (fun (s : ZMod mod × ZMod mod) i =>
      (s.1 * x, s.2 + p.getD i 0 * s.1)) ((1 : ZMod mod), (0 : ZMod mod)) =
      (x ^ n, ∑ i in Finset.range n, p.getD i 0 * x ^ i) := by
  induction n with
  | zero => simp
  | succ n ih =>
    rw [List.range_succ, List.foldl_append, ih]
    simp only [List.foldl_cons, List.foldl_nil]
    rw [Finset.sum_range_succ, pow_succ]

theorem eval_eq_sum (p : polynom_t mod) (x : ZMod mod) :
    eval p x = ∑ i in Finset.range p.length, p.getD i 0 * x ^ i := by
  unfold eval
  rw [eval_fold]

theorem eval_eq_of_getD (p q : polynom_t mod) (x : ZMod mod)
    (h : ∀ i, p.getD i 0 = q.getD i 0) : eval p x = eval q x := by
  rw [eval_eq_sum, eval_eq_sum]
  have key : ∀ (r : polynom_t mod) (N : Nat), r.length ≤ N →
      ∑ i in Finset.range r.length, r.getD i 0 * x ^ i =
        ∑ i in Finset.range N, r.getD i 0 * x ^ i := by
    intro r N hN
    apply Finset.sum_subset_zero_on_sdiff
    · intro i hi
      rw [Finset.mem_range] at hi ⊢
      omega
    · intro i hi
      rw [Finset.mem_sdiff, Finset.mem_range, Finset.mem_range] at hi
      rw [getD_of_le 0 r i (by omega), zero_mul]
    · intro i _
      rfl
  rw [key p (max p.length q.length) (le_max_left _ _),
    key q (max p.length q.length) (le_max_right _ _)]
  apply Finset.sum_congr rfl
  intro i _
  rw [h i]

/-- C15: `p.eval(x)` is the sum over the stored indices `i` of `p[i] * x^i` (zero for the
empty polynomial), and it is unaffected by trailing zero coefficients. -/
theorem eval_spec (p : polynom_t mod) (x : ZMod mod) :
    eval p x = ∑ i in Finset.range p.length, p.getD i 0 * x ^ i ∧
    eval ([] : polynom_t mod) x = 0 ∧
    (∀ k, eval (p ++ List.replicate k 0) x = eval p x) ∧
    eval (normalize p) x = eval p x := by
  refine ⟨eval_eq_sum p x, by rw [eval_eq_sum]; simp, ?_, ?_⟩
  · intro k
    apply eval_eq_of_getD
    intro i
    by_cases hi : i < p.length
    · rw [List.getD_append _ _ _ _ hi]
    · rw [List.getD_append_right _ _ _ _ (by omega)]
      rw [getD_of_le 0 p i (by omega)]
      by_cases hk : i - p.length < k
      · rw [List.getD_eq_getElem _ _ (by rw [List.length_replicate]; exact hk)]
        simp
      · rw [getD_of_le 0 _ _ (by rw [List.length_replicate]; omega)]
  · exact eval_eq_of_getD _ _ x (getD_normalize p)

end polynom_t

namespace polynom_t

variable {mod : Nat}

/-- C18: for a buffer `a` whose length `n` is a power of two dividing `mod - 1`, with `g`
the primitive root and `w = g^((mod-1)/n)`, `fft` returns the number-theoretic transform of
`a`: the element at index `t` is the sum over `j` of `a[j] * w^(j*t)`; on an empty buffer
it does nothing. -/
theorem fft_is_ntt [Fact mod.Prime] (g : ZMod mod) (hg : IsPrimitiveRoot g (mod - 1))
    (c : fft_cache mod) (hc : cache_ok g c) (a : polynom_t mod) (lg : Nat)
    (hlen : a.length = 2 ^ lg) (hdvd : 2 ^ lg ∣ mod - 1) :
    fft g c [] = some (c, []) ∧
    ∃ c1 r, fft g c a = some (c1, r) ∧ r.length = a.length ∧
      ∀ t, t < a.length → r.getD t 0 =
        ∑ j in Finset.range a.length, a.getD j 0 * (g ^ ((mod - 1) / a.length)) ^ (j * t) := by
  refine ⟨rfl, ?_⟩
  obtain ⟨c1, h1, _⟩ := fft_spec g hg c hc a lg hlen hdvd
  refine ⟨c1, _, h1, length_ntt _ _, ?_⟩
  intro t ht
  rw [getD_ntt _ _ _ ht]
  unfold ntt_coeff
  rw [hlen]

theorem fft_is_ntt_witness :
    IsPrimitiveRoot (3 : ZMod 17) (17 - 1) ∧ cache_ok (3 : ZMod 17) (fft_cache.init 17) ∧
    ([1, 2, 3, 4] : polynom_t 17).length = 2 ^ 2 ∧ 2 ^ 2 ∣ 17 - 1 ∧
    fft (3 : ZMod 17) (fft_cache.init 17) [1, 2, 3, 4] =
      some (⟨[0, 2, 1, 3], [16, 13]⟩, [10, 6, 15, 7]) ∧
    (fft (3 : ZMod 17) (fft_cache.init 17) [] = some (fft_cache.init 17, []) ∧
    ∃ c1 r, fft (3 : ZMod 17) (fft_cache.init 17) [1, 2, 3, 4] = some (c1, r) ∧
      r.length = ([1, 2, 3, 4] : polynom_t 17).length ∧
      ∀ t, t < ([1, 2, 3, 4] : polynom_t 17).length → r.getD t 0 =
        ∑ j in Finset.range ([1, 2, 3, 4] : polynom_t 17).length,
          ([1, 2, 3, 4] : polynom_t 17).getD j 0 *
            ((3 : ZMod 17) ^ ((17 - 1) / ([1, 2, 3, 4] : polynom_t 17).length)) ^ (j * t)) :=
  ⟨isPrimitiveRoot_three_17, cache_ok_init 3, rfl, by decide, by decide,
    fft_is_ntt (3 : ZMod 17) isPrimitiveRoot_three_17 (fft_cache.init 17) (cache_ok_init 3)
      [1, 2, 3, 4] 2 rfl (by decide)⟩

/-- C19: for a buffer `a` whose length `n` is a power of two dividing `mod - 1`, running
`fft` on `a`, running `fft` again, reversing the elements `1..n-1` and multiplying every
element by the inverse of `n` gives back `a` exactly. -/
theorem fft_inverse_recipe [Fact mod.Prime] (g : ZMod mod) (hg : IsPrimitiveRoot g (mod - 1))
    (c : fft_cache mod) (hc : cache_ok g c) (a : polynom_t mod) (lg : Nat)
    (hlen : a.length = 2 ^ lg) (hdvd : 2 ^ lg ∣ mod - 1) :
    ∃ c1 r1 c2 r2 inv_n, fft g c a = some (c1, r1) ∧ fft g c1 r1 = some (c2, r2) ∧
      fdiv 1 ((a.length : Nat) : ZMod mod) = some inv_n ∧
      (r2.take 1 ++ (r2.drop 1).reverse).map (fun x => x * inv_n) = a := by
  have hprime : mod.Prime := Fact.out
  have hmod1 : 0 < mod - 1 := by have := hprime.two_le; omega
  have hnlt : 2 ^ lg < mod := by have := Nat.le_of_dvd hmod1 hdvd; omega
  have hn0 : (((2 ^ lg : Nat)) : ZMod mod) ≠ 0 :=
    natCast_ne_zero_of_lt _ (Nat.two_pow_pos lg) hnlt
  have hw : IsPrimitiveRoot (g ^ ((mod - 1) / 2 ^ lg)) (2 ^ lg) :=
    hg.pow hmod1 (Nat.div_mul_cancel hdvd).symm
  obtain ⟨c1, h1, hc1⟩ := fft_spec g hg c hc a lg hlen hdvd
  obtain ⟨c2, h2, _⟩ := fft_spec g hg c1 hc1 (ntt (g ^ ((mod - 1) / 2 ^ lg)) a) lg
    (by rw [length_ntt, hlen]) hdvd
  refine ⟨c1, _, c2, _, 1 / (((2 ^ lg : Nat)) : ZMod mod), h1, h2,
    by rw [hlen]; exact fdiv_eq _ _ hn0, ?_⟩
  apply list_ext_getD 0
  · rw [List.length_map, List.length_append, List.length_take, List.length_reverse,
      List.length_drop, length_ntt, length_ntt, hlen]
    have := Nat.two_pow_pos lg
    omega
  · intro k hk
    have hlen2 : ((ntt (g ^ ((mod - 1) / 2 ^ lg)) (ntt (g ^ ((mod - 1) / 2 ^ lg)) a)).take 1 ++
        ((ntt (g ^ ((mod - 1) / 2 ^ lg)) (ntt (g ^ ((mod - 1) / 2 ^ lg)) a)).drop
          1).reverse).length = 2 ^ lg := by
      rw [List.length_append, List.length_take, List.length_reverse,
        List.length_drop, length_ntt, length_ntt, hlen]
      have := Nat.two_pow_pos lg
      omega
    rw [List.length_map, hlen2] at hk
    rw [List.getD_eq_getElem _ _ (by rw [List.length_map, hlen2]; exact hk),
      List.getElem_map, ← List.getD_eq_getElem _ (0 : ZMod mod),
      getD_take_one_append_reverse_drop 0 _ k (by rw [length_ntt, length_ntt, hlen]; exact hk),
      length_ntt, length_ntt, hlen,
      getD_ntt _ _ _ (by rw [length_ntt, hlen]; exact Nat.mod_lt _ (Nat.two_pow_pos lg))]
    have key := ntt_ntt (g ^ ((mod - 1) / 2 ^ lg)) a (by rw [hlen]; exact hw)
      ((2 ^ lg - k) % 2 ^ lg) (by rw [hlen]; exact Nat.mod_lt _ (Nat.two_pow_pos lg))
    rw [hlen] at key
    rw [key]
    have hidx : (2 ^ lg - (2 ^ lg - k) % 2 ^ lg) % 2 ^ lg = k := by
      by_cases h0 : k = 0
      · subst h0; simp
      · rw [Nat.mod_eq_of_lt (by omega : 2 ^ lg - k < 2 ^ lg)]
        have : 2 ^ lg - (2 ^ lg - k) = k := by omega
        rw [this, Nat.mod_eq_of_lt hk]
    rw [hidx, mul_one_div, mul_comm, mul_div_assoc, div_self hn0, mul_one]

theorem fft_inverse_recipe_witness :
    IsPrimitiveRoot (3 : ZMod 17) (17 - 1) ∧ cache_ok (3 : ZMod 17) (fft_cache.init 17) ∧
    ([1, 2, 3, 4] : polynom_t 17).length = 2 ^ 2 ∧ 2 ^ 2 ∣ 17 - 1 ∧
    ∃ c1 r1 c2 r2 inv_n, fft (3 : ZMod 17) (fft_cache.init 17) [1, 2, 3, 4] = some (c1, r1) ∧
      fft (3 : ZMod 17) c1 r1 = some (c2, r2) ∧
      fdiv 1 ((([1, 2, 3, 4] : polynom_t 17).length : Nat) : ZMod 17) = some inv_n ∧
      (r2.take 1 ++ (r2.drop 1).reverse).map (fun x => x * inv_n) = [1, 2, 3, 4] :=
  ⟨isPrimitiveRoot_three_17, cache_ok_init 3, rfl, by decide,
    fft_inverse_recipe (3 : ZMod 17) isPrimitiveRoot_three_17 (fft_cache.init 17)
      (cache_ok_init 3) [1, 2, 3, 4] 2 rfl (by decide)⟩

end polynom_t

namespace polynom_t

variable {mod : Nat}

/-! ## Every operation built on the transform is independent of the tables -/

theorem log_transfer (g : ZMod mod) (c c' : fft_cache mod) (hc : cache_ok g c)
    (hc' : cache_ok g c') (p : polynom_t mod) (d : Nat) (c1 : fft_cache mod)
    (r : polynom_t mod) (h : log g c p d = some (c1, r)) :
    cache_ok g c1 ∧ ∃ c1', log g c' p d = some (c1', r) ∧ cache_ok g c1' := by
  unfold log at h ⊢
  by_cases he : p.isEmpty ∨ p.getD 0 0 ≠ 1
  · rw [if_pos he] at h; simp at h
  · rw [if_neg he] at h ⊢
    cases hi : inv g c p d with
    | none => rw [hi] at h; simp at h
    | some x =>
      obtain ⟨ca, pinv⟩ := x
      rw [hi] at h
      simp only [] at h
      obtain ⟨hca, ca', e1, hca'⟩ := inv_transfer g c c' hc hc' p d ca pinv hi
      rw [e1]
      simp only []
      cases hm : mul_assign g ca (resize (derivative p) d) pinv with
      | none => rw [hm] at h; simp at h
      | some y =>
        obtain ⟨cb, t⟩ := y
        rw [hm] at h
        simp only [] at h
        obtain ⟨hcb, cb', e2, hcb'⟩ := mul_assign_transfer g ca ca' hca hca' _ _ cb t hm
        rw [e2]
        simp only []
        cases hint : integral (resize t d) 0 with
        | none => rw [hint] at h; simp at h
        | some u =>
          rw [hint] at h
          simp only [] at h ⊢
          injection h with h; injection h with h1 h2
          subst h1; subst h2
          exact ⟨hcb, cb', rfl, hcb'⟩

theorem exp_loop_transfer (g : ZMod mod) (p : polynom_t mod) (degree : Nat) (fuel : Nat) :
    ∀ (power : Nat) (c c' : fft_cache mod) (e : polynom_t mod), cache_ok g c → cache_ok g c' →
      ∀ (c1 : fft_cache mod) (r : polynom_t mod),
        exp_loop g p degree fuel power c e = some (c1, r) →
        cache_ok g c1 ∧ ∃ c1', exp_loop g p degree fuel power c' e = some (c1', r) ∧
          cache_ok g c1' := by
  induction fuel with
  | zero =>
    intro power c c' e hc hc' c1 r h
    unfold exp_loop at h ⊢
    injection h with h; injection h with h1 h2
    subst h1; subst h2
    exact ⟨hc, c', rfl, hc'⟩
  | succ fuel ih =>
    intro power c c' e hc hc' c1 r h
    unfold exp_loop at h ⊢
    by_cases hp : power < degree
    · rw [if_pos hp] at h ⊢
      cases h1 : log g c e (power <<< 1) with
      | none => rw [h1] at h; simp at h
      | some x1 =>
        obtain ⟨ca, l⟩ := x1
        rw [h1] at h
        simp only [] at h
        obtain ⟨hca, ca', e1, hca'⟩ := log_transfer g c c' hc hc' _ _ ca l h1
        rw [e1]
        simp only []
        cases h2 : mul_assign g ca e
            (add_assign (sub_assign [1] l) (p.take (min p.length (power <<< 1)))) with
        | none => rw [h2] at h; simp at h
        | some x2 =>
          obtain ⟨cb, u⟩ := x2
          rw [h2] at h
          simp only [] at h
          obtain ⟨hcb, cb', e2, hcb'⟩ := mul_assign_transfer g ca ca' hca hca' _ _ cb u h2
          rw [e2]
          simp only []
          exact ih _ cb cb' _ hcb hcb' c1 r h
    · rw [if_neg hp] at h ⊢
      injection h with h; injection h with h1 h2
      subst h1; subst h2
      exact ⟨hc, c', rfl, hc'⟩

theorem exp_transfer (g : ZMod mod) (c c' : fft_cache mod) (hc : cache_ok g c)
    (hc' : cache_ok g c') (p : polynom_t mod) (d : Nat) (c1 : fft_cache mod)
    (r : polynom_t mod) (h : exp g c p d = some (c1, r)) :
    cache_ok g c1 ∧ ∃ c1', exp g c' p d = some (c1', r) ∧ cache_ok g c1' := by
  unfold exp at h ⊢
  by_cases he : p.isEmpty ∨ p.getD 0 0 ≠ 0
  · rw [if_pos he] at h; simp at h
  · rw [if_neg he] at h ⊢
    cases hn : exp_loop g p d d 1 c [1] with
    | none => rw [hn] at h; simp at h
    | some x =>
      obtain ⟨ca, t⟩ := x
      rw [hn] at h
      simp only [] at h
      obtain ⟨hca, ca', e1, hca'⟩ := exp_loop_transfer g p d d 1 c c' [1] hc hc' ca t hn
      rw [e1]
      simp only []
      injection h with h; injection h with h1 h2
      subst h1; subst h2
      exact ⟨hca, ca', rfl, hca'⟩

theorem mod_assign_transfer (g : ZMod mod) (c c' : fft_cache mod) (hc : cache_ok g c)
    (hc' : cache_ok g c') (p q : polynom_t mod) (c1 : fft_cache mod) (r : polynom_t mod)
    (h : mod_assign g c p q = some (c1, r)) :
    cache_ok g c1 ∧ ∃ c1', mod_assign g c' p q = some (c1', r) ∧ cache_ok g c1' := by
  unfold mod_assign at h ⊢
  cases hd : div_assign g c p q with
  | none => rw [hd] at h; simp at h
  | some x =>
    obtain ⟨ca, quo⟩ := x
    rw [hd] at h
    simp only [] at h
    obtain ⟨hca, ca', e1, hca'⟩ := div_assign_transfer g c c' hc hc' p q ca quo hd
    rw [e1]
    simp only []
    cases hm : mul_assign g ca quo q with
    | none => rw [hm] at h; simp at h
    | some y =>
      obtain ⟨cb, e⟩ := y
      rw [hm] at h
      simp only [] at h
      obtain ⟨hcb, cb', e2, hcb'⟩ := mul_assign_transfer g ca ca' hca hca' _ _ cb e hm
      rw [e2]
      simp only []
      injection h with h; injection h with h1 h2
      subst h1; subst h2
      exact ⟨hcb, cb', rfl, hcb'⟩

/-- An operation whose results transfer between any two valid states of the tables returns
the same value (or fails alike) from both. -/
theorem snd_eq_of_transfer {α : Type} (g : ZMod mod)
    (f : fft_cache mod → Option (fft_cache mod × α))
    (h : ∀ c c1 : fft_cache mod, cache_ok g c → cache_ok g c1 → ∀ (c2 : fft_cache mod) (r : α),
      f c = some (c2, r) → ∃ c3, f c1 = some (c3, r))
    (c c1 : fft_cache mod) (hc : cache_ok g c) (hc1 : cache_ok g c1) :
    (f c).map Prod.snd = (f c1).map Prod.snd := by
  cases h1 : f c with
  | some x =>
    obtain ⟨c2, r⟩ := x
    obtain ⟨c3, h3⟩ := h c c1 hc hc1 c2 r h1
    rw [h3]
    rfl
  | none =>
    cases h2 : f c1 with
    | none => rfl
    | some x =>
      obtain ⟨c2, r⟩ := x
      obtain ⟨c3, h3⟩ := h c1 c hc1 hc c2 r h2
      rw [h3] at h1
      exact absurd h1 (by simp)

end polynom_t

namespace polynom_t

variable {mod : Nat}

/-- Any sequence of `fft` calls on empty or power-of-two buffers returns and leaves valid
tables. -/
theorem fft_calls_ok (g : ZMod mod) (bufs : List (polynom_t mod)) :
    ∀ (c : fft_cache mod), cache_ok g c →
      (∀ a, a ∈ bufs → a = [] ∨ ∃ k, a.length = 2 ^ k) →
      ∃ c1, fft_calls g c bufs = some c1 ∧ cache_ok g c1 := by
  induction bufs with
  | nil =>
    intro c hc _
    exact ⟨c, rfl, hc⟩
  | cons a rest ih =>
    intro c hc hb
    unfold fft_calls
    have hrest : ∀ b, b ∈ rest → b = [] ∨ ∃ k, b.length = 2 ^ k :=
      fun b hb1 => hb b (List.mem_cons_of_mem a hb1)
    rcases hb a (List.mem_cons_self a rest) with h | ⟨k, hk⟩
    · subst h
      have : fft g c ([] : polynom_t mod) = some (c, []) := rfl
      rw [this]
      exact ih c hc hrest
    · obtain ⟨c1, r, h1, _, h2⟩ := fft_total g c a k hk
      rw [h1]
      exact ih c1 (h2 hc) hrest

theorem mul_assign_snd_eq (g : ZMod mod) (c c1 : fft_cache mod) (hc : cache_ok g c)
    (hc1 : cache_ok g c1) (p q : polynom_t mod) :
    (mul_assign g c p q).map Prod.snd = (mul_assign g c1 p q).map Prod.snd := by
  cases h : mul_assign g c p q with
  | some x =>
    obtain ⟨c2, r⟩ := x
    obtain ⟨_, c3, h3, _⟩ := mul_assign_transfer g c c1 hc hc1 p q c2 r h
    rw [h3]
    rfl
  | none =>
    cases h1 : mul_assign g c1 p q with
    | none => rfl
    | some x =>
      obtain ⟨c2, r⟩ := x
      obtain ⟨_, c3, h3, _⟩ := mul_assign_transfer g c1 c hc1 hc p q c2 r h1
      rw [h3] at h
      exact absurd h (by simp)

/-- C20: after any sequence of `fft` calls on buffers of power-of-two lengths, the tables a
call of length `n = 2^lg` reads are: `reversed_mask` of length `n` with `reversed_mask[i]`
the `lg`-bit reversal of `i`, and `roots` of length `lg` with
`roots[i] = g^((mod-1)/2^(i+1))`; the call leaves these tables and returns `fft_fast g lg a`,
which does not mention the tables; and every operation built on the transform
(`operator*=`, `inv`, `log`, `exp`, `operator/=`, `operator%=`) returns the same sequence,
or fails alike, as from the initial tables. -/
theorem fft_cache_invariant (g : ZMod mod) (bufs : List (polynom_t mod))
    (hb : ∀ a, a ∈ bufs → a = [] ∨ ∃ k, a.length = 2 ^ k) :
    ∃ c, fft_calls g (fft_cache.init mod) bufs = some c ∧
      (∀ lg : Nat,
        (fft_reversed_mask c.reversed_mask (2 ^ lg) lg).length = 2 ^ lg ∧
        (∀ i, i < 2 ^ lg →
          (fft_reversed_mask c.reversed_mask (2 ^ lg) lg).getD i 0 = brev lg i) ∧
        (fft_roots g c.roots lg).length = lg ∧
        (∀ i, i < lg → (fft_roots g c.roots lg).getD i 0 = g ^ ((mod - 1) / 2 ^ (i + 1))) ∧
        ∀ a : polynom_t mod, a.length = 2 ^ lg →
          fft g c a = some (⟨fft_reversed_mask c.reversed_mask (2 ^ lg) lg,
            fft_roots g c.roots lg⟩, fft_fast g lg a)) ∧
      (∀ p q : polynom_t mod, (mul_assign g c p q).map Prod.snd =
        (mul_assign g (fft_cache.init mod) p q).map Prod.snd) ∧
      (∀ (p : polynom_t mod) (d : Nat), (inv g c p d).map Prod.snd =
        (inv g (fft_cache.init mod) p d).map Prod.snd) ∧
      (∀ (p : polynom_t mod) (d : Nat), (log g c p d).map Prod.snd =
        (log g (fft_cache.init mod) p d).map Prod.snd) ∧
      (∀ (p : polynom_t mod) (d : Nat), (exp g c p d).map Prod.snd =
        (exp g (fft_cache.init mod) p d).map Prod.snd) ∧
      (∀ p q : polynom_t mod, (div_assign g c p q).map Prod.snd =
        (div_assign g (fft_cache.init mod) p q).map Prod.snd) ∧
      ∀ p q : polynom_t mod, (mod_assign g c p q).map Prod.snd =
        (mod_assign g (fft_cache.init mod) p q).map Prod.snd := by
  obtain ⟨c, h1, hc⟩ := fft_calls_ok g bufs (fft_cache.init mod) (cache_ok_init g) hb
  have hi := cache_ok_init g
  refine ⟨c, h1, ?_, fun p q => mul_assign_snd_eq g c _ hc hi p q,
    fun p d => snd_eq_of_transfer g (fun x => inv g x p d)
      (fun a b ha hb c2 r h => (inv_transfer g a b ha hb p d c2 r h).2.imp (fun _ h3 => h3.1))
      c _ hc hi,
    fun p d => snd_eq_of_transfer g (fun x => log g x p d)
      (fun a b ha hb c2 r h => (log_transfer g a b ha hb p d c2 r h).2.imp (fun _ h3 => h3.1))
      c _ hc hi,
    fun p d => snd_eq_of_transfer g (fun x => exp g x p d)
      (fun a b ha hb c2 r h => (exp_transfer g a b ha hb p d c2 r h).2.imp (fun _ h3 => h3.1))
      c _ hc hi,
    fun p q => snd_eq_of_transfer g (fun x => div_assign g x p q)
      (fun a b ha hb c2 r h =>
        (div_assign_transfer g a b ha hb p q c2 r h).2.imp (fun _ h3 => h3.1))
      c _ hc hi,
    fun p q => snd_eq_of_transfer g (fun x => mod_assign g x p q)
      (fun a b ha hb c2 r h =>
        (mod_assign_transfer g a b ha hb p q c2 r h).2.imp (fun _ h3 => h3.1))
      c _ hc hi⟩
  intro lg
  have hrm := fft_reversed_mask_spec c.reversed_mask lg hc.1
  have hro := fft_roots_spec g c.roots lg hc.2
  refine ⟨hrm.1, hrm.2, hro.1, hro.2, ?_⟩
  intro a ha
  obtain ⟨c2, h2, _⟩ := fft_eq_fast g c hc a lg ha
  have h3 := fft_eq g c a lg ha
  rw [h3] at h2
  injection h2 with h2
  injection h2 with h4 h5
  rw [h3, h5]

theorem fft_cache_invariant_witness :
    (∀ a, a ∈ [([1, 2, 3, 4] : polynom_t 17), [5, 6], [], [1, 2, 3, 4, 5, 6, 7, 8]] →
      a = [] ∨ ∃ k, a.length = 2 ^ k) ∧
    ∃ c, fft_calls (3 : ZMod 17) (fft_cache.init 17)
        [[1, 2, 3, 4], [5, 6], [], [1, 2, 3, 4, 5, 6, 7, 8]] = some c ∧
      (∀ lg : Nat,
        (fft_reversed_mask c.reversed_mask (2 ^ lg) lg).length = 2 ^ lg ∧
        (∀ i, i < 2 ^ lg →
          (fft_reversed_mask c.reversed_mask (2 ^ lg) lg).getD i 0 = brev lg i) ∧
        (fft_roots (3 : ZMod 17) c.roots lg).length = lg ∧
        (∀ i, i < lg →
          (fft_roots (3 : ZMod 17) c.roots lg).getD i 0 = 3 ^ ((17 - 1) / 2 ^ (i + 1))) ∧
        ∀ a : polynom_t 17, a.length = 2 ^ lg →
          fft (3 : ZMod 17) c a = some (⟨fft_reversed_mask c.reversed_mask (2 ^ lg) lg,
            fft_roots (3 : ZMod 17) c.roots lg⟩, fft_fast (3 : ZMod 17) lg a)) ∧
      (∀ p q : polynom_t 17, (mul_assign (3 : ZMod 17) c p q).map Prod.snd =
        (mul_assign (3 : ZMod 17) (fft_cache.init 17) p q).map Prod.snd) ∧
      (∀ (p : polynom_t 17) (d : Nat), (inv (3 : ZMod 17) c p d).map Prod.snd =
        (inv (3 : ZMod 17) (fft_cache.init 17) p d).map Prod.snd) ∧
      (∀ (p : polynom_t 17) (d : Nat), (log (3 : ZMod 17) c p d).map Prod.snd =
        (log (3 : ZMod 17) (fft_cache.init 17) p d).map Prod.snd) ∧
      (∀ (p : polynom_t 17) (d : Nat), (exp (3 : ZMod 17) c p d).map Prod.snd =
        (exp (3 : ZMod 17) (fft_cache.init 17) p d).map Prod.snd) ∧
      (∀ p q : polynom_t 17, (div_assign (3 : ZMod 17) c p q).map Prod.snd =
        (div_assign (3 : ZMod 17) (fft_cache.init 17) p q).map Prod.snd) ∧
      ∀ p q : polynom_t 17, (mod_assign (3 : ZMod 17) c p q).map Prod.snd =
        (mod_assign (3 : ZMod 17) (fft_cache.init 17) p q).map Prod.snd :=
  ⟨by
    intro a ha
    simp only [List.mem_cons, List.mem_singleton, List.not_mem_nil, or_false] at ha
    rcases ha with h | h | h | h
    · exact Or.inr ⟨2, by rw [h]; rfl⟩
    · exact Or.inr ⟨1, by rw [h]; rfl⟩
    · exact Or.inl h
    · exact Or.inr ⟨3, by rw [h]; rfl⟩,
   fft_cache_invariant (3 : ZMod 17) [[1, 2, 3, 4], [5, 6], [], [1, 2, 3, 4, 5, 6, 7, 8]] (by
    intro a ha
    simp only [List.mem_cons, List.mem_singleton, List.not_mem_nil, or_false] at ha
    rcases ha with h | h | h | h
    · exact Or.inr ⟨2, by rw [h]; rfl⟩
    · exact Or.inr ⟨1, by rw [h]; rfl⟩
    · exact Or.inl h
    · exact Or.inr ⟨3, by rw [h]; rfl⟩)⟩

end polynom_t

namespace polynom_t

variable {mod : Nat}

theorem normalize_eq_nil_of_zero (b : polynom_t mod) (h : ∀ i, b.getD i 0 = 0) :
    normalize b = [] := by
  by_contra hne
  exact normalize_last_ne b hne (by rw [getD_normalize]; exact h _)

theorem div_reverse_total [Fact mod.Prime] (hodd : mod ≠ 2) (g : ZMod mod)
    (c : fft_cache mod) (hc : cache_ok g c) (a b : polynom_t mod) (hm : 1 ≤ b.length)
    (hb : b.getD (b.length - 1) 0 ≠ 0) :
    ∃ c1 q, div_reverse g c a b = some (c1, q) ∧ cache_ok g c1 := by
  unfold div_reverse
  have hb0 : b.reverse.getD 0 0 ≠ 0 := by
    rw [getD_reverse_eq 0 b 0 (by omega)]; exact hb
  obtain ⟨c1, binv, e1, h1⟩ := inv_total hodd g c hc b.reverse hb0 (a.length - b.length + 1)
  rw [e1]
  simp only []
  obtain ⟨c2, u, e2, h2⟩ := mul_assign_total hodd g c1 a.reverse binv
  rw [e2]
  exact ⟨c2, _, rfl, h2 h1⟩

/-- C11: over an odd prime modulus, `p / b` (and hence `p % b`) fails exactly when `b` is the
zero polynomial (empty or all coefficients zero); when `b` has a nonzero coefficient both the
long-division branch and the reversal branch return a result on the normalized operands
(with `n ≥ m`), and a dividend of smaller degree, the zero dividend included, yields the
empty quotient. -/
theorem div_assign_fails_iff [Fact mod.Prime] (hodd : mod ≠ 2) (g : ZMod mod)
    (c : fft_cache mod) (hc : cache_ok g c) (p b : polynom_t mod) :
    (div_assign g c p b = none ↔ ∀ i, b.getD i 0 = 0) ∧
    (mod_assign g c p b = none ↔ ∀ i, b.getD i 0 = 0) ∧
    ((∃ i, b.getD i 0 ≠ 0) → degree p < degree b → div_assign g c p b = some (c, [])) ∧
    ((∃ i, b.getD i 0 ≠ 0) → (normalize b).length ≤ (normalize p).length →
      (∃ q, div_long (normalize p) (normalize b) = some q) ∧
      ∃ c1 q, div_reverse g c (normalize p) (normalize b) = some (c1, q)) := by
  have hzero : (∀ i, b.getD i 0 = 0) → div_assign g c p b = none := by
    intro h
    unfold div_assign
    simp only []
    rw [normalize_eq_nil_of_zero b h]
    rfl
  have hne : ¬ (∀ i, b.getD i 0 = 0) → ∃ i, b.getD i 0 ≠ 0 := by
    intro h
    by_contra h1
    exact h (fun i => by_contra (fun h2 => h1 ⟨i, h2⟩))
  refine ⟨⟨?_, hzero⟩, ⟨?_, ?_⟩, ?_, ?_⟩
  · intro h
    by_contra h1
    obtain ⟨c1, q, e, _⟩ := div_assign_total hodd g c hc p b (hne h1)
    rw [e] at h
    exact absurd h (by simp)
  · intro h
    by_contra h1
    obtain ⟨c1, q, e, _⟩ := div_assign_total hodd g c hc p b (hne h1)
    obtain ⟨c2, r, e2, _⟩ := mul_assign_total hodd g c1 q b
    unfold mod_assign at h
    rw [e] at h
    simp only [] at h
    rw [e2] at h
    exact absurd h (by simp)
  · intro h
    unfold mod_assign
    rw [hzero h]
  · intro hb hdeg
    have hbn := normalize_ne_nil b hb
    rw [degree_eq, degree_eq] at hdeg
    unfold div_assign
    simp only []
    rw [if_neg (by rw [List.isEmpty_iff]; exact hbn), if_pos (by omega)]
  · intro hb hle
    have hbn := normalize_ne_nil b hb
    have hlast := normalize_last_ne b hbn
    have hm : 1 ≤ (normalize b).length := by
      cases hnb : normalize b with
      | nil => exact absurd hnb hbn
      | cons x t => simp
    obtain ⟨quo, e, _⟩ := div_long_spec (normalize p) (normalize b) hm hle hlast
    obtain ⟨c1, q, e1, _⟩ := div_reverse_total hodd g c hc (normalize p) (normalize b) hm hlast
    exact ⟨⟨_, e⟩, c1, q, e1⟩

theorem div_assign_fails_iff_witness :
    (998244353 ≠ 2) ∧ cache_ok (3 : ZMod 998244353) (fft_cache.init 998244353) ∧
    div_assign (3 : ZMod 998244353) (fft_cache.init 998244353) [1, 0, 1] [0, 0] = none ∧
    div_assign (3 : ZMod 998244353) (fft_cache.init 998244353) [1, 1] [1, 0, 1] =
      some (fft_cache.init 998244353, []) ∧
    ((div_assign (3 : ZMod 998244353) (fft_cache.init 998244353) [1, 0, 1] [1, 1] = none ↔
      ∀ i, ([1, 1] : polynom_t 998244353).getD i 0 = 0) ∧
    (mod_assign (3 : ZMod 998244353) (fft_cache.init 998244353) [1, 0, 1] [1, 1] = none ↔
      ∀ i, ([1, 1] : polynom_t 998244353).getD i 0 = 0) ∧
    ((∃ i, ([1, 1] : polynom_t 998244353).getD i 0 ≠ 0) →
      degree ([1, 0, 1] : polynom_t 998244353) < degree ([1, 1] : polynom_t 998244353) →
      div_assign (3 : ZMod 998244353) (fft_cache.init 998244353) [1, 0, 1] [1, 1] =
        some (fft_cache.init 998244353, [])) ∧
    ((∃ i, ([1, 1] : polynom_t 998244353).getD i 0 ≠ 0) →
      (normalize ([1, 1] : polynom_t 998244353)).length ≤
        (normalize ([1, 0, 1] : polynom_t 998244353)).length →
      (∃ q, div_long (normalize ([1, 0, 1] : polynom_t 998244353)) (normalize [1, 1]) =
        some q) ∧
      ∃ c1 q, div_reverse (3 : ZMod 998244353) (fft_cache.init 998244353)
        (normalize [1, 0, 1]) (normalize [1, 1]) = some (c1, q))) :=
  ⟨by decide, cache_ok_init 3, by decide, by decide,
    div_assign_fails_iff (by decide) (3 : ZMod 998244353) (fft_cache.init 998244353)
      (cache_ok_init 3) [1, 0, 1] [1, 1]⟩

end polynom_t

namespace polynom_t

variable {mod : Nat}

/-! ## `log` -/

theorem toPoly_derivative (p : polynom_t mod) :
    toPoly (derivative p) = Polynomial.derivative (toPoly p) := by
  ext i
  rw [coeff_toPoly, getD_derivative, Polynomial.coeff_derivative, coeff_toPoly]
  push_cast
  ring

theorem modX_derivative {n : Nat} {A B : Polynomial (ZMod mod)} (h : modX (n + 1) A B) :
    modX n (Polynomial.derivative A) (Polynomial.derivative B) := by
  rw [modX_iff] at *
  intro i hi
  rw [Polynomial.coeff_derivative, Polynomial.coeff_derivative, h (i + 1) (by omega)]

theorem modX_derivative_pred {n : Nat} {A B : Polynomial (ZMod mod)} (h : modX n A B) :
    modX (n - 1) (Polynomial.derivative A) (Polynomial.derivative B) := by
  rcases Nat.eq_zero_or_pos n with h0 | h0
  · subst h0
    rw [modX_iff]
    intro i hi
    omega
  · have : n = (n - 1) + 1 := by omega
    rw [this] at h
    exact modX_derivative h

/-- Two polynomials with the same constant term whose derivatives agree below `X^n` agree
below `X^(n+1)`, when `n < mod`. -/
theorem modX_of_derivative [Fact mod.Prime] {n : Nat} {A B : Polynomial (ZMod mod)}
    (hn : n < mod) (h0 : A.coeff 0 = B.coeff 0)
    (h : modX n (Polynomial.derivative A) (Polynomial.derivative B)) : modX (n + 1) A B := by
  rw [modX_iff] at *
  intro i hi
  cases i with
  | zero => exact h0
  | succ j =>
    have hj := h j (by omega)
    rw [Polynomial.coeff_derivative, Polynomial.coeff_derivative] at hj
    have hne : ((j : ZMod mod) + 1) ≠ 0 := by
      have := @natCast_ne_zero_of_lt mod (j + 1) (by omega) (by omega)
      push_cast at this
      exact this
    exact mul_right_cancel₀ hne hj

/-- A factor with nonzero constant term can be cancelled from a congruence modulo `X^n`. -/
theorem modX_cancel [Fact mod.Prime] {n : Nat} {A B Y : Polynomial (ZMod mod)}
    (hY : Y.coeff 0 ≠ 0) (h : modX n (A * Y) (B * Y)) : modX n A B := by
  unfold modX at *
  rw [← sub_mul] at h
  apply Polynomial.prime_X.pow_dvd_of_dvd_mul_right n _ h
  rw [Polynomial.X_dvd_iff]
  exact hY

theorem one_ne_zero_zmod [Fact mod.Prime] : (1 : ZMod mod) ≠ 0 := one_ne_zero

/-- With exact products, `log` returns `L` of length `degree` with constant term `0` and
`L' * p ≡ p'` modulo `X^(degree - 1)`. -/
theorem log_spec [Fact mod.Prime] (g : ZMod mod) (hg : IsPrimitiveRoot g (mod - 1))
    (c : fft_cache mod) (hc : cache_ok g c) (p : polynom_t mod) (hp1 : p.getD 0 0 = 1)
    (d : Nat) (hd : d < mod) (hadm : d ≤ 64 ∨ admits mod (2 * d)) :
    ∃ c1 L, log g c p d = some (c1, L) ∧ cache_ok g c1 ∧ L.length = d ∧ L.getD 0 0 = 0 ∧
      modX (d - 1) (Polynomial.derivative (toPoly L) * toPoly p)
        (Polynomial.derivative (toPoly p)) := by
  have hp0 : p.getD 0 0 ≠ 0 := by rw [hp1]; exact one_ne_zero
  have hpe : ¬ (p.isEmpty ∨ p.getD 0 0 ≠ 1) := by
    intro h
    rcases h with h | h
    · rw [List.isEmpty_iff] at h
      rw [h] at hp0
      exact hp0 rfl
    · exact h hp1
  obtain ⟨c1, pinv, e1, hc1, hlen, hinv⟩ := inv_spec g hg c hc p hp0 d
    (by rcases hadm with h | h
        · exact Or.inl (by omega)
        · exact Or.inr h)
  obtain ⟨c2, e2, hc2⟩ := mul_assign_ok g hg c1 hc1 (resize (derivative p) d) pinv
    (by rw [length_resize, hlen]
        rcases hadm with h | h
        · exact Or.inr (Or.inl (by omega))
        · exact mul_ok_of_admits h (by omega))
  obtain ⟨r, e3, hrl, hr⟩ := integral_spec
    (resize (conv (resize (derivative p) d) pinv) d) 0 (by rw [length_resize]; exact hd)
  rw [length_resize] at hrl
  refine ⟨c2, resize r d, ?_, hc2, length_resize _ _, ?_, ?_⟩
  · unfold log
    rw [if_neg hpe, e1]
    simp only []
    rw [e2]
    simp only []
    rw [e3]
  · rw [getD_resize]
    split
    · rw [hr 0, if_pos rfl]
    · rfl
  · -- `L' ≡ p' * pinv`, then multiply by `p`
    have hL : modX (d - 1) (Polynomial.derivative (toPoly (resize r d)))
        (Polynomial.derivative (toPoly p) * toPoly pinv) := by
      have h1 : modX (d - 1) (Polynomial.derivative (toPoly (resize r d)))
          (toPoly (conv (resize (derivative p) d) pinv)) := by
        rw [modX_iff]
        intro i hi
        have hne : ((i : ZMod mod) + 1) ≠ 0 := by
          have := @natCast_ne_zero_of_lt mod (i + 1) (by omega) (by omega)
          push_cast at this
          exact this
        rw [Polynomial.coeff_derivative, coeff_toPoly, coeff_toPoly, getD_resize,
          if_pos (by omega), hr (i + 1), if_neg (by omega), if_pos (by rw [length_resize]; omega),
          Nat.add_sub_cancel, getD_resize, if_pos (by omega)]
        push_cast
        rw [div_mul_cancel₀ _ hne]
      have h2 : modX (d - 1) (toPoly (conv (resize (derivative p) d) pinv))
          (Polynomial.derivative (toPoly p) * toPoly pinv) := by
        rw [toPoly_conv, ← toPoly_derivative]
        exact modX_of_le (modX_mul (modX_resize (derivative p) d) (modX_refl d (toPoly pinv)))
          (by omega)
      exact modX_trans h1 h2
    have h3 := modX_mul hL (modX_refl (d - 1) (toPoly p))
    have h4 : modX (d - 1) (Polynomial.derivative (toPoly p) * toPoly pinv * toPoly p)
        (Polynomial.derivative (toPoly p)) := by
      have := modX_mul (modX_refl d (Polynomial.derivative (toPoly p))) hinv
      rw [mul_one, mul_comm (toPoly p) (toPoly pinv), ← mul_assoc] at this
      exact modX_of_le this (by omega)
    exact modX_trans h3 h4

end polynom_t

namespace polynom_t

variable {mod : Nat}

/-- C8 (amended): for every polynomial `p` with constant term `1` and every `d` with
`1 ≤ d < mod`, provided `d ≤ 64` or the modulus admits transform length `2 * d` (so that the
inverse and the product inside `log` are exact) and the product `L.derivative() * p` of
`d - 1` by `|p|` coefficients takes the direct branch or has an admitted transform length,
`L = p.log(d)` has stored length exactly `d`, constant term `0`, and `L.derivative() * p`
agrees with `p.derivative()` on every coefficient of index `0 .. d-2`. -/
theorem log_identity [Fact mod.Prime] (g : ZMod mod) (hg : IsPrimitiveRoot g (mod - 1))
    (c : fft_cache mod) (hc : cache_ok g c) (p : polynom_t mod) (hp1 : p.getD 0 0 = 1)
    (d : Nat) (_h1 : 1 ≤ d) (hd : d < mod) (hadm : d ≤ 64 ∨ admits mod (2 * d))
    (hmul : mul_ok mod (d - 1) p.length) :
    ∃ c1 L c2 r, log g c p d = some (c1, L) ∧ L.length = d ∧ L.getD 0 0 = 0 ∧
      mul_assign g c1 (derivative L) p = some (c2, r) ∧
      ∀ i, i < d - 1 → r.getD i 0 = (derivative p).getD i 0 := by
  obtain ⟨c1, L, e1, hc1, hlen, hL0, hmodX⟩ := log_spec g hg c hc p hp1 d hd hadm
  obtain ⟨c2, e2, _⟩ := mul_assign_ok g hg c1 hc1 (derivative L) p
    (by rw [length_derivative, hlen]; exact hmul)
  refine ⟨c1, L, c2, _, e1, hlen, hL0, e2, ?_⟩
  intro i hi
  rw [← coeff_toPoly, ← coeff_toPoly, toPoly_conv, toPoly_derivative, toPoly_derivative]
  exact (modX_iff _ _ _).mp hmodX i hi

theorem log_identity_witness :
    IsPrimitiveRoot (3 : ZMod 998244353) (998244353 - 1) ∧
    cache_ok (3 : ZMod 998244353) (fft_cache.init 998244353) ∧
    ([1, 1] : polynom_t 998244353).getD 0 0 = 1 ∧ 1 ≤ 4 ∧ 4 < 998244353 ∧
    ∃ c1 L c2 r, log (3 : ZMod 998244353) (fft_cache.init 998244353) [1, 1] 4 = some (c1, L) ∧
      L.length = 4 ∧ L.getD 0 0 = 0 ∧
      mul_assign (3 : ZMod 998244353) c1 (derivative L) [1, 1] = some (c2, r) ∧
      ∀ i, i < 4 - 1 → r.getD i 0 = (derivative ([1, 1] : polynom_t 998244353)).getD i 0 :=
  ⟨isPrimitiveRoot_three, cache_ok_init 3, by decide, by decide, by decide,
    log_identity (3 : ZMod 998244353) isPrimitiveRoot_three (fft_cache.init 998244353)
      (cache_ok_init 3) [1, 1] (by decide) 4 (by decide) (by decide) (Or.inl (by decide))
      (Or.inl (by decide))⟩

set_option maxRecDepth 100000 in
/-- Evaluation behind the counterexample of C8: over `mod = 193`, for `p = [1, 1]` and
`d = 65`, the product inside `log` multiplies 65 by 65 coefficients through a transform of
length 256, which `mod - 1 = 192` does not admit, and `L.derivative() * p` does not agree
with `p.derivative()` on the indices `0 .. 63`. -/
theorem log_identity_eval :
    (inv (5 : ZMod 193) (fft_cache.init 193) [1, 1] 65).bind (fun x =>
      (mul_fast (5 : ZMod 193) (resize (derivative [1, 1]) 65) x.2).bind (fun t =>
        (integral (resize t 65) 0).map (fun r =>
          decide (resize (mul_brute (derivative (resize r 65)) [1, 1]) 64 =
            resize (derivative [1, 1]) 64)))) = some false := by
  decide!

theorem log_identity_counterexample :
    Nat.Prime 193 ∧ IsPrimitiveRoot (5 : ZMod 193) (193 - 1) ∧
    cache_ok (5 : ZMod 193) (fft_cache.init 193) ∧
    ([1, 1] : polynom_t 193).getD 0 0 = 1 ∧ 1 ≤ 65 ∧ 65 < 193 ∧
    ¬ ∃ c1 L c2 r, log (5 : ZMod 193) (fft_cache.init 193) [1, 1] 65 = some (c1, L) ∧
      mul_assign (5 : ZMod 193) c1 (derivative L) [1, 1] = some (c2, r) ∧
      ∀ i, i < 65 - 1 → r.getD i 0 = (derivative ([1, 1] : polynom_t 193)).getD i 0 := by
  refine ⟨Fact.out, isPrimitiveRoot_five_193, cache_ok_init 5, by decide, by decide,
    by decide, ?_⟩
  rintro ⟨c1, L, c2, r, h1, h2, h3⟩
  have hev := log_identity_eval
  obtain ⟨c', pinv, e1, hc1, hlen, _⟩ := inv_spec (5 : ZMod 193) isPrimitiveRoot_five_193
    (fft_cache.init 193) (cache_ok_init 5) [1, 1] (by decide) 65 (Or.inl (by decide))
  unfold log at h1
  rw [if_neg (by decide), e1] at h1
  rw [e1] at hev
  simp only [Option.some_bind] at h1 hev
  obtain ⟨c3, _, h4⟩ := mul_assign_eq_fast (5 : ZMod 193) c' hc1
    (resize (derivative [1, 1]) 65) pinv
    (by rw [hlen, length_resize]; decide) (by rw [hlen, length_resize]; decide)
  rw [h4] at h1
  cases hm : mul_fast (5 : ZMod 193) (resize (derivative [1, 1]) 65) pinv with
  | none => rw [hm] at h1; simp at h1
  | some t =>
    rw [hm] at h1 hev
    simp only [Option.map_some', Option.some_bind] at h1 hev
    cases hi : integral (resize t 65) 0 with
    | none => rw [hi] at h1; simp at h1
    | some r0 =>
      rw [hi] at h1 hev
      simp only [Option.map_some', Option.some.injEq, Prod.mk.injEq] at h1 hev
      obtain ⟨hc, hL⟩ := h1
      subst hL
      have hdl : (derivative (resize r0 65)).length = 64 := by
        rw [length_derivative, length_resize]
      have hne : derivative (resize r0 65) ≠ [] := by
        intro h0; rw [h0] at hdl; simp at hdl
      unfold mul_assign at h2
      rw [if_neg (by simp [hne]), if_pos (Or.inl (by rw [hdl]; decide))] at h2
      simp only [Option.some.injEq, Prod.mk.injEq] at h2
      simp only [decide_eq_false_iff_not] at hev
      apply hev
      apply list_ext_getD 0
      · rw [length_resize, length_resize]
      · intro i hi2
        rw [length_resize] at hi2
        rw [getD_resize, if_pos hi2, getD_resize, if_pos hi2, h2.2]
        exact h3 i hi2

end polynom_t

namespace polynom_t

variable {mod : Nat}

/-! ## `exp`: one doubling round -/

theorem resize_eq_self (p : polynom_t mod) : resize p p.length = p := by
  apply list_ext_getD 0
  · rw [length_resize]
  · intro i hi
    rw [length_resize] at hi
    rw [getD_resize, if_pos hi]

/-- The algebra of one Newton round of `exp`: with `F = 1 - L + Pt`, the defect of `Y * F`
in the equation `y' = P' * y` is `(Pt - L) * (Y' - P' * Y)` up to the defects of `L` and
of the truncation `Pt`. -/
theorem exp_round_identity (Y L P Pt : Polynomial (ZMod mod)) :
    Polynomial.derivative (Y * (1 - L + Pt)) - Polynomial.derivative P * (Y * (1 - L + Pt)) =
      (Pt - L) * (Polynomial.derivative Y - Polynomial.derivative P * Y)
        - Y * (Polynomial.derivative P - Polynomial.derivative Pt)
        - (Polynomial.derivative L * Y - Polynomial.derivative Y) := by
  rw [Polynomial.derivative_mul, Polynomial.derivative_add, Polynomial.derivative_sub,
    Polynomial.derivative_one]
  ring

theorem exp_round [Fact mod.Prime] (g : ZMod mod) (hg : IsPrimitiveRoot g (mod - 1))
    (p : polynom_t mod) (hp0 : p.getD 0 0 = 0) (d m : Nat) (hm1 : 1 ≤ m) (hmd : m < d)
    (hmod : 2 * m < mod) (hadm : 2 * m ≤ 64 ∨ admits mod (2 * (2 * m)))
    (c : fft_cache mod) (hc : cache_ok g c) (y : polynom_t mod) (hylen : y.length = m)
    (hy0 : y.getD 0 0 = 1)
    (hode : modX (m - 1) (Polynomial.derivative (toPoly y))
      (Polynomial.derivative (toPoly p) * toPoly y)) :
    ∃ c1 L c2 e2, log g c y (2 * m) = some (c1, L) ∧
      mul_assign g c1 y (add_assign (sub_assign [1] L) (p.take (min p.length (2 * m)))) =
        some (c2, e2) ∧ cache_ok g c2 ∧
      (resize e2 (min d (2 * m))).length = min d (2 * m) ∧
      (resize e2 (min d (2 * m))).getD 0 0 = 1 ∧
      modX (min d (2 * m) - 1) (Polynomial.derivative (toPoly (resize e2 (min d (2 * m)))))
        (Polynomial.derivative (toPoly p) * toPoly (resize e2 (min d (2 * m)))) := by
  obtain ⟨c1, L, e1, hc1, hLlen, hL0, hLy⟩ := log_spec g hg c hc y hy0 (2 * m) hmod hadm
  have hflen : (add_assign (sub_assign [1] L) (p.take (min p.length (2 * m)))).length
      = 2 * m := by
    rw [length_add_assign, length_sub_assign, hLlen, List.length_take]
    simp only [List.length_singleton]
    omega
  obtain ⟨c2, e2, hc2⟩ := mul_assign_ok g hg c1 hc1 y
    (add_assign (sub_assign [1] L) (p.take (min p.length (2 * m))))
    (by rw [hflen, hylen]
        rcases hadm with h | h
        · exact Or.inr (Or.inl (by omega))
        · exact mul_ok_of_admits h (by omega))
  have hF : toPoly (add_assign (sub_assign [1] L) (p.take (min p.length (2 * m)))) =
      1 - toPoly L + toPoly (p.take (min p.length (2 * m))) := by
    rw [toPoly_add_assign, toPoly_sub_assign, toPoly_one]
  -- abbreviations
  have hPt : modX (2 * m) (toPoly (p.take (min p.length (2 * m)))) (toPoly p) :=
    modX_take p (2 * m)
  have hY0 : (toPoly y).coeff 0 ≠ 0 := by
    rw [coeff_toPoly, hy0]; exact one_ne_zero
  -- `L ≡ P` modulo `X^m`
  have hLP : modX m (toPoly L) (toPoly p) := by
    have h1 : modX (m - 1) (Polynomial.derivative (toPoly L) * toPoly y)
        (Polynomial.derivative (toPoly p) * toPoly y) :=
      modX_trans (modX_of_le hLy (by omega)) hode
    have h2 := modX_cancel hY0 h1
    have h3 := modX_of_derivative (n := m - 1) (by omega)
      (by rw [coeff_toPoly, coeff_toPoly, hL0, hp0]) h2
    have : m - 1 + 1 = m := by omega
    rwa [this] at h3
  have hE : (Polynomial.X : Polynomial (ZMod mod)) ^ m ∣
      toPoly (p.take (min p.length (2 * m))) - toPoly L :=
    modX_trans (modX_of_le hPt (by omega)) (modX_symm hLP)
  have hD : (Polynomial.X : Polynomial (ZMod mod)) ^ (m - 1) ∣
      Polynomial.derivative (toPoly y) - Polynomial.derivative (toPoly p) * toPoly y := hode
  have hR2 : (Polynomial.X : Polynomial (ZMod mod)) ^ (2 * m - 1) ∣
      Polynomial.derivative (toPoly p) -
        Polynomial.derivative (toPoly (p.take (min p.length (2 * m)))) :=
    modX_derivative_pred (modX_symm hPt)
  have hR1 : (Polynomial.X : Polynomial (ZMod mod)) ^ (2 * m - 1) ∣
      Polynomial.derivative (toPoly L) * toPoly y - Polynomial.derivative (toPoly y) := hLy
  have hprod : modX (2 * m - 1)
      (Polynomial.derivative (toPoly y * (1 - toPoly L + toPoly (p.take (min p.length (2 * m))))))
      (Polynomial.derivative (toPoly p) *
        (toPoly y * (1 - toPoly L + toPoly (p.take (min p.length (2 * m)))))) := by
    unfold modX
    rw [exp_round_identity]
    apply dvd_sub
    · apply dvd_sub
      · have : 2 * m - 1 = m + (m - 1) := by omega
        rw [this, pow_add]
        exact mul_dvd_mul hE hD
      · exact Dvd.dvd.mul_left hR2 _
    · exact hR1
  have hres : modX (min d (2 * m))
      (toPoly (resize (conv y (add_assign (sub_assign [1] L)
        (p.take (min p.length (2 * m))))) (min d (2 * m))))
      (toPoly y * (1 - toPoly L + toPoly (p.take (min p.length (2 * m))))) := by
    have := modX_resize (conv y (add_assign (sub_assign [1] L)
      (p.take (min p.length (2 * m))))) (min d (2 * m))
    rwa [toPoly_conv, hF] at this
  refine ⟨c1, L, c2, _, e1, e2, hc2, length_resize _ _, ?_, ?_⟩
  · have h0 := (modX_iff _ _ _).mp hres 0 (by omega)
    rw [coeff_toPoly] at h0
    rw [h0, Polynomial.mul_coeff_zero, Polynomial.coeff_add, Polynomial.coeff_sub,
      Polynomial.coeff_one_zero, coeff_toPoly, coeff_toPoly, coeff_toPoly, hy0, hL0,
      getD_take]
    split
    · rw [hp0]; ring
    · ring
  · have h1 := modX_derivative_pred hres
    have h2 := modX_of_le hprod (show min d (2 * m) - 1 ≤ 2 * m - 1 by omega)
    have h3 := modX_of_le
      (modX_mul (modX_refl (min d (2 * m)) (Polynomial.derivative (toPoly p))) (modX_symm hres))
      (show min d (2 * m) - 1 ≤ min d (2 * m) by omega)
    exact modX_trans h1 (modX_trans h2 h3)

end polynom_t

namespace polynom_t

variable {mod : Nat}

/-! ## `exp`: the doubling loop -/

theorem pow_shiftLeft_one (k : Nat) : 2 ^ k <<< 1 = 2 * 2 ^ k := by
  rw [Nat.shiftLeft_eq]; ring

/-- The admissibility of every round below `d`, from one power of two `2^s ≥ d`. -/
theorem exp_rounds_ok {d s : Nat} (hs : d ≤ 2 ^ s) (hsm : 2 ^ s < mod)
    (hadm : 2 ^ s ≤ 64 ∨ 2 ^ (s + 1) ∣ mod - 1) (j : Nat) (hj : 2 ^ j < d) :
    2 * 2 ^ j < mod ∧ (2 * 2 ^ j ≤ 64 ∨ admits mod (2 * (2 * 2 ^ j))) := by
  have hjs : j < s := by
    by_contra h
    have : 2 ^ s ≤ 2 ^ j := Nat.pow_le_pow_right (by norm_num) (by omega)
    omega
  have hle : 2 * 2 ^ j ≤ 2 ^ s := by
    have h1 : 2 ^ (j + 1) ≤ 2 ^ s := Nat.pow_le_pow_right (by norm_num) (by omega)
    rw [pow_succ] at h1
    omega
  refine ⟨by omega, ?_⟩
  rcases hadm with h | h
  · exact Or.inl (by omega)
  · refine Or.inr ⟨s + 1, ?_, h⟩
    rw [pow_succ]
    omega

theorem exp_loop_spec [Fact mod.Prime] (g : ZMod mod) (hg : IsPrimitiveRoot g (mod - 1))
    (p : polynom_t mod) (hp0 : p.getD 0 0 = 0) (d : Nat) (_hd1 : 1 ≤ d)
    (hr : ∀ j, 2 ^ j < d → 2 * 2 ^ j < mod ∧ (2 * 2 ^ j ≤ 64 ∨ admits mod (2 * (2 * 2 ^ j))))
    (fuel : Nat) :
    ∀ (k : Nat) (c : fft_cache mod) (y : polynom_t mod), cache_ok g c → d ≤ fuel + 2 ^ k →
      y.length = min d (2 ^ k) → y.getD 0 0 = 1 →
      modX (min d (2 ^ k) - 1) (Polynomial.derivative (toPoly y))
        (Polynomial.derivative (toPoly p) * toPoly y) →
      ∃ c1 r, exp_loop g p d fuel (2 ^ k) c y = some (c1, r) ∧ cache_ok g c1 ∧
        r.length = d ∧ r.getD 0 0 = 1 ∧
        modX (d - 1) (Polynomial.derivative (toPoly r))
          (Polynomial.derivative (toPoly p) * toPoly r) := by
  induction fuel with
  | zero =>
    intro k c y hc hf hlen hy0 hode
    have hmin : min d (2 ^ k) = d := by omega
    rw [hmin] at hlen hode
    exact ⟨c, y, rfl, hc, hlen, hy0, hode⟩
  | succ fuel ih =>
    intro k c y hc hf hlen hy0 hode
    unfold exp_loop
    by_cases hlt : 2 ^ k < d
    · rw [if_pos hlt]
      have hmin : min d (2 ^ k) = 2 ^ k := by omega
      rw [hmin] at hlen hode
      obtain ⟨hmod, hadm⟩ := hr k hlt
      obtain ⟨c1, L, c2, e2, e1, e3, hc2, hl2, h02, hode2⟩ := exp_round g hg p hp0 d (2 ^ k)
        Nat.one_le_two_pow hlt hmod hadm c hc y hlen hy0 hode
      rw [pow_shiftLeft_one, e1]
      simp only []
      rw [e3]
      simp only []
      have hpow : 2 * 2 ^ k = 2 ^ (k + 1) := by rw [pow_succ]; ring
      have h2k : 1 ≤ 2 ^ k := Nat.one_le_two_pow
      have hfuel : d ≤ fuel + 2 ^ (k + 1) := by rw [← hpow]; omega
      rw [hpow] at hl2 h02 hode2 ⊢
      exact ih (k + 1) c2 _ hc2 hfuel hl2 h02 hode2
    · rw [if_neg hlt]
      have hmin : min d (2 ^ k) = d := by omega
      rw [hmin] at hlen hode
      exact ⟨c, y, rfl, hc, hlen, hy0, hode⟩

/-- With exact products and nonzero divisors in every round, `exp` returns `y` of length
`degree` with constant term `1` and `y' ≡ p' * y` modulo `X^(degree - 1)`. -/
theorem exp_spec [Fact mod.Prime] (g : ZMod mod) (hg : IsPrimitiveRoot g (mod - 1))
    (c : fft_cache mod) (hc : cache_ok g c) (p : polynom_t mod) (hpne : p ≠ [])
    (hp0 : p.getD 0 0 = 0) (d : Nat) (hd1 : 1 ≤ d)
    (hr : ∀ j, 2 ^ j < d → 2 * 2 ^ j < mod ∧ (2 * 2 ^ j ≤ 64 ∨ admits mod (2 * (2 * 2 ^ j)))) :
    ∃ c1 y, exp g c p d = some (c1, y) ∧ cache_ok g c1 ∧ y.length = d ∧ y.getD 0 0 = 1 ∧
      modX (d - 1) (Polynomial.derivative (toPoly y))
        (Polynomial.derivative (toPoly p) * toPoly y) := by
  have hmin : min d (2 ^ 0) = 1 := by
    rw [pow_zero]; omega
  obtain ⟨c1, r, e1, hc1, hlen, hr0, hode⟩ := exp_loop_spec g hg p hp0 d hd1 hr d 0 c [1] hc
    (by omega) (by rw [hmin]; rfl) rfl
    (by rw [hmin, modX_iff]; intro i hi; omega)
  rw [pow_zero] at e1
  refine ⟨c1, r, ?_, hc1, hlen, hr0, hode⟩
  unfold exp
  rw [if_neg (by
    intro h
    rcases h with h | h
    · rw [List.isEmpty_iff] at h; exact hpne h
    · exact h hp0), e1]
  simp only []
  rw [← hlen, resize_eq_self]

end polynom_t

namespace polynom_t

variable {mod : Nat}

/-- The element `3` generates the multiplicative group modulo `7`. -/
theorem isPrimitiveRoot_three_7 : IsPrimitiveRoot (3 : ZMod 7) (7 - 1) := by
  have e1 : (3 : ZMod 7) ^ (7 - 1) = 1 := by decide
  have e2 : (3 : ZMod 7) ^ ((7 - 1) / 2) ≠ 1 := by decide
  have e3 : (3 : ZMod 7) ^ ((7 - 1) / 3) ≠ 1 := by decide
  have key : orderOf (3 : ZMod 7) = 7 - 1 := by
    apply orderOf_eq_of_pow_and_pow_div_prime (by norm_num) e1
    intro p hp hdvd
    have hfac : (7 - 1 : Nat) = 2 * 3 := by norm_num
    rw [hfac] at hdvd
    rcases (Nat.Prime.dvd_mul hp).mp hdvd with h | h
    · have := (Nat.prime_dvd_prime_iff_eq hp Nat.prime_two).mp h
      subst this
      exact e2
    · have := (Nat.prime_dvd_prime_iff_eq hp Nat.prime_three).mp h
      subst this
      exact e3
  rw [← key]
  exact IsPrimitiveRoot.orderOf _

theorem admits_of_pow {d s : Nat} (hs : d ≤ 2 ^ s) (hadm : 2 ^ s ≤ 64 ∨ 2 ^ (s + 1) ∣ mod - 1) :
    d ≤ 64 ∨ admits mod (2 * d) := by
  rcases hadm with h | h
  · exact Or.inl (by omega)
  · refine Or.inr ⟨s + 1, ?_, h⟩
    rw [pow_succ]
    omega

theorem eq_resize_of_modX (y p : polynom_t mod) (d : Nat) (hlen : y.length = d)
    (h : modX d (toPoly y) (toPoly p)) : y = resize p d := by
  apply list_ext_getD 0
  · rw [hlen, length_resize]
  · intro i hi
    rw [hlen] at hi
    rw [getD_resize, if_pos hi]
    exact (modX_iff _ _ _).mp h i hi

/-- C7 (amended): for every non-empty polynomial `p` with constant term `0` and every
`d ≥ 1` for which some power of two `2^s ≥ d` is smaller than `mod` (every divisor met by
the nested `log` calls is then nonzero) and either `2^s ≤ 64` or `2^(s+1)` divides `mod - 1`
(every product is then exact), `y = p.exp(d)` has stored length exactly `d`, constant term
`1`, and `y.log(d)` equals `p` truncated or zero-padded to `d` coefficients. -/
theorem exp_log_inverse [Fact mod.Prime] (g : ZMod mod) (hg : IsPrimitiveRoot g (mod - 1))
    (c : fft_cache mod) (hc : cache_ok g c) (p : polynom_t mod) (hpne : p ≠ [])
    (hp0 : p.getD 0 0 = 0) (d : Nat) (hd1 : 1 ≤ d) (s : Nat) (hs : d ≤ 2 ^ s)
    (hsm : 2 ^ s < mod) (hadm : 2 ^ s ≤ 64 ∨ 2 ^ (s + 1) ∣ mod - 1) :
    ∃ c1 y c2, exp g c p d = some (c1, y) ∧ y.length = d ∧ y.getD 0 0 = 1 ∧
      log g c1 y d = some (c2, resize p d) := by
  obtain ⟨c1, y, e1, hc1, hlen, hy0, hode⟩ := exp_spec g hg c hc p hpne hp0 d hd1
    (exp_rounds_ok hs hsm hadm)
  obtain ⟨c2, L, e2, _, hLlen, hL0, hLy⟩ := log_spec g hg c1 hc1 y hy0 d (by omega)
    (admits_of_pow hs hadm)
  refine ⟨c1, y, c2, e1, hlen, hy0, ?_⟩
  rw [e2]
  congr 2
  apply eq_resize_of_modX L p d hLlen
  have hY0 : (toPoly y).coeff 0 ≠ 0 := by
    rw [coeff_toPoly, hy0]; exact one_ne_zero
  have h2 := modX_cancel hY0 (modX_trans hLy hode)
  have h3 := modX_of_derivative (n := d - 1) (by omega)
    (by rw [coeff_toPoly, coeff_toPoly, hL0, hp0]) h2
  have : d - 1 + 1 = d := by omega
  rwa [this] at h3

set_option maxRecDepth 100000 in
theorem exp_log_inverse_witness :
    IsPrimitiveRoot (3 : ZMod 998244353) (998244353 - 1) ∧
    cache_ok (3 : ZMod 998244353) (fft_cache.init 998244353) ∧
    ([0, 1] : polynom_t 998244353) ≠ [] ∧ ([0, 1] : polynom_t 998244353).getD 0 0 = 0 ∧
    1 ≤ 4 ∧ 4 ≤ 2 ^ 2 ∧ 2 ^ 2 < 998244353 ∧
    (exp (3 : ZMod 998244353) (fft_cache.init 998244353) [0, 1] 4).map Prod.snd =
      some [1, 1, 499122177, 166374059] ∧
    (2 : ZMod 998244353) * 499122177 = 1 ∧ (6 : ZMod 998244353) * 166374059 = 1 ∧
    ∃ c1 y c2, exp (3 : ZMod 998244353) (fft_cache.init 998244353) [0, 1] 4 = some (c1, y) ∧
      y.length = 4 ∧ y.getD 0 0 = 1 ∧
      log (3 : ZMod 998244353) c1 y 4 = some (c2, resize [0, 1] 4) :=
  ⟨isPrimitiveRoot_three, cache_ok_init 3, by decide, by decide, by decide, by decide,
    by decide, by decide!, by decide, by decide,
    exp_log_inverse (3 : ZMod 998244353) isPrimitiveRoot_three (fft_cache.init 998244353)
      (cache_ok_init 3) [0, 1] (by decide) (by decide) 4 (by decide) 2 (by decide) (by decide)
      (Or.inl (by decide))⟩

set_option maxRecDepth 100000 in
theorem exp_log_inverse_counterexample :
    Nat.Prime 7 ∧ IsPrimitiveRoot (3 : ZMod 7) (7 - 1) ∧
    cache_ok (3 : ZMod 7) (fft_cache.init 7) ∧
    ([0, 1] : polynom_t 7) ≠ [] ∧ ([0, 1] : polynom_t 7).getD 0 0 = 0 ∧ 1 ≤ 5 ∧ 5 < 7 ∧
    ¬ ∃ c1 y, exp (3 : ZMod 7) (fft_cache.init 7) [0, 1] 5 = some (c1, y) ∧ y.length = 5 := by
  refine ⟨Fact.out, isPrimitiveRoot_three_7, cache_ok_init 3, by decide, by decide, by decide,
    by decide, ?_⟩
  rintro ⟨c1, y, h1, _⟩
  have hev : exp (3 : ZMod 7) (fft_cache.init 7) [0, 1] 5 = none := by decide!
  rw [hev] at h1
  exact absurd h1 (by simp)

end polynom_t

namespace polynom_t

variable {mod : Nat}

/-- The algebra behind the uniqueness of the solution of `y' = L' * y`: for `U = Y * Q`,
`P * U'` is a combination of the defects of `Y`, of `L` and of `P * Q = 1`. -/
theorem exp_unique_identity (Y L P Q : Polynomial (ZMod mod)) :
    Polynomial.derivative (Y * Q) * P =
      P * Q * (Polynomial.derivative Y - Polynomial.derivative L * Y)
        + (Polynomial.derivative L * P - Polynomial.derivative P) * (Y * Q)
        + Y * Polynomial.derivative (P * Q - 1) := by
  rw [Polynomial.derivative_mul, Polynomial.derivative_sub, Polynomial.derivative_mul,
    Polynomial.derivative_one]
  ring

/-- C6 (amended): for every polynomial `p` with constant term `1` and every `d ≥ 1` for
which some power of two `2^s ≥ d` is smaller than `mod` and either `2^s ≤ 64` or `2^(s+1)`
divides `mod - 1`, `p.log(d).exp(d)` equals `p` truncated or zero-padded to exactly `d`
coefficients. -/
theorem log_exp_roundtrip [Fact mod.Prime] (g : ZMod mod) (hg : IsPrimitiveRoot g (mod - 1))
    (c : fft_cache mod) (hc : cache_ok g c) (p : polynom_t mod) (hp1 : p.getD 0 0 = 1)
    (d : Nat) (hd1 : 1 ≤ d) (s : Nat) (hs : d ≤ 2 ^ s) (hsm : 2 ^ s < mod)
    (hadm : 2 ^ s ≤ 64 ∨ 2 ^ (s + 1) ∣ mod - 1) :
    ∃ c1 L c2, log g c p d = some (c1, L) ∧ exp g c1 L d = some (c2, resize p d) := by
  have hdadm := admits_of_pow hs hadm
  obtain ⟨c1, L, e1, hc1, hLlen, hL0, hLp⟩ := log_spec g hg c hc p hp1 d (by omega) hdadm
  have hLne : L ≠ [] := by
    intro h; rw [h] at hLlen; simp at hLlen; omega
  obtain ⟨c2, y, e2, _, hylen, hy0, hode⟩ := exp_spec g hg c1 hc1 L hLne hL0 d hd1
    (exp_rounds_ok hs hsm hadm)
  have hp0 : p.getD 0 0 ≠ 0 := by rw [hp1]; exact one_ne_zero
  obtain ⟨_, q, _, _, _, hinv⟩ := inv_spec g hg c hc p hp0 d
    (by rcases hdadm with h | h
        · exact Or.inl (by omega)
        · exact Or.inr h)
  refine ⟨c1, L, c2, e1, ?_⟩
  rw [e2]
  congr 2
  apply eq_resize_of_modX y p d hylen
  -- `U = Y * Q` has derivative `0` and constant term `1` modulo `X^d`
  have hP0 : (toPoly p).coeff 0 ≠ 0 := by rw [coeff_toPoly]; exact hp0
  have hU' : modX (d - 1) (Polynomial.derivative (toPoly y * toPoly q) * toPoly p)
      (Polynomial.derivative 1 * toPoly p) := by
    unfold modX
    rw [Polynomial.derivative_one, zero_mul, sub_zero, exp_unique_identity _ (toPoly L)]
    apply dvd_add
    · apply dvd_add
      · exact Dvd.dvd.mul_left hode _
      · exact Dvd.dvd.mul_right hLp _
    · apply Dvd.dvd.mul_left
      have h := modX_derivative_pred hinv
      unfold modX at h
      rw [Polynomial.derivative_one, sub_zero] at h
      rw [Polynomial.derivative_sub, Polynomial.derivative_one, sub_zero]
      exact h
  have hq0 : (toPoly q).coeff 0 = 1 := by
    have h := (modX_iff _ _ _).mp hinv 0 (by omega)
    rw [Polynomial.mul_coeff_zero, coeff_toPoly, hp1, one_mul, Polynomial.coeff_one_zero] at h
    exact h
  have hU : modX d (toPoly y * toPoly q) 1 := by
    have h3 := modX_of_derivative (n := d - 1) (by omega)
      (by rw [Polynomial.mul_coeff_zero, coeff_toPoly, hy0, hq0, one_mul,
            Polynomial.coeff_one_zero]) (modX_cancel hP0 hU')
    have : d - 1 + 1 = d := by omega
    rwa [this] at h3
  have h4 : modX d (toPoly y * (toPoly p * toPoly q)) (toPoly y * 1) :=
    modX_mul (modX_refl d (toPoly y)) hinv
  have h5 : modX d (toPoly y * toPoly q * toPoly p) (1 * toPoly p) :=
    modX_mul hU (modX_refl d (toPoly p))
  rw [mul_one] at h4
  rw [one_mul] at h5
  have h6 : toPoly y * (toPoly p * toPoly q) = toPoly y * toPoly q * toPoly p := by ring
  rw [h6] at h4
  exact modX_trans (modX_symm h4) h5

set_option maxRecDepth 100000 in
theorem log_exp_roundtrip_witness :
    IsPrimitiveRoot (3 : ZMod 998244353) (998244353 - 1) ∧
    cache_ok (3 : ZMod 998244353) (fft_cache.init 998244353) ∧
    ([1, 1] : polynom_t 998244353).getD 0 0 = 1 ∧
    1 ≤ 4 ∧ 4 ≤ 2 ^ 2 ∧ 2 ^ 2 < 998244353 ∧
    ∃ c1 L c2, log (3 : ZMod 998244353) (fft_cache.init 998244353) [1, 1] 4 = some (c1, L) ∧
      exp (3 : ZMod 998244353) c1 L 4 = some (c2, resize [1, 1] 4) :=
  ⟨isPrimitiveRoot_three, cache_ok_init 3, by decide, by decide, by decide, by decide,
    log_exp_roundtrip (3 : ZMod 998244353) isPrimitiveRoot_three (fft_cache.init 998244353)
      (cache_ok_init 3) [1, 1] (by decide) 4 (by decide) 2 (by decide) (by decide)
      (Or.inl (by decide))⟩

set_option maxRecDepth 100000 in
theorem log_exp_roundtrip_counterexample :
    Nat.Prime 7 ∧ IsPrimitiveRoot (3 : ZMod 7) (7 - 1) ∧
    cache_ok (3 : ZMod 7) (fft_cache.init 7) ∧
    ([1, 1] : polynom_t 7).getD 0 0 = 1 ∧ 1 ≤ 5 ∧ 5 < 7 ∧
    ¬ ∃ c1 L c2 y, log (3 : ZMod 7) (fft_cache.init 7) [1, 1] 5 = some (c1, L) ∧
      exp (3 : ZMod 7) c1 L 5 = some (c2, y) := by
  refine ⟨Fact.out, isPrimitiveRoot_three_7, cache_ok_init 3, by decide, by decide,
    by decide, ?_⟩
  rintro ⟨c1, L, c2, y, h1, h2⟩
  have hev : (log (3 : ZMod 7) (fft_cache.init 7) [1, 1] 5).bind
      (fun x => exp (3 : ZMod 7) x.1 x.2 5) = none := by decide!
  rw [h1] at hev
  simp only [Option.some_bind] at hev
  rw [hev] at h2
  exact absurd h2 (by simp)

end polynom_t

namespace polynom_t

variable {mod : Nat}

theorem log_total [Fact mod.Prime] (hodd : mod ≠ 2) (g : ZMod mod) (c : fft_cache mod)
    (hc : cache_ok g c) (p : polynom_t mod) (hp1 : p.getD 0 0 = 1) (d : Nat) (hd : d < mod) :
    ∃ c1 L, log g c p d = some (c1, L) := by
  have hp0 : p.getD 0 0 ≠ 0 := by rw [hp1]; exact one_ne_zero
  have hpe : ¬ (p.isEmpty ∨ p.getD 0 0 ≠ 1) := by
    intro h
    rcases h with h | h
    · rw [List.isEmpty_iff] at h
      rw [h] at hp0
      exact hp0 rfl
    · exact h hp1
  obtain ⟨c1, pinv, e1, _⟩ := inv_total hodd g c hc p hp0 d
  obtain ⟨c2, t, e2, _⟩ := mul_assign_total hodd g c1 (resize (derivative p) d) pinv
  obtain ⟨r, e3, _⟩ := integral_spec (resize t d) 0 (by rw [length_resize]; exact hd)
  refine ⟨c2, resize r d, ?_⟩
  unfold log
  rw [if_neg hpe, e1]
  simp only []
  rw [e2]
  simp only []
  rw [e3]

theorem isEmpty_or_iff (p : polynom_t mod) (P : Prop) :
    (p.isEmpty = true ∨ P) ↔ (p = [] ∨ P) := by
  rw [List.isEmpty_iff]

/-- C12 (amended): over an odd prime modulus, for every polynomial `p` and every `d` with
`1 ≤ d < mod`: `p.inv(d)` fails exactly when `p` is empty or `p[0] = 0`; `p.log(d)` fails
exactly when `p` is empty or `p[0] ≠ 1`; and, when some power of two `2^s ≥ d` is smaller
than `mod` and either `2^s ≤ 64` or `2^(s+1)` divides `mod - 1`, `p.exp(d)` fails exactly
when `p` is empty or `p[0] ≠ 0`. -/
theorem inv_log_exp_fail_iff [Fact mod.Prime] (hodd : mod ≠ 2) (g : ZMod mod)
    (hg : IsPrimitiveRoot g (mod - 1)) (c : fft_cache mod) (hc : cache_ok g c)
    (p : polynom_t mod) (d : Nat) (hd1 : 1 ≤ d) (hd : d < mod) :
    (inv g c p d = none ↔ (p = [] ∨ p.getD 0 0 = 0)) ∧
    (log g c p d = none ↔ (p = [] ∨ p.getD 0 0 ≠ 1)) ∧
    (∀ s, d ≤ 2 ^ s → 2 ^ s < mod → (2 ^ s ≤ 64 ∨ 2 ^ (s + 1) ∣ mod - 1) →
      (exp g c p d = none ↔ (p = [] ∨ p.getD 0 0 ≠ 0))) := by
  refine ⟨⟨?_, ?_⟩, ⟨?_, ?_⟩, ?_⟩
  · intro h
    by_contra hn
    have hp0 : p.getD 0 0 ≠ 0 := fun h0 => hn (Or.inr h0)
    obtain ⟨c1, r, e, _⟩ := inv_total hodd g c hc p hp0 d
    rw [e] at h
    exact absurd h (by simp)
  · intro h
    unfold inv
    rw [if_pos ((isEmpty_or_iff p _).mpr h)]
  · intro h
    by_contra hn
    have hp1 : p.getD 0 0 = 1 := by
      by_contra h1
      exact hn (Or.inr h1)
    obtain ⟨c1, r, e⟩ := log_total hodd g c hc p hp1 d hd
    rw [e] at h
    exact absurd h (by simp)
  · intro h
    unfold log
    rw [if_pos ((isEmpty_or_iff p _).mpr h)]
  · intro s hs hsm hadm
    constructor
    · intro h
      by_contra hn
      have hpne : p ≠ [] := fun h0 => hn (Or.inl h0)
      have hp0 : p.getD 0 0 = 0 := by
        by_contra h1
        exact hn (Or.inr h1)
      obtain ⟨c1, y, e, _⟩ := exp_spec g hg c hc p hpne hp0 d hd1 (exp_rounds_ok hs hsm hadm)
      rw [e] at h
      exact absurd h (by simp)
    · intro h
      unfold exp
      rw [if_pos ((isEmpty_or_iff p _).mpr h)]

theorem inv_log_exp_fail_iff_witness :
    998244353 ≠ 2 ∧ IsPrimitiveRoot (3 : ZMod 998244353) (998244353 - 1) ∧
    cache_ok (3 : ZMod 998244353) (fft_cache.init 998244353) ∧ 1 ≤ 4 ∧ 4 < 998244353 ∧
    inv (3 : ZMod 998244353) (fft_cache.init 998244353) [0, 1] 4 = none ∧
    log (3 : ZMod 998244353) (fft_cache.init 998244353) [0, 1] 4 = none ∧
    ((inv (3 : ZMod 998244353) (fft_cache.init 998244353) [0, 1] 4 = none ↔
      (([0, 1] : polynom_t 998244353) = [] ∨ ([0, 1] : polynom_t 998244353).getD 0 0 = 0)) ∧
    (log (3 : ZMod 998244353) (fft_cache.init 998244353) [0, 1] 4 = none ↔
      (([0, 1] : polynom_t 998244353) = [] ∨ ([0, 1] : polynom_t 998244353).getD 0 0 ≠ 1)) ∧
    (∀ s, 4 ≤ 2 ^ s → 2 ^ s < 998244353 → (2 ^ s ≤ 64 ∨ 2 ^ (s + 1) ∣ 998244353 - 1) →
      (exp (3 : ZMod 998244353) (fft_cache.init 998244353) [0, 1] 4 = none ↔
        (([0, 1] : polynom_t 998244353) = [] ∨
          ([0, 1] : polynom_t 998244353).getD 0 0 ≠ 0)))) :=
  ⟨by decide, isPrimitiveRoot_three, cache_ok_init 3, by decide, by decide, by decide,
    by decide,
    inv_log_exp_fail_iff (by decide) (3 : ZMod 998244353) isPrimitiveRoot_three
      (fft_cache.init 998244353) (cache_ok_init 3) [0, 1] 4 (by decide) (by decide)⟩

set_option maxRecDepth 100000 in
theorem inv_log_exp_fail_iff_counterexample :
    Nat.Prime 7 ∧ 7 ≠ 2 ∧ IsPrimitiveRoot (3 : ZMod 7) (7 - 1) ∧
    cache_ok (3 : ZMod 7) (fft_cache.init 7) ∧ 1 ≤ 5 ∧ 5 < 7 ∧
    ¬ (exp (3 : ZMod 7) (fft_cache.init 7) [0, 1] 5 = none ↔
      (([0, 1] : polynom_t 7) = [] ∨ ([0, 1] : polynom_t 7).getD 0 0 ≠ 0)) := by
  refine ⟨Fact.out, by decide, isPrimitiveRoot_three_7, cache_ok_init 3, by decide,
    by decide, ?_⟩
  intro h
  have hev : exp (3 : ZMod 7) (fft_cache.init 7) [0, 1] 5 = none := by decide!
  rcases h.mp hev with h1 | h1
  · exact absurd h1 (by decide)
  · exact absurd h1 (by decide)

end polynom_t
